import Mathlib

/-!
# EIR data liberator: extraction-to-canonical pipeline and handoff protocol

A shallow embedding of

* `src/extension/src/connectors/se/1177/normalizer.js` (`Normalizer1177`),
* `src/extension/src/core/eir-formatter.js` (`EIRFormatter`),
* `src/extension/data-transfer.js` (`DataTransferManager`),
* `src/extension/src/core/connector-registry.js` (`ConnectorRegistry`),
* `src/extension/src/connectors/base-connector.js` and
  `src/extension/src/connectors/se/1177/connector.js` (`isAuthenticated`),
* `src/extension/src/connectors/se/1177/scraper.js` (`Scraper1177`),

followed by theorems about the embedded functions.

## Modelling conventions

* A JavaScript string is a `Str`, the list of its characters; one `Char` stands for one
  UTF-16 code unit, so `length`, `substring`, `padStart` count characters.
* A property or argument that may be missing is an `Option`: `none` is `undefined`
  (or `null` where the source writes `null`).  `falsy` is JavaScript truthiness on such a
  value: missing and the empty string are falsy.
* A regular expression is a value of `Re`, run by a backtracking matcher with the
  semantics of `String.prototype.match` without the `g` flag: leftmost start position,
  greedy quantifiers, alternatives in order.  `m[i]` is `Match.group i`, an `Option Str`
  that is `none` when the group did not take part in the match.
* A function whose JavaScript body may raise, or may return `undefined` where a string is
  expected, returns `Option`; `none` is that outcome.
* The clock (`Date.now()`, `new Date().toISOString()`) and `Math.random()` are explicit
  arguments.
* What the page shows (the results of `querySelector`, `getElementsByClassName`,
  `textContent`, `window.location.href`) and what `new ConnectorClass()` does are explicit
  arguments too.
* The built-in `toLowerCase` is modelled on strings of Basic Latin and Latin-1 characters,
  where it works character by character.  A property of the tags that is stated for every
  string takes the built-in as an argument, of which it assumes what it uses.
-/

namespace Eir

/-! ## Strings -/

/-- A JavaScript string as the list of its characters. -/
abbrev Str := List Char

/-- JavaScript truthiness of a possibly missing string: missing and `''` are falsy. -/
def falsy (s : Option Str) : Bool :=
  match s with
  | none => true
  | some [] => true
  | some (_ :: _) => false

/-- The expression `a || b` on a possibly missing string `a` with a string fallback `b`. -/
def orElse (a : Option Str) (b : Str) : Str :=
  match a with
  | some (c :: cs) => c :: cs
  | _ => b

/-- The expression `a || b` where `b` may itself be missing; the result is `b` when `a` is
falsy. -/
def orOpt (a b : Option Str) : Option Str :=
  match a with
  | some (c :: cs) => some (c :: cs)
  | _ => b

/-- The class `\d`: the ASCII digits. -/
def isDigit (c : Char) : Bool := decide (0x30 ≤ c.toNat) && decide (c.toNat ≤ 0x39)

/-- The class `\w`: ASCII letters, ASCII digits and the underscore. -/
def isWord (c : Char) : Bool :=
  (decide (0x61 ≤ c.toNat) && decide (c.toNat ≤ 0x7A))
    || (decide (0x41 ≤ c.toNat) && decide (c.toNat ≤ 0x5A)) || isDigit c || c.toNat == 0x5F

/-- The class `\s`, which is also the set of characters removed by `trim()`: white space and
line terminators of ECMAScript. -/
def isSpace (c : Char) : Bool :=
  let n := c.toNat
  n == 0x09 || n == 0x0A || n == 0x0B || n == 0x0C || n == 0x0D || n == 0x20 || n == 0xA0
    || n == 0x1680 || (decide (0x2000 ≤ n) && decide (n ≤ 0x200A)) || n == 0x2028
    || n == 0x2029 || n == 0x202F || n == 0x205F || n == 0x3000 || n == 0xFEFF

/-- The method `trimStart()`. -/
def trimStart (s : Str) : Str := s.dropWhile isSpace

/-- The method `trim()`. -/
def trim (s : Str) : Str := (trimStart (trimStart s).reverse).reverse

/-- The method `includes(sub)`: `sub` occurs in `s` as a contiguous block. -/
def includes (s sub : Str) : Bool := s.tails.any (fun t => sub.isPrefixOf t)

/-- The method `split(sep)` for a one-character separator. -/
def split (sep : Char) : Str → List Str
  | [] => [[]]
  | c :: cs =>
    match split sep cs with
    | [] => [[]]
    | l :: ls => if c == sep then [] :: l :: ls else (c :: l) :: ls

/-- The method `join(sep)` of an array of strings. -/
def join (sep : Str) : List Str → Str
  | [] => []
  | [x] => x
  | x :: y :: rest => x ++ sep ++ join sep (y :: rest)

/-- The method `padStart(n, '0')`. -/
def padStart0 (n : Nat) (s : Str) : Str := List.replicate (n - s.length) '0' ++ s

/-- The method `toLowerCase()` on one character of the Basic Latin and Latin-1 blocks (which
hold the Swedish alphabet), where the method works character by character: `A`-`Z` and
U+00C0-U+00DE without U+00D7 are moved by 32.  A character outside these two blocks is left
as it is, which the method does not always do, so this is the method on strings of these
two blocks only. -/
def lowerChar (c : Char) : Char :=
  let n := c.toNat
  if (0x41 ≤ n ∧ n ≤ 0x5A) ∨ (0xC0 ≤ n ∧ n ≤ 0xDE ∧ n ≠ 0xD7) then Char.ofNat (n + 32) else c

/-- The method `toLowerCase()` on strings of Basic Latin and Latin-1 characters.  Where a
property is stated for every string, the method is a parameter instead (see
`generateTagsWith`). -/
def toLowerCase (s : Str) : Str := s.map lowerChar

/-- The value of one decimal digit character. -/
def digitVal (c : Char) : Nat := c.toNat - 0x30

/-- The character of one decimal digit. -/
def digitChar (d : Nat) : Char := Char.ofNat (0x30 + d % 10)

/-- The number that a string of decimal digits denotes, most significant digit first. -/
def numVal (s : Str) : Nat := s.foldl (fun a c => 10 * a + digitVal c) 0

/-- Decimal numeral of a natural number with the digits produced from the least significant
one; `fuel` bounds the number of digits. -/
def decimalAux : Nat → Nat → Str → Str
  | 0, _, acc => acc
  | fuel + 1, n, acc =>
    if n < 10 then digitChar n :: acc else decimalAux fuel (n / 10) (digitChar n :: acc)

/-- The conversion `String(n)` (also `n.toString()`) of a non-negative integer: its decimal
numeral. -/
def decimal (n : Nat) : Str := decimalAux (n + 1) n []

/-- The conversion `String(n)` of an integer. -/
def decimalInt (n : Int) : Str :=
  if n < 0 then '-' :: decimal n.natAbs else decimal n.natAbs

/-- Lexicographic comparison `a <= b` of strings by character code, the order used by
`Array.prototype.sort()` without a comparator and by the relational operators. -/
def strLe : Str → Str → Bool
  | [], _ => true
  | _ :: _, [] => false
  | a :: as, b :: bs => if a.toNat < b.toNat then true else if b.toNat < a.toNat then false
      else strLe as bs

/-- The array built by `[...new Set(xs)]`: `xs` without repetitions, every element kept at
its first occurrence. -/
def uniqAux (seen : List Str) : List Str → List Str
  | [] => []
  | x :: xs => if x ∈ seen then uniqAux seen xs else x :: uniqAux (x :: seen) xs

/-- The array built by `[...new Set(xs)]`. -/
def uniq (xs : List Str) : List Str := uniqAux [] xs

/-! ## Regular expressions -/

/-- The regular expressions used by the sources.  A quantifier is only ever applied to a
character class (or, as `?`, to a group), so these constructors cover every pattern. -/
inductive Re where
  /-- A literal text. -/
  | lit (s : Str)
  /-- A greedy quantifier `{lo,hi}` on a character class; `hi = none` is unbounded, so
  `+` is `rep p 1 none` and `*` is `rep p 0 none`. -/
  | rep (p : Char → Bool) (lo : Nat) (hi : Option Nat)
  /-- Concatenation. -/
  | cat (a b : Re)
  /-- Alternation `a|b`, the left alternative first. -/
  | alt (a b : Re)
  /-- The greedy optional `a?`. -/
  | opt (a : Re)
  /-- The capturing group number `i`. -/
  | grp (i : Nat) (a : Re)
  /-- The assertion `^` (no `m` flag): start of input. -/
  | bos
  /-- The assertion `$` (no `m` flag): end of input. -/
  | eos

/-- The captures of a match in progress: group number to captured text. -/
abbrev Caps := Nat → Option Str

/-- No group has captured. -/
def Caps.empty : Caps := fun _ => none

/-- Record the text of group `i`. -/
def Caps.set (c : Caps) (i : Nat) (v : Str) : Caps := fun j => if j = i then some v else c j

/-- Length of the longest prefix of `s` in class `p`, at most `hi` characters. -/
def spanLen (p : Char → Bool) (hi : Option Nat) : Str → Nat
  | [] => 0
  | c :: cs =>
    if hi = some 0 then 0
    else if p c then spanLen p (hi.map (· - 1)) cs + 1 else 0

/-- Try the continuation with `lo + extra`, then `lo + extra - 1`, ..., then `lo`
characters consumed: the backtracking order of a greedy quantifier. -/
def tryCounts {α : Type} (k : Nat → Option α) (lo : Nat) : Nat → Option α
  | 0 => k lo
  | extra + 1 =>
    match k (lo + extra + 1) with
    | some r => some r
    | none => tryCounts k lo extra

/-- The backtracking matcher in continuation-passing style: `run r i rest caps k` matches
`r` at offset `i`, where `rest` is the input from that offset on, and hands the offset,
remaining input and captures after the match to `k`; if `k` fails the next way of matching
`r` is tried. -/
def Re.run {α : Type} : Re → Nat → Str → Caps → (Nat → Str → Caps → Option α) → Option α
  | .lit s, i, rest, caps, k =>
    if s.isPrefixOf rest then k (i + s.length) (rest.drop s.length) caps else none
  | .rep p lo hi, i, rest, caps, k =>
    let n := spanLen p hi rest
    if n < lo then none
    else tryCounts (fun c => k (i + c) (rest.drop c) caps) lo (n - lo)
  | .cat a b, i, rest, caps, k =>
    a.run i rest caps (fun i1 rest1 caps1 => b.run i1 rest1 caps1 k)
  | .alt a b, i, rest, caps, k =>
    match a.run i rest caps k with
    | some r => some r
    | none => b.run i rest caps k
  | .opt a, i, rest, caps, k =>
    match a.run i rest caps k with
    | some r => some r
    | none => k i rest caps
  | .grp g a, i, rest, caps, k =>
    a.run i rest caps (fun i1 rest1 caps1 => k i1 rest1 (caps1.set g (rest.take (i1 - i))))
  | .bos, i, rest, caps, k => if i = 0 then k i rest caps else none
  | .eos, i, rest, caps, k => if rest.isEmpty then k i rest caps else none

/-- The result array of `match`: where the match starts and ends, and the groups. -/
structure Match where
  /-- Offset of the first matched character. -/
  start : Nat
  /-- Offset after the last matched character. -/
  stop : Nat
  /-- The captures; group 0 is the whole match. -/
  caps : Caps

/-- The element `m[i]` of a match result. -/
def Match.group (m : Match) (i : Nat) : Option Str := m.caps i

/-- Match `r` starting exactly at offset `i`, `rest` being the input from there on. -/
def Re.matchAt (r : Re) (i : Nat) (rest : Str) : Option Match :=
  r.run i rest Caps.empty (fun j _ caps =>
    some { start := i, stop := j, caps := caps.set 0 (rest.take (j - i)) })

/-- Try the start offsets `i`, `i + 1`, ... in turn. -/
def Re.searchFrom (r : Re) : Nat → Str → Option Match
  | i, [] => r.matchAt i []
  | i, c :: cs =>
    match r.matchAt i (c :: cs) with
    | some m => some m
    | none => r.searchFrom (i + 1) cs

/-- The call `s.match(r)` for a pattern without the `g` flag; `none` is `null`. -/
def Re.exec (r : Re) (s : Str) : Option Match := r.searchFrom 0 s

/-- The call `s.replace(/\s+/g, ' ')`: every maximal run of white space becomes one space.
`inRun` tells that the previous character belonged to a run already replaced. -/
def collapseAux : Bool → Str → Str
  | _, [] => []
  | inRun, c :: cs =>
    if isSpace c then (if inRun then collapseAux true cs else ' ' :: collapseAux true cs)
    else c :: collapseAux false cs

/-- The call `s.replace(/\s+/g, ' ')`. -/
def collapseSpaces (s : Str) : Str := collapseAux false s

/-! ## JavaScript values -/

/-- A JavaScript value built from `null`, integers, strings, arrays and plain objects; an
object is the list of its own properties in insertion order, the order of
`Object.entries`. -/
inductive JVal where
  /-- The value `null`. -/
  | null
  /-- An integer number. -/
  | num (n : Int)
  /-- A string. -/
  | str (s : Str)
  /-- An array. -/
  | arr (items : List JVal)
  /-- A plain object. -/
  | obj (fields : List (Str × JVal))

/-! ## `Normalizer1177` (normalizer.js) -/

/-- One raw entry of the 1177 scraper; every property may be missing or empty. -/
structure RawEntry where
  /-- Full text of the entry. -/
  text : Option Str := none
  /-- The line that holds the date. -/
  date : Option Str := none
  /-- Title of the entry. -/
  title : Option Str := none
  /-- Category of the entry. -/
  category : Option Str := none
  /-- Source (care provider) of the entry. -/
  source : Option Str := none
  /-- Expanded details. -/
  details : Option Str := none

/-- The object `provider` of a record. -/
structure Provider where
  /-- Name of the provider. -/
  name : Str
  /-- Region of the provider. -/
  region : Str
  /-- Location of the provider. -/
  location : Str
deriving DecidableEq, Repr

/-- The object `responsible_person` of a record. -/
structure Person where
  /-- Name of the person. -/
  name : Str
  /-- Role of the person. -/
  role : Str
deriving DecidableEq, Repr

/-- The object `content` of a record. -/
structure Content where
  /-- One-line summary. -/
  summary : Str
  /-- Details text. -/
  details : Str
  /-- Extracted notes. -/
  notes : List Str
deriving DecidableEq, Repr

/-- The object returned by `normalizeEntry`.  `attachments` is the array literal `[]` in the
source, hence an array without elements of any kind; it is kept as a list of strings. -/
structure NormalizedEntry where
  /-- Ordinal identifier. -/
  id : Str
  /-- ISO date or `Unknown`. -/
  date : Str
  /-- Time of day or `Unknown`. -/
  time : Str
  /-- Category. -/
  category : Str
  /-- Type (the raw title). -/
  type : Str
  /-- Provider. -/
  provider : Provider
  /-- Status keyword. -/
  status : Str
  /-- Responsible person. -/
  responsible_person : Person
  /-- Content. -/
  content : Content
  /-- Attachments. -/
  attachments : List Str
  /-- Tags. -/
  tags : List Str
  /-- The raw text, kept for reference (`undefined` when the raw entry has none). -/
  text : Option Str
deriving DecidableEq, Repr

/-- The sentinel `'Unknown'`. -/
def unknown : Str := "Unknown".toList

/-- The table `monthMap`, read as `monthMap[key]`; `none` is `undefined`. -/
def monthMap (key : Str) : Option Str :=
  [("jan", "01"), ("feb", "02"), ("mar", "03"), ("apr", "04"), ("maj", "05"), ("jun", "06"),
   ("jul", "07"), ("aug", "08"), ("sep", "09"), ("okt", "10"), ("nov", "11"), ("dec", "12")].lookup
    (String.mk key) |>.map String.toList

/-- The pattern `\d{4}-\d{2}-\d{2}`. -/
def reIsoBody : Re :=
  .cat (.rep isDigit 4 (some 4)) (.cat (.lit ['-']) (.cat (.rep isDigit 2 (some 2))
    (.cat (.lit ['-']) (.rep isDigit 2 (some 2)))))

/-- The pattern `/(\d{1,2})\s+(\w{3})\s+(\d{4})/`. -/
def reSwedishDate : Re :=
  .cat (.grp 1 (.rep isDigit 1 (some 2))) (.cat (.rep isSpace 1 none)
    (.cat (.grp 2 (.rep isWord 3 (some 3))) (.cat (.rep isSpace 1 none)
      (.grp 3 (.rep isDigit 4 (some 4))))))

/-- The pattern `/(\d{4}-\d{2}-\d{2})/`. -/
def reIso : Re := .grp 1 reIsoBody

/-- The pattern `/^(\d{4}-\d{2}-\d{2})/`. -/
def reIsoStart : Re := .cat .bos (.grp 1 reIsoBody)

/-- The pattern `/(?:klockan\s+)?(\d{1,2}:\d{2})/`. -/
def reTime : Re :=
  .cat (.opt (.cat (.lit "klockan".toList) (.rep isSpace 1 none)))
    (.grp 1 (.cat (.rep isDigit 1 (some 2)) (.cat (.lit [':']) (.rep isDigit 2 (some 2)))))

/-- The pattern `/Region\s+([^,]+)/`. -/
def reRegion : Re :=
  .cat (.lit "Region".toList) (.cat (.rep isSpace 1 none) (.grp 1 (.rep (· != ',') 1 none)))

/-- The pattern `/Antecknad av ([^(]+)\s*\(/`. -/
def rePerson : Re :=
  .cat (.lit "Antecknad av ".toList) (.cat (.grp 1 (.rep (· != '(') 1 none))
    (.cat (.rep isSpace 0 none) (.lit ['('])))

/-- The pattern `/(?:Vaccinerad av|Ordinatör|Ansvarig för kontakten)\s+([^(]+)/`. -/
def reOtherPerson : Re :=
  .cat (.alt (.lit "Vaccinerad av".toList) (.alt (.lit "Ordinatör".toList)
      (.lit "Ansvarig för kontakten".toList)))
    (.cat (.rep isSpace 1 none) (.grp 1 (.rep (· != '(') 1 none)))

/-- The pattern `/\(([^)]+)\)/`. -/
def reRole : Re := .cat (.lit ['(']) (.cat (.grp 1 (.rep (· != ')') 1 none)) (.lit [')']))

/-- The block shared by the first and the last step of `formatDate`: match the Swedish
pattern and look the month up.  `none`: a group is `undefined` (the source would raise on
`month.toLowerCase()` or `day.padStart`); `some none`: the step yields no date and
`formatDate` goes on; `some (some d)`: `formatDate` returns `d`. -/
def swedishStep (cleanDate : Str) : Option (Option Str) :=
  match reSwedishDate.exec cleanDate with
  | none => some none
  | some dateMatch => do
    let day ← dateMatch.group 1
    let month ← dateMatch.group 2
    let year ← dateMatch.group 3
    match monthMap (toLowerCase month) with
    | some monthNum => pure (some (year ++ ['-'] ++ monthNum ++ ['-'] ++ padStart0 2 day))
    | none => pure none

/-- The method `formatDate(dateString)`. -/
def formatDate (dateString : Option Str) : Option Str :=
  match dateString with
  | none => some unknown
  | some [] => some unknown
  | some (c :: cs) =>
    let cleanDate := trim (collapseSpaces (c :: cs))
    match swedishStep cleanDate with
    | none => none
    | some (some d) => some d
    | some none =>
      match reIso.exec cleanDate with
      | some isoMatch => isoMatch.group 1
      | none =>
        match reIsoStart.exec cleanDate with
        | some isoStartMatch => isoStartMatch.group 1
        | none =>
          if cleanDate.length > 20 then
            match swedishStep cleanDate with
            | none => none
            | some (some d) => some d
            | some none => some unknown
          else some unknown

/-- The method `extractTime(text)`. -/
def extractTime (text : Option Str) : Option Str :=
  match text with
  | none => some unknown
  | some [] => some unknown
  | some (c :: cs) =>
    match reTime.exec (c :: cs) with
    | some timeMatch => timeMatch.group 1
    | none => some unknown

/-- The method `extractRegion(source)`. -/
def extractRegion (source : Option Str) : Option Str :=
  match source with
  | none => some unknown
  | some [] => some unknown
  | some (c :: cs) =>
    let source := c :: cs
    if includes source "Region Uppsala".toList then some "Region Uppsala".toList
    else if includes source "Stockholm".toList then some "Stockholm".toList
    else if includes source "Danderyd".toList then some "Danderyd".toList
    else if includes source "Västerbotten".toList then some "Västerbotten".toList
    else if includes source "Region".toList then
      match reRegion.exec source with
      | some regionMatch => (regionMatch.group 1).map (fun g => "Region ".toList ++ trim g)
      | none => some unknown
    else some unknown

/-- The method `extractStatus(text)`. -/
def extractStatus (text : Option Str) : Str :=
  match text with
  | none => unknown
  | some [] => unknown
  | some (c :: cs) =>
    let text := c :: cs
    if includes text "Nytt".toList then "Nytt".toList
    else if includes text "Osignerad".toList then "Osignerad".toList
    else if includes text "Signerad".toList then "Signerad".toList
    else unknown

/-- The method `extractResponsiblePerson(text)`. -/
def extractResponsiblePerson (text : Option Str) : Option Str :=
  match text with
  | none => some unknown
  | some [] => some unknown
  | some (c :: cs) =>
    match rePerson.exec (c :: cs) with
    | some personMatch => (personMatch.group 1).map trim
    | none =>
      match reOtherPerson.exec (c :: cs) with
      | some otherMatch => (otherMatch.group 1).map trim
      | none => some unknown

/-- The method `extractRole(text)`. -/
def extractRole (text : Option Str) : Option Str :=
  match text with
  | none => some unknown
  | some [] => some unknown
  | some (c :: cs) =>
    match reRole.exec (c :: cs) with
    | some roleMatch => (roleMatch.group 1).map trim
    | none => some unknown

/-- The method `generateSummary(entry)`. -/
def generateSummary (entry : RawEntry) : Str :=
  let category := orElse entry.category []
  let type := orElse entry.title []
  if !category.isEmpty && !type.isEmpty then category ++ " - ".toList ++ type
  else if !category.isEmpty then category
  else if !type.isEmpty then type
  else "Journal Entry".toList

/-- The method `extractNotes(text)`. -/
def extractNotes (text : Option Str) : List Str :=
  match text with
  | none => []
  | some [] => []
  | some (c :: cs) =>
    let lines := ((split '\n' (c :: cs)).map trim).filter (fun line => !line.isEmpty)
    let notes := lines.filter (fun line =>
      includes line [':'] && !includes line "http".toList && decide (line.length > 10))
    notes.take 10

/-- The statement `if (text.includes(a) || text.includes(b)) tags.push(tag)`. -/
def pushIf (cond : Bool) (tag : Str) (tags : List Str) : List Str :=
  if cond then tags ++ [tag] else tags

/-- The method `generateTags(entry)`, with the built-in `String.prototype.toLowerCase` as
the explicit argument `lower`: `lower s` is `s.toLowerCase()`. -/
def generateTagsWith (lower : Str → Str) (entry : RawEntry) : List Str :=
  let tags : List Str := if falsy entry.category then []
    else [lower (orElse entry.category [])]
  let text := orElse entry.text []
  let has (a : String) : Bool := includes text a.toList
  let tags := pushIf (has "akut" || has "Akut") "akut".toList tags
  let tags := pushIf (has "vaccination" || has "Vaccination") "vaccination".toList tags
  let tags := pushIf (has "tandvård" || has "Tandvård") "tandvård".toList tags
  let tags := pushIf (has "diagnos" || has "Diagnos") "diagnos".toList tags
  let tags := pushIf (has "besök" || has "Besök") "besök".toList tags
  let tags := pushIf (has "osignerad" || has "Osignerad") "osignerad".toList tags
  let tags := pushIf (has "distriktssköterska") "distriktssköterska".toList tags
  let tags := pushIf (has "tandläkare") "tandläkare".toList tags
  let tags := pushIf (has "läkare") "läkare".toList tags
  uniq tags

/-- The method `generateTags(entry)` with `toLowerCase` on Basic Latin and Latin-1 for the
built-in: `generateTagsWith toLowerCase`, written out. -/
def generateTags (entry : RawEntry) : List Str :=
  let tags : List Str := if falsy entry.category then []
    else [toLowerCase (orElse entry.category [])]
  let text := orElse entry.text []
  let has (a : String) : Bool := includes text a.toList
  let tags := pushIf (has "akut" || has "Akut") "akut".toList tags
  let tags := pushIf (has "vaccination" || has "Vaccination") "vaccination".toList tags
  let tags := pushIf (has "tandvård" || has "Tandvård") "tandvård".toList tags
  let tags := pushIf (has "diagnos" || has "Diagnos") "diagnos".toList tags
  let tags := pushIf (has "besök" || has "Besök") "besök".toList tags
  let tags := pushIf (has "osignerad" || has "Osignerad") "osignerad".toList tags
  let tags := pushIf (has "distriktssköterska") "distriktssköterska".toList tags
  let tags := pushIf (has "tandläkare") "tandläkare".toList tags
  let tags := pushIf (has "läkare") "läkare".toList tags
  uniq tags

/-- The expression `entry_${String(index + 1).padStart(3, '0')}`. -/
def entryId (index : Nat) : Str := "entry_".toList ++ padStart0 3 (decimal (index + 1))

/-- The expression for `content.details` in `normalizeEntry`. -/
def detailsOf (text : Option Str) : Str :=
  match text with
  | none => []
  | some [] => []
  | some (c :: cs) =>
    (c :: cs).take 200 ++ (if (c :: cs).length > 200 then "...".toList else [])

/-- The method `normalizeEntry(rawEntry, index)`.  The result is `none` when one of the
extractors has no string to give (see the conventions at the top). -/
def normalizeEntry (rawEntry : RawEntry) (index : Nat) : Option NormalizedEntry := do
  let date ← formatDate rawEntry.date
  let time ← extractTime rawEntry.text
  let region ← extractRegion rawEntry.source
  let personName ← extractResponsiblePerson rawEntry.text
  let role ← extractRole rawEntry.text
  pure {
    id := entryId index
    date := date
    time := time
    category := orElse rawEntry.category unknown
    type := orElse rawEntry.title unknown
    provider := {
      name := orElse rawEntry.source unknown
      region := region
      location := orElse rawEntry.source unknown }
    status := extractStatus rawEntry.text
    responsible_person := { name := personName, role := role }
    content := {
      summary := generateSummary rawEntry
      details := detailsOf rawEntry.text
      notes := extractNotes rawEntry.text }
    attachments := []
    tags := generateTags rawEntry
    text := rawEntry.text }

/-- The callback of `rawEntries.map((entry, index) => ...)` run over the entries from
position `index` on. -/
def normalizeFrom : Nat → List RawEntry → Option (List NormalizedEntry)
  | _, [] => some []
  | index, entry :: rest => do
    let r ← normalizeEntry entry index
    let rs ← normalizeFrom (index + 1) rest
    pure (r :: rs)

/-- The method `normalize(rawEntries)`. -/
def normalize (rawEntries : List RawEntry) : Option (List NormalizedEntry) :=
  normalizeFrom 0 rawEntries

/-- Syntactic check that every successful match of the pattern gives group `g` a text. -/
def Re.sets : Re → Nat → Bool
  | .lit _, _ => false
  | .rep _ _ _, _ => false
  | .cat a b, g => a.sets g || b.sets g
  | .alt a b, g => a.sets g && b.sets g
  | .opt _, _ => false
  | .grp i a, g => i == g || a.sets g
  | .bos, _ => false
  | .eos, _ => false


/-! ## `EIRFormatter` (eir-formatter.js) -/

/-- The object `provider` of a record given to the formatter; any property may be
missing. -/
structure ProviderIn where
  /-- Name of the provider. -/
  name : Option Str := none
  /-- Region of the provider. -/
  region : Option Str := none
  /-- Location of the provider. -/
  location : Option Str := none

/-- The object `responsible_person` of a record given to the formatter. -/
structure PersonIn where
  /-- Name of the person. -/
  name : Option Str := none
  /-- Role of the person. -/
  role : Option Str := none

/-- The object `content` of a record given to the formatter. -/
structure ContentIn where
  /-- One-line summary. -/
  summary : Option Str := none
  /-- Details text. -/
  details : Option Str := none
  /-- Notes. -/
  notes : Option (List Str) := none

/-- A record given to `generateEIRContent`: the properties the function reads, each of
which may be missing. -/
structure EntryIn where
  /-- Identifier. -/
  id : Option Str := none
  /-- Date. -/
  date : Option Str := none
  /-- Time. -/
  time : Option Str := none
  /-- Category. -/
  category : Option Str := none
  /-- Type. -/
  type : Option Str := none
  /-- Title (a property of raw entries, read as a fallback). -/
  title : Option Str := none
  /-- Provider. -/
  provider : Option ProviderIn := none
  /-- Status. -/
  status : Option Str := none
  /-- Responsible person. -/
  responsible_person : Option PersonIn := none
  /-- Content. -/
  content : Option ContentIn := none
  /-- Attachments. -/
  attachments : Option (List JVal) := none
  /-- Tags. -/
  tags : Option (List Str) := none
  /-- Raw text (read as a fallback). -/
  text : Option Str := none

/-- A record produced by the normalizer, seen as an argument of the formatter. -/
def NormalizedEntry.toEntryIn (r : NormalizedEntry) : EntryIn :=
  { id := some r.id, date := some r.date, time := some r.time, category := some r.category,
    type := some r.type, title := none,
    provider := some { name := some r.provider.name, region := some r.provider.region,
                       location := some r.provider.location },
    status := some r.status,
    responsible_person := some { name := some r.responsible_person.name,
                                 role := some r.responsible_person.role },
    content := some { summary := some r.content.summary, details := some r.content.details,
                      notes := some r.content.notes },
    attachments := some (r.attachments.map JVal.str), tags := some r.tags, text := r.text }

/-- The object `metadata.patient` given to the formatter. -/
structure PatientIn where
  /-- Name of the patient. -/
  name : Option Str := none
  /-- Date of birth. -/
  birth_date : Option Str := none
  /-- Personal number. -/
  personal_number : Option Str := none

/-- The argument `metadata` of `generateEIRContent`. -/
structure MetadataIn where
  /-- Format version. -/
  format_version : Option Str := none
  /-- Creation time. -/
  created_at : Option Str := none
  /-- Source. -/
  source : Option Str := none
  /-- Patient. -/
  patient : Option PatientIn := none

/-- An entry of the document built by `generateEIRContent`. -/
structure Entry where
  /-- Identifier. -/
  id : Str
  /-- Date. -/
  date : Str
  /-- Time. -/
  time : Str
  /-- Category. -/
  category : Str
  /-- Type. -/
  type : Str
  /-- Provider. -/
  provider : Provider
  /-- Status. -/
  status : Str
  /-- Responsible person. -/
  responsible_person : Person
  /-- Content. -/
  content : Content
  /-- Attachments. -/
  attachments : List JVal
  /-- Tags. -/
  tags : List Str

/-- The object `date_range`. -/
structure DateRange where
  /-- Least valid date or `Unknown`. -/
  start : Str
  /-- Greatest valid date or `Unknown`; the property `end` of the source. -/
  stop : Str
deriving DecidableEq, Repr

/-- The object `export_info`. -/
structure ExportInfo where
  /-- Number of entries. -/
  total_entries : Nat
  /-- Range of the valid dates. -/
  date_range : DateRange
  /-- Names of the providers. -/
  healthcare_providers : List Str
deriving DecidableEq, Repr

/-- The object `metadata.patient` of the document; `none` is `null`. -/
structure Patient where
  /-- Name of the patient. -/
  name : Str
  /-- Date of birth. -/
  birth_date : Option Str
  /-- Personal number. -/
  personal_number : Option Str
deriving DecidableEq, Repr

/-- The object `metadata` of the document. -/
structure Metadata where
  /-- Format version. -/
  format_version : Str
  /-- Creation time. -/
  created_at : Str
  /-- Source. -/
  source : Str
  /-- Patient. -/
  patient : Patient
  /-- Export information. -/
  export_info : ExportInfo
deriving DecidableEq, Repr

/-- The object returned by `generateEIRContent`. -/
structure Document where
  /-- Metadata. -/
  metadata : Metadata
  /-- Entries. -/
  entries : List Entry

/-- The pattern `/^\d{4}-\d{2}-\d{2}$/`. -/
def reStrictIso : Re := .cat .bos (.cat reIsoBody .eos)

/-- The callback `date => date && date !== 'Unknown' && date.match(/^\d{4}-\d{2}-\d{2}$/)`
of the filter, giving the date itself when it is kept. -/
def keepDate (date : Option Str) : Option Str :=
  match date with
  | some (c :: cs) =>
    if (c :: cs) ≠ unknown ∧ (reStrictIso.exec (c :: cs)).isSome then some (c :: cs) else none
  | _ => none

/-- Insertion of one string into a list sorted by `strLe`. -/
def insertStr (x : Str) : List Str → List Str
  | [] => [x]
  | y :: ys => if strLe x y then x :: y :: ys else y :: insertStr x ys

/-- The method `sort()` without a comparator on an array of strings: ascending order of
character codes. -/
def sortStr : List Str → List Str
  | [] => []
  | x :: xs => insertStr x (sortStr xs)

/-- The array `validDates` of `generateEIRContent`. -/
def validDates (entries : List EntryIn) : List Str :=
  sortStr ((entries.map (fun entry => entry.date)).filterMap keepDate)

/-- The object `dateRange` of `generateEIRContent`. -/
def dateRange (entries : List EntryIn) : DateRange :=
  let validDates := validDates entries
  { start := orElse validDates[0]? unknown
    stop := orElse validDates[validDates.length - 1]? unknown }

/-- The callback `name => name && name !== 'Unknown'` of the filter, giving the name itself
when it is kept. -/
def keepName (name : Option Str) : Option Str :=
  match name with
  | some (c :: cs) => if (c :: cs) ≠ unknown then some (c :: cs) else none
  | _ => none

/-- The expression `entry.provider?.name`. -/
def providerName (entry : EntryIn) : Option Str := entry.provider.bind (fun p => p.name)

/-- The array `providers` of `generateEIRContent`. -/
def providers (entries : List EntryIn) : List Str :=
  uniq ((entries.map providerName).filterMap keepName)

/-- The callback of `entries.map((entry, index) => ...)` in `generateEIRContent`. -/
def assembleEntry (entry : EntryIn) (index : Nat) : Entry :=
  { id := orElse entry.id (entryId index)
    date := orElse entry.date unknown
    time := orElse entry.time unknown
    category := orElse entry.category unknown
    type := orElse (orOpt entry.type entry.title) unknown
    provider := {
      name := orElse (entry.provider.bind (fun p => p.name)) unknown
      region := orElse (entry.provider.bind (fun p => p.region)) unknown
      location := orElse (orOpt (entry.provider.bind (fun p => p.location))
        (entry.provider.bind (fun p => p.name))) unknown }
    status := orElse entry.status unknown
    responsible_person := {
      name := orElse (entry.responsible_person.bind (fun p => p.name)) unknown
      role := orElse (entry.responsible_person.bind (fun p => p.role)) unknown }
    content := {
      summary := orElse (orOpt (entry.content.bind (fun c => c.summary)) entry.title)
        "Journal Entry".toList
      details := orElse (orOpt (entry.content.bind (fun c => c.details)) entry.text) []
      notes := (entry.content.bind (fun c => c.notes)).getD [] }
    attachments := entry.attachments.getD []
    tags := entry.tags.getD [] }

/-- The call `entries.map((entry, index) => ...)` over the entries from position `index`
on. -/
def assembleFrom : Nat → List EntryIn → List Entry
  | _, [] => []
  | index, entry :: rest => assembleEntry entry index :: assembleFrom (index + 1) rest

/-- The method `generateEIRContent(entries, metadata)`; `currentDate` is the value of
`new Date().toISOString()` read at the call. -/
def generateEIRContent (entries : List EntryIn) (metadata : MetadataIn) (currentDate : Str) :
    Document :=
  { metadata := {
      format_version := orElse metadata.format_version "1.0".toList
      created_at := orElse metadata.created_at currentDate
      source := orElse metadata.source "Unknown Provider".toList
      patient := {
        name := orElse (metadata.patient.bind (fun p => p.name)) unknown
        birth_date := orOpt (metadata.patient.bind (fun p => p.birth_date)) none
        personal_number := orOpt (metadata.patient.bind (fun p => p.personal_number)) none }
      export_info := {
        total_entries := entries.length
        date_range := dateRange entries
        healthcare_providers := providers entries } }
    entries := assembleFrom 0 entries }

/-- A string as a JavaScript value. -/
def jstr (s : String) : Str := s.toList

/-- A possibly `null` string as a JavaScript value. -/
def JVal.ofOption (s : Option Str) : JVal :=
  match s with
  | some v => .str v
  | none => .null

/-- An entry of the document as a JavaScript object, the properties in the order of the
object literal. -/
def Entry.toJVal (e : Entry) : JVal :=
  .obj [
    (jstr "id", .str e.id), (jstr "date", .str e.date), (jstr "time", .str e.time),
    (jstr "category", .str e.category), (jstr "type", .str e.type),
    (jstr "provider", .obj [(jstr "name", .str e.provider.name),
      (jstr "region", .str e.provider.region), (jstr "location", .str e.provider.location)]),
    (jstr "status", .str e.status),
    (jstr "responsible_person", .obj [(jstr "name", .str e.responsible_person.name),
      (jstr "role", .str e.responsible_person.role)]),
    (jstr "content", .obj [(jstr "summary", .str e.content.summary),
      (jstr "details", .str e.content.details),
      (jstr "notes", .arr (e.content.notes.map JVal.str))]),
    (jstr "attachments", .arr e.attachments),
    (jstr "tags", .arr (e.tags.map JVal.str))]

/-- The document as a JavaScript object, the properties in the order of the object
literal. -/
def Document.toJVal (d : Document) : JVal :=
  .obj [
    (jstr "metadata", .obj [
      (jstr "format_version", .str d.metadata.format_version),
      (jstr "created_at", .str d.metadata.created_at),
      (jstr "source", .str d.metadata.source),
      (jstr "patient", .obj [
        (jstr "name", .str d.metadata.patient.name),
        (jstr "birth_date", JVal.ofOption d.metadata.patient.birth_date),
        (jstr "personal_number", JVal.ofOption d.metadata.patient.personal_number)]),
      (jstr "export_info", .obj [
        (jstr "total_entries", .num d.metadata.export_info.total_entries),
        (jstr "date_range", .obj [
          (jstr "start", .str d.metadata.export_info.date_range.start),
          (jstr "end", .str d.metadata.export_info.date_range.stop)]),
        (jstr "healthcare_providers",
          .arr (d.metadata.export_info.healthcare_providers.map JVal.str))])]),
    (jstr "entries", .arr (d.entries.map Entry.toJVal))]

/-- The expression `'  '.repeat(indent)`. -/
def spaces : Nat → Str
  | 0 => []
  | n + 1 => ' ' :: ' ' :: spaces n

/-- The test `typeof v === 'object' && v !== null`. -/
def JVal.isObject : JVal → Bool
  | .arr _ => true
  | .obj _ => true
  | _ => false

/-- The expression `typeof v === 'string' ? "\"" + v + "\"" : v` put into a template: a
string between double quotes, a number as its numeral, `null` as the word `null`. -/
def valueStr : JVal → Str
  | .str s => ['"'] ++ s ++ ['"']
  | .num n => decimalInt n
  | _ => jstr "null"

/-- The text of one array item from the text `itemYaml` of a nested array or object. -/
def nestedItem (sp itemYaml : Str) : Str :=
  if includes itemYaml ['\n'] then
    sp ++ jstr "- " ++ join (['\n'] ++ sp ++ jstr "  ") (split '\n' itemYaml)
  else sp ++ jstr "- " ++ itemYaml

mutual
/-- The inner function `yamlify(obj, indent)` of `convertToYAML`.  For a value that is
neither array nor object the source returns the value itself when it is no string; the
model gives its text. -/
def yamlify : JVal → Nat → Str
  | .arr [], _ => jstr "[]"
  | .arr (x :: xs), indent => join ['\n'] (yamlItems (x :: xs) indent)
  | .obj [], _ => jstr "\x7b\x7d"
  | .obj (f :: fs), indent => join ['\n'] (yamlFields (f :: fs) indent)
  | .str s, _ => valueStr (.str s)
  | .num n, _ => valueStr (.num n)
  | .null, _ => valueStr .null
/-- The callback of `obj.map(item => ...)` in `yamlify`, over all items. -/
def yamlItems : List JVal → Nat → List Str
  | [], _ => []
  | .arr ys :: rest, indent =>
    nestedItem (spaces indent) (yamlify (.arr ys) (indent + 1)) :: yamlItems rest indent
  | .obj fs :: rest, indent =>
    nestedItem (spaces indent) (yamlify (.obj fs) (indent + 1)) :: yamlItems rest indent
  | .str s :: rest, indent =>
    (spaces indent ++ jstr "- " ++ valueStr (.str s)) :: yamlItems rest indent
  | .num n :: rest, indent =>
    (spaces indent ++ jstr "- " ++ valueStr (.num n)) :: yamlItems rest indent
  | .null :: rest, indent =>
    (spaces indent ++ jstr "- " ++ valueStr .null) :: yamlItems rest indent
/-- The callback of `entries.map(([key, value]) => ...)` in `yamlify`, over all
properties. -/
def yamlFields : List (Str × JVal) → Nat → List Str
  | [], _ => []
  | (key, .arr ys) :: rest, indent =>
    (spaces indent ++ key ++ jstr ":\n" ++ yamlify (.arr ys) (indent + 1))
      :: yamlFields rest indent
  | (key, .obj fs) :: rest, indent =>
    (spaces indent ++ key ++ jstr ":\n" ++ yamlify (.obj fs) (indent + 1))
      :: yamlFields rest indent
  | (key, .str s) :: rest, indent =>
    (spaces indent ++ key ++ jstr ": " ++ valueStr (.str s)) :: yamlFields rest indent
  | (key, .num n) :: rest, indent =>
    (spaces indent ++ key ++ jstr ": " ++ valueStr (.num n)) :: yamlFields rest indent
  | (key, .null) :: rest, indent =>
    (spaces indent ++ key ++ jstr ": " ++ valueStr .null) :: yamlFields rest indent
end

/-- The method `convertToYAML(obj)`. -/
def convertToYAML (obj : JVal) : Str := yamlify obj 0

/-! ## `DataTransferManager` (data-transfer.js) -/

/-- One hexadecimal digit, lower case. -/
def hexChar (d : Nat) : Char :=
  if d % 16 < 10 then Char.ofNat (0x30 + d % 16) else Char.ofNat (0x61 + (d % 16 - 10))

/-- The text that `JSON.stringify` writes for one character of a string. -/
def jsonEscape (c : Char) : Str :=
  if c = '"' then ['\\', '"']
  else if c = '\\' then ['\\', '\\']
  else if c.toNat = 0x08 then ['\\', 'b']
  else if c.toNat = 0x0C then ['\\', 'f']
  else if c.toNat = 0x0A then ['\\', 'n']
  else if c.toNat = 0x0D then ['\\', 'r']
  else if c.toNat = 0x09 then ['\\', 't']
  else if c.toNat < 0x20 then ['\\', 'u', '0', '0', hexChar (c.toNat / 16), hexChar c.toNat]
  else [c]

/-- The text that `JSON.stringify` writes for a string. -/
def jsonQuote (s : Str) : Str := ['"'] ++ (s.map jsonEscape).flatten ++ ['"']

mutual
/-- The call `JSON.stringify(v)` (no indentation argument). -/
def jsonStringify : JVal → Str
  | .null => jstr "null"
  | .num n => decimalInt n
  | .str s => jsonQuote s
  | .arr items => ['['] ++ join [','] (jsonItems items) ++ [']']
  | .obj fields => ['\x7b'] ++ join [','] (jsonFields fields) ++ ['\x7d']
/-- The texts of the elements of an array. -/
def jsonItems : List JVal → List Str
  | [] => []
  | v :: rest => jsonStringify v :: jsonItems rest
/-- The texts of the properties of an object. -/
def jsonFields : List (Str × JVal) → List Str
  | [] => []
  | (key, v) :: rest => (jsonQuote key ++ [':'] ++ jsonStringify v) :: jsonFields rest
end

/-- The value of a hexadecimal digit, if the character is one. -/
def hexVal (c : Char) : Option Nat :=
  if isDigit c then some (c.toNat - 0x30)
  else if 0x61 ≤ c.toNat ∧ c.toNat ≤ 0x66 then some (c.toNat - 0x61 + 10)
  else if 0x41 ≤ c.toNat ∧ c.toNat ≤ 0x46 then some (c.toNat - 0x41 + 10)
  else none

/-- The value of the longest prefix of hexadecimal digits, `acc` being the value read so
far and `seen` telling whether a digit has been read; `none` is `NaN`. -/
def parseHexAux : Str → Nat → Bool → Option Nat
  | [], acc, seen => if seen then some acc else none
  | c :: cs, acc, seen =>
    match hexVal c with
    | some d => parseHexAux cs (16 * acc + d) true
    | none => if seen then some acc else none

/-- The value of the longest prefix of decimal digits; `none` is `NaN`. -/
def parseDecAux : Str → Nat → Bool → Option Nat
  | [], acc, seen => if seen then some acc else none
  | c :: cs, acc, seen =>
    if isDigit c then parseDecAux cs (10 * acc + digitVal c) true
    else if seen then some acc else none

/-- The digits of `parseInt` after white space and sign: hexadecimal after `0x` or `0X`,
decimal otherwise. -/
def parseUnsigned : Str → Option Nat
  | '0' :: 'x' :: cs => parseHexAux cs 0 false
  | '0' :: 'X' :: cs => parseHexAux cs 0 false
  | cs => parseDecAux cs 0 false

/-- The call `parseInt(s)` with one argument; `none` is `NaN`. -/
def parseInt (s : Str) : Option Int :=
  match trimStart s with
  | '-' :: cs => (parseUnsigned cs).map (fun n => - (n : Int))
  | '+' :: cs => (parseUnsigned cs).map (fun n => (n : Int))
  | cs => (parseUnsigned cs).map (fun n => (n : Int))

/-- The object `localStorage`: key to stored text. -/
abbrev Storage := Str → Option Str

/-- The call `localStorage.getItem(key)`; `none` is `null`. -/
def Storage.getItem (st : Storage) (key : Str) : Option Str := st key

/-- The call `localStorage.setItem(key, value)`. -/
def Storage.setItem (st : Storage) (key value : Str) : Storage :=
  fun k => if k = key then some value else st k

/-- The call `localStorage.removeItem(key)`. -/
def Storage.removeItem (st : Storage) (key : Str) : Storage :=
  fun k => if k = key then none else st k

/-- The state of a `DataTransferManager` together with the `localStorage` it works on. -/
structure Manager where
  /-- The field `dataKey`; `none` is `null`. -/
  dataKey : Option Str
  /-- The field `eirData`; `none` is `null`. -/
  eirData : Option Document
  /-- The object `localStorage`. -/
  storage : Storage

/-- The field `eirSpaceUrl`, set once by the constructor. -/
def eirSpaceUrl : Str := jstr "https://eir.space"

/-- The state after the constructor, over a given `localStorage`. -/
def Manager.init (storage : Storage) : Manager :=
  { dataKey := none, eirData := none, storage := storage }

/-- The method `generateDataKey()`; `timestamp` is the value of `Date.now()` and `random`
the text `Math.random().toString(36).substring(2, 15)`. -/
def generateDataKey (timestamp : Nat) (random : Str) : Str :=
  jstr "eir_data_" ++ decimal timestamp ++ ['_'] ++ random

/-- The length of the validity window, `24 * 60 * 60 * 1000` milliseconds. -/
def ttl : Nat := 24 * 60 * 60 * 1000

/-- The method `storeEirData(normalizedEntries, metadata)` in the extension, where the
global `EIRFormatter` is defined (content.js calls `EIRFormatter.generateEIRContent` itself
right before it calls this method) and `localStorage` accepts the two writes.  `keyTime`
and `expTime` are the two readings of `Date.now()` (for the key and for the expiration),
`random` the random text of the key, `currentDate` the reading of
`new Date().toISOString()` inside the formatter.  The result is the state after the call
and the returned key. -/
def storeEirData (m : Manager) (normalizedEntries : List EntryIn) (metadata : MetadataIn)
    (keyTime : Nat) (random : Str) (currentDate : Str) (expTime : Nat) : Manager × Str :=
  let dataKey := generateDataKey keyTime random
  let eirData := generateEIRContent normalizedEntries metadata currentDate
  let storage := m.storage.setItem dataKey (jsonStringify eirData.toJVal)
  let expiration := expTime + ttl
  let storage := storage.setItem (dataKey ++ jstr "_expires") (decimal expiration)
  ({ dataKey := some dataKey, eirData := some eirData, storage := storage }, dataKey)

/-- The method `cleanupData()`. -/
def cleanupData (m : Manager) : Manager :=
  match m.dataKey with
  | some (c :: cs) =>
    { m with storage := (m.storage.removeItem (c :: cs)).removeItem (c :: cs ++ jstr "_expires") }
  | _ => m

/-- The method `isDataExpired(key)`; `now` is the value of `Date.now()`. -/
def isDataExpired (m : Manager) (key : Str) (now : Nat) : Bool :=
  match m.storage.getItem (key ++ jstr "_expires") with
  | some (c :: cs) =>
    match parseInt (c :: cs) with
    | some e => decide ((now : Int) > e)
    | none => false
  | _ => true

/-- The value of the property `key` of a message: `null`, a string, or anything else
(`undefined` included). -/
inductive KeyVal where
  /-- The value `null`. -/
  | null
  /-- A string. -/
  | str (s : Str)
  /-- Any other value. -/
  | other
deriving DecidableEq, Repr

/-- The comparison `requestedKey === this.dataKey`; the field is `null` or a string. -/
def KeyVal.same (k : KeyVal) (dataKey : Option Str) : Bool :=
  match k, dataKey with
  | .null, none => true
  | .str s, some d => decide (s = d)
  | _, _ => false

/-- The object `event.data` of a message, as far as it is read: `type` (`none` when it is
no string) and `key`. -/
structure MessageData where
  /-- The property `type`. -/
  type : Option Str
  /-- The property `key`. -/
  key : KeyVal
deriving DecidableEq, Repr

/-- A `message` event: its origin, the window `source` that sent it, and its data (`none`
when `event.data` is `null` or `undefined`, where the destructuring raises). -/
structure MessageEvent where
  /-- The property `origin`. -/
  origin : Str
  /-- The property `source`, a window handle. -/
  source : Nat
  /-- The property `data`. -/
  data : Option MessageData
deriving DecidableEq, Repr

/-- A message posted by `targetWindow.postMessage(message, targetOrigin)`. -/
structure Posted where
  /-- The window the message is posted to. -/
  target : Nat
  /-- The second argument of `postMessage`. -/
  targetOrigin : Str
  /-- The property `type`. -/
  type : Str
  /-- The property `key` (the field `dataKey`). -/
  key : Option Str
  /-- The property `data`. -/
  data : Str
  /-- The property `timestamp`. -/
  timestamp : Nat
deriving DecidableEq, Repr

/-- The text under which `localStorage.getItem(this.dataKey)` looks: the key, or the word
`null` for a `null` field. -/
def storageKey (dataKey : Option Str) : Str :=
  match dataKey with
  | some k => k
  | none => jstr "null"

/-- The method `sendEirData(targetWindow, requestedKey)`; `now` is the value of
`Date.now()`.  The result is the state after the call and the messages posted. -/
def sendEirData (m : Manager) (targetWindow : Nat) (requestedKey : KeyVal) (now : Nat) :
    Manager × List Posted :=
  if !requestedKey.same m.dataKey then (m, [])
  else
    match m.storage.getItem (storageKey m.dataKey) with
    | some (c :: cs) =>
      (m, [{ target := targetWindow, targetOrigin := eirSpaceUrl,
             type := jstr "EIR_DATA_RESPONSE", key := m.dataKey, data := c :: cs,
             timestamp := now }])
    | _ => (m, [])

/-- The method `handleMessage(event)`. -/
def handleMessage (m : Manager) (event : MessageEvent) (now : Nat) : Manager × List Posted :=
  match event.data with
  | none => (m, [])
  | some data =>
    if data.type = some (jstr "REQUEST_EIR_DATA") then sendEirData m event.source data.key now
    else if data.type = some (jstr "EIR_SPACE_READY") then
      sendEirData m event.source data.key now
    else (m, [])

/-- The listener installed by `setupMessageListener()`, run on one `message` event. -/
def onMessage (m : Manager) (event : MessageEvent) (now : Nat) : Manager × List Posted :=
  if event.origin ≠ eirSpaceUrl then (m, [])
  else handleMessage m event now

/-! ## `ConnectorRegistry` (connector-registry.js) -/

/-- A connector class as the registry reads it: the static properties `providerName` and
`country`, and the static method `matches`.  The field `matchesFn` is `none` when the class
has no function of that name (calling it raises); otherwise the call `matches(url)` gives
`none` when it raises and else the truthiness of what it returns.  A `matches` function
depends on the url only. -/
structure ConnectorClass where
  /-- The static property `providerName`. -/
  providerName : Option Str := none
  /-- The static property `country`. -/
  country : Option Str := none
  /-- The static method `matches` (a reserved word here, hence the longer name). -/
  matchesFn : Option (Str → Option Bool) := none

/-- The call `ConnectorClass.matches(url)`: `none` when it raises. -/
def ConnectorClass.callMatches (c : ConnectorClass) (url : Str) : Option Bool :=
  match c.matchesFn with
  | none => none
  | some f => f url

/-- An instance made by `new ConnectorClass()`: the class it was made from (its
`constructor`) and a number that tells instances apart. -/
structure ConnectorInstance where
  /-- The class of the instance (`instance.constructor`). -/
  classOf : ConnectorClass
  /-- Identity of the object. -/
  ident : Nat

/-- The state of the `ConnectorRegistry`. -/
structure Registry where
  /-- The array `connectors`, in registration order. -/
  connectors : List ConnectorClass
  /-- The field `activeConnector`; `none` is `null`. -/
  activeConnector : Option ConnectorInstance

/-- The loop `for (const ConnectorClass of this.connectors)` of `findConnector`: the first
class whose `matches(url)` returns a truthy value; a class whose `matches` raises is logged
and passed over. -/
def findIn : List ConnectorClass → Str → Option ConnectorClass
  | [], _ => none
  | c :: rest, url =>
    match c.callMatches url with
    | some true => some c
    | some false => findIn rest url
    | none => findIn rest url

/-- The method `findConnector(url)`: the state after the call and the returned class
(`none` is `null`). -/
def findConnector (r : Registry) (url : Str) : Registry × Option ConnectorClass :=
  (r, findIn r.connectors url)

/-- The method `registerConnector(ConnectorClass)`: the state after the call.  The two
`console.error` branches return without a change. -/
def registerConnector (r : Registry) (c : ConnectorClass) : Registry :=
  if falsy c.providerName || falsy c.country then r
  else if c.matchesFn.isNone then r
  else { r with connectors := r.connectors ++ [c] }

/-- The method `getActiveConnector(url)`.  `newInstance c` is what `new c()` does: `none`
when the constructor raises, else the identity of the object it makes, whose `constructor`
is `c`.  The result is `none` when the call raises, else the state after the call and the
returned instance (`none` is `null`). -/
def getActiveConnector (r : Registry) (url : Str) (newInstance : ConnectorClass → Option Nat) :
    Option (Registry × Option ConnectorInstance) :=
  let create : Option (Registry × Option ConnectorInstance) :=
    match findConnector r url with
    | (r1, none) => some ({ r1 with activeConnector := none }, none)
    | (r1, some c) =>
      match newInstance c with
      | some n =>
        some ({ r1 with activeConnector := some { classOf := c, ident := n } },
          some { classOf := c, ident := n })
      | none => some ({ r1 with activeConnector := none }, none)
  match r.activeConnector with
  | none => create
  | some active =>
    match active.classOf.callMatches url with
    | none => none
    | some true => some (r, some active)
    | some false => create

/-- The method `clearActiveConnector()`. -/
def clearActiveConnector (r : Registry) : Registry := { r with activeConnector := none }

/-! ## `isAuthenticated` (base-connector.js, connector.js) -/

/-- What `isAuthenticated` reads from the page: the address and, for every selector it
queries, the element that `document.querySelector` finds (`none` is `null`); an element is
told by a number. -/
structure Page where
  /-- The value `window.location.href`. -/
  href : Str
  /-- The element for `[data-testid="user-menu"]`. -/
  userMenu : Option Nat := none
  /-- The element for `.ic-avatar-box__name`. -/
  avatarName : Option Nat := none
  /-- The element for `.user-profile`. -/
  userProfile : Option Nat := none
  /-- The element for `.logout-button`. -/
  logoutButton : Option Nat := none
  /-- The element for `[href*="logout"]`. -/
  logoutLink : Option Nat := none
  /-- The element for `.user-info`. -/
  userInfo : Option Nat := none

/-- An element of the array `loginIndicators`: an element of the page, `null`, or a
boolean. -/
inductive Indicator where
  /-- An element of the page. -/
  | node (e : Nat)
  /-- The value `null`. -/
  | null
  /-- A boolean. -/
  | bool (b : Bool)

/-- The result of `document.querySelector` as an array element. -/
def Indicator.ofQuery (q : Option Nat) : Indicator :=
  match q with
  | some e => .node e
  | none => .null

/-- The test `indicator !== null`. -/
def Indicator.isNotNull (x : Indicator) : Bool :=
  match x with
  | .null => false
  | .node _ => true
  | .bool _ => true

/-- The last element of `loginIndicators`:
`!href.includes('login') && !href.includes('auth')`. -/
def urlIndicator (href : Str) : Bool :=
  !includes href "login".toList && !includes href "auth".toList

/-- The method `BaseConnector.isAuthenticated()`. -/
def BaseConnector.isAuthenticated (page : Page) : Bool :=
  let loginIndicators : List Indicator :=
    [Indicator.ofQuery page.userMenu, Indicator.ofQuery page.userProfile,
     Indicator.ofQuery page.logoutButton, Indicator.ofQuery page.logoutLink,
     Indicator.ofQuery page.userInfo, Indicator.bool (urlIndicator page.href)]
  loginIndicators.any Indicator.isNotNull

/-- The method `Connector1177.isAuthenticated()`. -/
def Connector1177.isAuthenticated (page : Page) : Bool :=
  let loginIndicators : List Indicator :=
    [Indicator.ofQuery page.userMenu, Indicator.ofQuery page.avatarName,
     Indicator.ofQuery page.userProfile, Indicator.ofQuery page.logoutButton,
     Indicator.ofQuery page.logoutLink, Indicator.ofQuery page.userInfo,
     Indicator.bool (urlIndicator page.href)]
  let isLoggedIn := loginIndicators.any Indicator.isNotNull
  isLoggedIn

/-! ## `Scraper1177` (scraper.js) -/

/-- The first element of the collection that `getElementsByClassName("load-more ...")`
gives in one iteration of the loop, as `loadAllJournalEntries` reads it. -/
structure LoadMoreButton where
  /-- The test `offsetParent === null`. -/
  offsetParentNull : Bool := false
  /-- The property `disabled`. -/
  disabled : Bool := false
  /-- Whether the `try` block (the call `click()` first of all) raises before the counter
  is incremented. -/
  clickRaises : Bool := false

/-- The constant `maxClicks`. -/
def maxClicks : Nat := 50

/-- The loop `while (loadMoreClicks < maxClicks)` of `loadAllJournalEntries`.  `page n` is
what the page shows in the iteration entered with `loadMoreClicks = n`: `none` when the
collection is empty.  The first argument is `maxClicks - loadMoreClicks`, so the loop
condition is that it is not zero; the result is the value of `loadMoreClicks` after the
loop, the number of completed click-and-wait cycles. -/
def loadLoop (page : Nat → Option LoadMoreButton) : Nat → Nat → Nat
  | 0, loadMoreClicks => loadMoreClicks
  | left + 1, loadMoreClicks =>
    match page loadMoreClicks with
    | none => loadMoreClicks
    | some loadMoreButton =>
      if loadMoreButton.offsetParentNull || loadMoreButton.disabled then loadMoreClicks
      else if loadMoreButton.clickRaises then loadMoreClicks
      else loadLoop page left (loadMoreClicks + 1)

/-- The method `loadAllJournalEntries()`: the number of clicks it reports when it
returns. -/
def loadAllJournalEntries (page : Nat → Option LoadMoreButton) : Nat :=
  loadLoop page maxClicks 0

/-- One character of a pattern with the `i` flag, for a lower-case ASCII letter `c`: the
letter itself or its upper-case form. -/
def ciChar (c : Char) : Re := .rep (fun x => x == c || x.toNat + 32 == c.toNat) 1 (some 1)

/-- A word of lower-case ASCII letters in a pattern with the `i` flag. -/
def ciWord : Str → Re
  | [] => .lit []
  | [c] => ciChar c
  | c :: d :: rest => .cat (ciChar c) (ciWord (d :: rest))

/-- The alternation `jan|feb|mar|apr|maj|jun|jul|aug|sep|okt|nov|dec` with the `i` flag. -/
def reMonthNames : Re :=
  .alt (ciWord "jan".toList) (.alt (ciWord "feb".toList) (.alt (ciWord "mar".toList)
    (.alt (ciWord "apr".toList) (.alt (ciWord "maj".toList) (.alt (ciWord "jun".toList)
      (.alt (ciWord "jul".toList) (.alt (ciWord "aug".toList) (.alt (ciWord "sep".toList)
        (.alt (ciWord "okt".toList) (.alt (ciWord "nov".toList) (ciWord "dec".toList)))))))))))

/-- The pattern `/(\d{1,2})\s+(jan|feb|mar|apr|maj|jun|jul|aug|sep|okt|nov|dec)\s+(\d{4})/i`
(the flag bears on the letters only). -/
def reSwedishMonthDate : Re :=
  .cat (.grp 1 (.rep isDigit 1 (some 2))) (.cat (.rep isSpace 1 none)
    (.cat (.grp 2 reMonthNames) (.cat (.rep isSpace 1 none)
      (.grp 3 (.rep isDigit 4 (some 4))))))

/-- The pattern `/\d{1,2}\s+\w{3}\s+\d{4}/`. -/
def reDayWordYear : Re :=
  .cat (.rep isDigit 1 (some 2)) (.cat (.rep isSpace 1 none)
    (.cat (.rep isWord 3 (some 3)) (.cat (.rep isSpace 1 none) (.rep isDigit 4 (some 4)))))

/-- The pattern `/\n\s*\n/`. -/
def reBlankLines : Re := .cat (.lit ['\n']) (.cat (.rep isSpace 0 none) (.lit ['\n']))

/-- The call `s.replace(r, rep)` for a pattern `r` with the `g` flag and a replacement
text `rep` without `$`, run over the input from offset `i` on: every match, found from left
to right, the next one searched from the end of the previous one, is replaced by `rep`.
The first argument counts the characters that still belong to the match just replaced. -/
def replaceAux (r : Re) (rep : Str) : Nat → Nat → Str → Str
  | 0, i, [] =>
    match r.matchAt i [] with
    | some _ => rep
    | none => []
  | _ + 1, _, [] => []
  | skip + 1, i, _ :: cs => replaceAux r rep skip (i + 1) cs
  | 0, i, c :: cs =>
    match r.matchAt i (c :: cs) with
    | some m =>
      if m.stop = i then rep ++ c :: replaceAux r rep 0 (i + 1) cs
      else rep ++ replaceAux r rep (m.stop - i - 1) (i + 1) cs
    | none => c :: replaceAux r rep 0 (i + 1) cs

/-- The call `s.replace(r, rep)` for a pattern with the `g` flag. -/
def replaceAll (r : Re) (rep : Str) (s : Str) : Str := replaceAux r rep 0 0 s

/-- The entry container as `extractEntryContent` reads it: its text, and for each of the
four selector lists the `textContent` of the element that `querySelector` finds (`none`
is `null`). -/
structure EntryElement where
  /-- The property `textContent`. -/
  textContent : Option Str := none
  /-- The property `innerText`. -/
  innerText : Option Str := none
  /-- Text of the element for `.title, .journal-title, .entry-title, h3, h4, ...`. -/
  titleElement : Option Str := none
  /-- Text of the element for `.category, .journal-category, .entry-category, ...`. -/
  categoryElement : Option Str := none
  /-- Text of the element for `.source, .provider, .journal-source, .nc-source`. -/
  sourceElement : Option Str := none
  /-- Text of the element for `.journal-details, .entry-details, .nc-details, ...`. -/
  detailsElement : Option Str := none

/-- The loop that looks for the line with the date; `date` is `content.date` so far. -/
def dateLoop (date : Str) : List Str → Str
  | [] => date
  | line :: rest =>
    if (reSwedishMonthDate.exec line).isSome && date.isEmpty then line
    else if (reIso.exec line).isSome && date.isEmpty then line
    else dateLoop date rest

/-- The loop that takes the title from the lines when there is no title element. -/
def titleLoop (title : Str) : List Str → Str
  | [] => title
  | line :: rest =>
    if decide (line.length > 5) && decide (line.length < 100)
        && (reIsoBody.exec line).isNone && (reDayWordYear.exec line).isNone then line
    else titleLoop title rest

/-- The array `categoryKeywords`. -/
def categoryKeywords : List Str :=
  ["Vårdkontakter".toList, "Anteckningar".toList, "Diagnoser".toList, "Vaccinationer".toList,
   "Läkemedel".toList, "Provsvar".toList, "Remisser".toList, "Tillväxt".toList,
   "Uppmärksamhetsinformation".toList, "Vårdplaner".toList]

/-- The array `providerKeywords`. -/
def providerKeywords : List Str :=
  ["vårdcentral".toList, "sjukhus".toList, "akut".toList, "tandvård".toList,
   "folktandvården".toList, "SLSO".toList, "region".toList, "stockholm".toList,
   "uppsala".toList, "danderyd".toList]

/-- The loop that takes the category from the lines: the first keyword, in the order of
the array, that the first line with a keyword contains. -/
def categoryLoop (category : Str) : List Str → Str
  | [] => category
  | line :: rest =>
    match categoryKeywords.find? (fun keyword => includes line keyword) with
    | some keyword => if keyword.isEmpty then categoryLoop keyword rest else keyword
    | none => if category.isEmpty then categoryLoop category rest else category

/-- The loop that takes the source from the lines: the first line that, in lower case,
contains a keyword. -/
def sourceLoop (source : Str) : List Str → Str
  | [] => source
  | line :: rest =>
    if providerKeywords.any (fun keyword => includes (toLowerCase line) keyword) then
      (if line.isEmpty then sourceLoop line rest else line)
    else if source.isEmpty then sourceLoop source rest else source

/-- The expression for `cleanText`:
`text.replace(/\s+/g, ' ').replace(/\n\s*\n/g, '\n').trim()`. -/
def cleanTextOf (text : Str) : Str :=
  trim (replaceAll reBlankLines ['\n'] (collapseSpaces text))

/-- The method `extractEntryContent(element)`; `none` is `null`. -/
def extractEntryContent (element : EntryElement) : Option RawEntry :=
  let textContent := orElse element.textContent (orElse element.innerText [])
  let text := trim textContent
  let lines := ((split '\n' textContent).map trim).filter (fun line => !line.isEmpty)
  let date := dateLoop [] lines
  let title :=
    match element.titleElement with
    | some t => trim t
    | none => titleLoop [] lines
  let category :=
    match element.categoryElement with
    | some t => trim t
    | none => categoryLoop [] lines
  let source :=
    match element.sourceElement with
    | some t => trim t
    | none => sourceLoop [] lines
  let details :=
    match element.detailsElement with
    | some t => trim t
    | none => []
  let cleanText := cleanTextOf text
  if !cleanText.isEmpty && decide (cleanText.length > 20) then
    some { text := some cleanText, date := some date, title := some title,
           category := some category, source := some source, details := some details }
  else none

/-! ## Notions used to state the properties -/

/-- The words matched by a pattern, independently of the matcher: `r.Lang i w rest` says that
`w`, standing at offset `i` of the input and followed by `rest`, is a match of `r`. -/
def Re.Lang : Re → Nat → Str → Str → Prop
  | .lit s, _, w, _ => w = s
  | .rep p lo hi, _, w, _ =>
    (∀ c ∈ w, p c = true) ∧ lo ≤ w.length ∧ ∀ h, hi = some h → w.length ≤ h
  | .cat a b, i, w, rest =>
    ∃ w1 w2, w = w1 ++ w2 ∧ a.Lang i w1 (w2 ++ rest) ∧ b.Lang (i + w1.length) w2 rest
  | .alt a b, i, w, rest => a.Lang i w rest ∨ b.Lang i w rest
  | .opt a, i, w, rest => a.Lang i w rest ∨ w = []
  | .grp _ a, i, w, rest => a.Lang i w rest
  | .bos, i, w, _ => w = [] ∧ i = 0
  | .eos, _, w, rest => w = [] ∧ rest = []

/-- A strict ISO date: four digits, a hyphen, two digits, a hyphen, two digits, and nothing
else; `y`, `mo`, `d` are the three digit groups. -/
def IsIsoDate (y mo d : Str) (s : Str) : Prop :=
  s = y ++ ['-'] ++ mo ++ ['-'] ++ d ∧ y.length = 4 ∧ mo.length = 2 ∧ d.length = 2 ∧
    (∀ c ∈ y, isDigit c = true) ∧ (∀ c ∈ mo, isDigit c = true) ∧ ∀ c ∈ d, isDigit c = true

/-- Order of calendar dates given as (year, month, day). -/
def dateLe (y1 m1 d1 y2 m2 d2 : Nat) : Prop :=
  y1 < y2 ∨ (y1 = y2 ∧ (m1 < m2 ∨ (m1 = m2 ∧ d1 ≤ d2)))

/-- The value `y` is the value `x` with its default `dflt` put in when `x` is absent or
empty. -/
def ReplacedBy (x : Option Str) (dflt : Str) (y : Str) : Prop :=
  (∀ v, x = some v → v ≠ [] → y = v) ∧ ((x = none ∨ x = some []) → y = dflt)

/-- The event `event` is a request for the key `k` that the listener accepts: it comes from
the configured origin, its type is `REQUEST_EIR_DATA` or `EIR_SPACE_READY`, and its key is
the string `k`. -/
def IsRequestFor (event : MessageEvent) (k : Str) : Prop :=
  event.origin = jstr "https://eir.space" ∧
    ∃ t : Str, (t = jstr "REQUEST_EIR_DATA" ∨ t = jstr "EIR_SPACE_READY") ∧
      event.data = some { type := some t, key := KeyVal.str k }

/-- Position of the first occurrence of the name `n` in a list of possibly missing names
(the length of the list when `n` does not occur). -/
def firstIndexOf (n : Str) : List (Option Str) → Nat
  | [] => 0
  | x :: rest => if x = some n then 0 else firstIndexOf n rest + 1

/-- The list `y` is the list `x`, or the empty list when `x` is absent. -/
def ReplacedByEmpty {α : Type} (x : Option (List α)) (y : List α) : Prop :=
  (∀ l, x = some l → y = l) ∧ (x = none → y = [])

/-- The fixed keyword list of `generateTags`, in the order of its `if` statements. -/
def tagKeywords : List Str :=
  [jstr "akut", jstr "vaccination", jstr "tandvård", jstr "diagnos", jstr "besök",
   jstr "osignerad", jstr "distriktssköterska", jstr "tandläkare", jstr "läkare"]

/-- The text `s` contains `k` under case-insensitive comparison. -/
def containsIgnoreCase (s k : Str) : Prop := toLowerCase k <:+: toLowerCase s

/-- Specification of `extractNotes` in the words of the spec, written with library
functions: split the text at line breaks, trim each line, drop the empty lines, keep the
lines that contain a colon, do not contain `http` and are longer than 10 characters. -/
def notesOfSpec (text : Str) : List Str :=
  (((text.splitOn '\n').map (fun line => (line.dropWhile isSpace).rdropWhile isSpace)).filter
    (fun line => decide (line ≠ []))).filter
    (fun line => decide ([':'] <:+: line ∧ ¬ (jstr "http" <:+: line) ∧ 10 < line.length))

/-- The texts that group number `g` of the pattern can capture: `v` is a match of a
capturing group numbered `g` somewhere inside `r`. -/
def Re.groupLang : Re → Nat → Str → Prop
  | .lit _, _, _ => False
  | .rep _ _ _, _, _ => False
  | .cat a b, g, v => a.groupLang g v ∨ b.groupLang g v
  | .alt a b, g, v => a.groupLang g v ∨ b.groupLang g v
  | .opt a, g, v => a.groupLang g v
  | .grp n a, g, v => (n = g ∧ ∃ i rest, a.Lang i v rest) ∨ a.groupLang g v
  | .bos, _, _ => False
  | .eos, _, _ => False

/-- The spellings that `generateTags` looks for in the text, keyword by keyword, in the
order of its `if` statements. -/
def keywordSpellings : List (Str × List Str) :=
  [(jstr "akut", [jstr "akut", jstr "Akut"]),
   (jstr "vaccination", [jstr "vaccination", jstr "Vaccination"]),
   (jstr "tandvård", [jstr "tandvård", jstr "Tandvård"]),
   (jstr "diagnos", [jstr "diagnos", jstr "Diagnos"]),
   (jstr "besök", [jstr "besök", jstr "Besök"]),
   (jstr "osignerad", [jstr "osignerad", jstr "Osignerad"]),
   (jstr "distriktssköterska", [jstr "distriktssköterska"]),
   (jstr "tandläkare", [jstr "tandläkare"]),
   (jstr "läkare", [jstr "läkare"])]

/-- The keywords that `generateTags` pushes for a text, in the order of its `if`
statements: those with a spelling that occurs in the text. -/
def pushedKeywords (text : Str) : List Str :=
  keywordSpellings.filterMap
    (fun p => if p.2.any (fun f => includes text f) then some p.1 else none)

/-- The Swedish month abbreviations with the two-digit numbers of their months. -/
def monthNumbers : List (Str × Str) :=
  [(jstr "jan", jstr "01"), (jstr "feb", jstr "02"), (jstr "mar", jstr "03"),
   (jstr "apr", jstr "04"), (jstr "maj", jstr "05"), (jstr "jun", jstr "06"),
   (jstr "jul", jstr "07"), (jstr "aug", jstr "08"), (jstr "sep", jstr "09"),
   (jstr "okt", jstr "10"), (jstr "nov", jstr "11"), (jstr "dec", jstr "12")]

/-- A clock time as the time pattern captures it: one or two digits, a colon, two
digits. -/
def IsClockTime (w : Str) : Prop :=
  ∃ h mm : Str, w = h ++ [':'] ++ mm ∧ 1 ≤ h.length ∧ h.length ≤ 2 ∧ mm.length = 2 ∧
    (∀ c ∈ h, isDigit c = true) ∧ ∀ c ∈ mm, isDigit c = true

/-- A property of a descriptor is lacking: absent or the empty string. -/
def Lacks (x : Option Str) : Prop := x = none ∨ x = some []

/-- The registry holds an active instance whose connector matches the url. -/
def CachedMatches (r : Registry) (url : Str) : Prop :=
  ∃ a, r.activeConnector = some a ∧ a.classOf.callMatches url = some true

/-- The states of the registry that calls of `registerConnector`, `getActiveConnector` and
`clearActiveConnector` lead to from the state that the constructor sets up. -/
inductive Reachable : Registry → Prop where
  /-- The state set up by the constructor. -/
  | init : Reachable { connectors := [], activeConnector := none }
  /-- After `registerConnector`. -/
  | register (r : Registry) (c : ConnectorClass) :
    Reachable r → Reachable (registerConnector r c)
  /-- After `getActiveConnector`. -/
  | getActive (r : Registry) (url : Str) (newInstance : ConnectorClass → Option Nat)
      (r1 : Registry) (res : Option ConnectorInstance) :
    Reachable r → getActiveConnector r url newInstance = some (r1, res) → Reachable r1
  /-- After `clearActiveConnector`. -/
  | clear (r : Registry) : Reachable r → Reachable (clearActiveConnector r)

/-- A connector for every address of 1177.se, used in the examples. -/
def connectorSite : ConnectorClass :=
  { providerName := some (jstr "1177.se"), country := some (jstr "SE"),
    matchesFn := some (fun url => some (includes url (jstr "1177.se"))) }

/-- A connector for the journal pages of 1177.se, used in the examples. -/
def connectorJournal : ConnectorClass :=
  { providerName := some (jstr "1177.se journal"), country := some (jstr "SE"),
    matchesFn := some (fun url => some (includes url (jstr "journalen.1177.se"))) }

/-- A connector whose `matches` raises on an address without a scheme (as
`new URL(url)` does) and otherwise compares the host, used in the examples. -/
def connectorParsing : ConnectorClass :=
  { providerName := some (jstr "1177.se"), country := some (jstr "SE"),
    matchesFn := some (fun url =>
      if includes url (jstr "://") then some (includes url (jstr "1177.se")) else none) }

/-- The registry after `connectorParsing` was registered and an instance of it was made for
an address that it matches, used in the examples. -/
def registryParsing : Registry :=
  { connectors := [connectorParsing],
    activeConnector := some { classOf := connectorParsing, ident := 1 } }

/-- The registry after the connector for the journal pages and then the connector for all
of 1177.se were registered and an instance was made for `https://www.1177.se/`, used in the
examples. -/
def registryTwo : Registry :=
  { connectors := [connectorJournal, connectorSite],
    activeConnector := some { classOf := connectorSite, ident := 1 } }

/-- The disjunction of the heuristics of `Connector1177.isAuthenticated`, as the
description gives it: one of the six elements is on the page, or the address contains
neither `login` nor `auth`. -/
def signedInHeuristics1177 (page : Page) : Bool :=
  page.userMenu.isSome || page.avatarName.isSome || page.userProfile.isSome
    || page.logoutButton.isSome || page.logoutLink.isSome || page.userInfo.isSome
    || (!includes page.href (jstr "login") && !includes page.href (jstr "auth"))

/-- The disjunction of the heuristics of `BaseConnector.isAuthenticated`, as the
description gives it: one of the five elements is on the page, or the address contains
neither `login` nor `auth`. -/
def signedInHeuristicsBase (page : Page) : Bool :=
  page.userMenu.isSome || page.userProfile.isSome || page.logoutButton.isSome
    || page.logoutLink.isSome || page.userInfo.isSome
    || (!includes page.href (jstr "login") && !includes page.href (jstr "auth"))

/-- The button is present, visible and not disabled. -/
def LoadMoreReady (b : Option LoadMoreButton) : Prop :=
  ∃ x, b = some x ∧ x.offsetParentNull = false ∧ x.disabled = false

/-- The button is present, visible and not disabled, and its click does not raise. -/
def LoadMoreClicked (b : Option LoadMoreButton) : Prop :=
  ∃ x, b = some x ∧ x.offsetParentNull = false ∧ x.disabled = false ∧ x.clickRaises = false

/-- The page that shows the button `b` in the first `n` iterations and no button
afterwards. -/
def pageThenAbsent (b : LoadMoreButton) (n : Nat) : Nat → Option LoadMoreButton :=
  fun i => if i < n then some b else none

/-- The page that shows the button `b` in every iteration. -/
def pageAlways (b : LoadMoreButton) : Nat → Option LoadMoreButton := fun _ => some b

/-- The text of the entry that `extractEntryContent` ends with: the text of the container,
trimmed, white space collapsed, trimmed again. -/
def resultingText (element : EntryElement) : Str :=
  cleanTextOf (trim (orElse element.textContent (orElse element.innerText [])))

/-- Specification of `formatDate` in two steps, in the words of the description: on the
cleaned string try the Swedish day-month-year pattern, on its leftmost match, and then the
ISO pattern anywhere in the string; `Unknown` when neither gives a date. -/
def formatDateTwoStep (dateString : Option Str) : Option Str :=
  match dateString with
  | none => some unknown
  | some [] => some unknown
  | some (c :: cs) =>
    match swedishStep (trim (collapseSpaces (c :: cs))) with
    | none => none
    | some (some d) => some d
    | some none =>
      match reIso.exec (trim (collapseSpaces (c :: cs))) with
      | some isoMatch => isoMatch.group 1
      | none => some unknown

/-- The string has no white space at its start and none at its end. -/
def Trimmed (s : Str) : Prop :=
  (∀ c, s.head? = some c → isSpace c = false) ∧ (∀ c, s.getLast? = some c → isSpace c = false)

/-- A lower-casing that goes beyond Basic Latin and Latin-1 in two characters, used in the
examples: `Š` (U+0160) becomes `š` and the Kelvin sign (U+212A) becomes `k`, as the
built-in has it; any other character is lowered by `lowerChar`. -/
def lowerSample (s : Str) : Str :=
  s.map (fun c => if c = 'Š' then 'š' else if c = '\u212A' then 'k' else lowerChar c)

/-! # Theorems -/

/-! ## Capture groups of a successful match -/

theorem tryCounts_some {α : Type} (k : Nat → Option α) (lo extra : Nat) (res : α)
    (h : tryCounts k lo extra = some res) : ∃ c, k c = some res := by
  induction extra with
  | zero => exact ⟨lo, h⟩
  | succ n ih =>
    unfold tryCounts at h
    split at h
    · next r hr => exact ⟨_, by rw [hr, h]⟩
    · exact ih h

theorem Re.run_sets {α : Type} (g : Nat) (r : Re) :
    ∀ (i : Nat) (rest : Str) (caps : Caps) (k : Nat → Str → Caps → Option α) (res : α),
      r.run i rest caps k = some res →
      ∃ i1 rest1 caps1, k i1 rest1 caps1 = some res ∧
        (∀ j, (caps j).isSome → (caps1 j).isSome) ∧ (r.sets g = true → (caps1 g).isSome) := by
  induction r with
  | lit s =>
    intro i rest caps k res h
    simp only [Re.run] at h
    split at h
    · exact ⟨_, _, _, h, fun _ hj => hj, by simp [Re.sets]⟩
    · exact absurd h (by simp)
  | rep p lo hi =>
    intro i rest caps k res h
    simp only [Re.run] at h
    split at h
    · exact absurd h (by simp)
    · obtain ⟨c, hc⟩ := tryCounts_some _ _ _ _ h
      exact ⟨_, _, _, hc, fun _ hj => hj, by simp [Re.sets]⟩
  | cat a b iha ihb =>
    intro i rest caps k res h
    simp only [Re.run] at h
    obtain ⟨i1, rest1, caps1, h1, m1, s1⟩ := iha _ _ _ _ _ h
    obtain ⟨i2, rest2, caps2, h2, m2, s2⟩ := ihb _ _ _ _ _ h1
    refine ⟨i2, rest2, caps2, h2, fun j hj => m2 j (m1 j hj), ?_⟩
    intro hs
    simp only [Re.sets, Bool.or_eq_true] at hs
    rcases hs with hs | hs
    · exact m2 g (s1 hs)
    · exact s2 hs
  | alt a b iha ihb =>
    intro i rest caps k res h
    simp only [Re.run] at h
    split at h
    · next r hr =>
      obtain ⟨i1, rest1, caps1, h1, m1, s1⟩ := iha _ _ _ _ _ hr
      refine ⟨i1, rest1, caps1, by rw [h1, h], m1, ?_⟩
      intro hs
      simp only [Re.sets, Bool.and_eq_true] at hs
      exact s1 hs.1
    · obtain ⟨i1, rest1, caps1, h1, m1, s1⟩ := ihb _ _ _ _ _ h
      refine ⟨i1, rest1, caps1, h1, m1, ?_⟩
      intro hs
      simp only [Re.sets, Bool.and_eq_true] at hs
      exact s1 hs.2
  | opt a iha =>
    intro i rest caps k res h
    simp only [Re.run] at h
    split at h
    · next r hr =>
      obtain ⟨i1, rest1, caps1, h1, m1, _⟩ := iha _ _ _ _ _ hr
      exact ⟨i1, rest1, caps1, by rw [h1, h], m1, by simp [Re.sets]⟩
    · exact ⟨_, _, _, h, fun _ hj => hj, by simp [Re.sets]⟩
  | grp n a iha =>
    intro i rest caps k res h
    simp only [Re.run] at h
    obtain ⟨i1, rest1, caps1, h1, m1, s1⟩ := iha _ _ _ _ _ h
    refine ⟨_, _, _, h1, ?_, ?_⟩
    · intro j hj
      simp only [Caps.set]
      split
      · rfl
      · exact m1 j hj
    · intro hs
      simp only [Re.sets, Bool.or_eq_true, beq_iff_eq] at hs
      simp only [Caps.set]
      split
      · rfl
      · next hne =>
        rcases hs with hs | hs
        · exact absurd hs.symm hne
        · exact s1 hs
  | bos =>
    intro i rest caps k res h
    simp only [Re.run] at h
    split at h
    · exact ⟨_, _, _, h, fun _ hj => hj, by simp [Re.sets]⟩
    · exact absurd h (by simp)
  | eos =>
    intro i rest caps k res h
    simp only [Re.run] at h
    split at h
    · exact ⟨_, _, _, h, fun _ hj => hj, by simp [Re.sets]⟩
    · exact absurd h (by simp)

theorem Re.matchAt_group (r : Re) (g : Nat) (hs : r.sets g = true) (i : Nat) (rest : Str)
    (m : Match) (h : r.matchAt i rest = some m) : ∃ v, m.group g = some v := by
  unfold Re.matchAt at h
  obtain ⟨i1, rest1, caps1, h1, _, s1⟩ := Re.run_sets g r _ _ _ _ _ h
  simp only [Option.some.injEq] at h1
  subst h1
  simp only [Match.group, Caps.set]
  split
  · exact ⟨_, rfl⟩
  · exact Option.isSome_iff_exists.mp (s1 hs)

theorem Re.searchFrom_group (r : Re) (g : Nat) (hs : r.sets g = true) (s : Str) :
    ∀ (i : Nat) (m : Match), r.searchFrom i s = some m → ∃ v, m.group g = some v := by
  induction s with
  | nil =>
    intro i m h
    exact Re.matchAt_group r g hs _ _ _ h
  | cons c cs ih =>
    intro i m h
    simp only [Re.searchFrom] at h
    split at h
    · next m1 hm1 =>
      simp only [Option.some.injEq] at h
      subst h
      exact Re.matchAt_group r g hs _ _ _ hm1
    · exact ih _ _ h

theorem Re.exec_group (r : Re) (g : Nat) (hs : r.sets g = true) (s : Str) (m : Match)
    (h : r.exec s = some m) : ∃ v, m.group g = some v :=
  Re.searchFrom_group r g hs s 0 m h

theorem tryCounts_sound {α : Type} (k : Nat → Option α) (lo extra : Nat) (res : α)
    (h : tryCounts k lo extra = some res) : ∃ c, lo ≤ c ∧ c ≤ lo + extra ∧ k c = some res := by
  induction extra with
  | zero => exact ⟨lo, le_refl _, le_refl _, h⟩
  | succ n ih =>
    unfold tryCounts at h
    split at h
    · next r hr => exact ⟨lo + n + 1, by omega, by omega, by rw [hr, h]⟩
    · obtain ⟨c, h1, h2, h3⟩ := ih h
      exact ⟨c, h1, by omega, h3⟩

theorem tryCounts_complete {α : Type} (k : Nat → Option α) (lo extra c : Nat)
    (h1 : lo ≤ c) (h2 : c ≤ lo + extra) (h : (k c).isSome = true) :
    (tryCounts k lo extra).isSome = true := by
  induction extra with
  | zero =>
    have : c = lo := by omega
    subst this
    exact h
  | succ n ih =>
    unfold tryCounts
    split
    · rfl
    · next hn =>
      apply ih
      by_contra hc
      have : c = lo + n + 1 := by omega
      subst this
      rw [hn] at h
      exact absurd h (by simp)

theorem spanLen_le_length (p : Char → Bool) (s : Str) :
    ∀ hi : Option Nat, spanLen p hi s ≤ s.length := by
  induction s with
  | nil => intro hi; simp [spanLen]
  | cons c cs ih =>
    intro hi
    simp only [spanLen, List.length_cons]
    split_ifs
    · omega
    · have := ih (hi.map (· - 1)); omega
    · omega

theorem spanLen_le_hi (p : Char → Bool) (s : Str) :
    ∀ (hi : Option Nat) (h : Nat), hi = some h → spanLen p hi s ≤ h := by
  induction s with
  | nil => intro hi h _; simp [spanLen]
  | cons c cs ih =>
    intro hi h hh
    subst hh
    simp only [spanLen]
    split_ifs with h0 hp
    · omega
    · have := ih (some (h - 1)) (h - 1) rfl
      simp only [Option.map_some'] at *
      have : h ≠ 0 := fun e => h0 (by rw [e])
      omega
    · omega

theorem spanLen_take (p : Char → Bool) (s : Str) :
    ∀ (hi : Option Nat) (n : Nat), n ≤ spanLen p hi s → ∀ c ∈ s.take n, p c = true := by
  induction s with
  | nil => intro hi n _ c hc; simp at hc
  | cons x xs ih =>
    intro hi n hn c hc
    cases n with
    | zero => simp at hc
    | succ m =>
      simp only [spanLen] at hn
      split_ifs at hn with h0 hp
      · omega
      · simp only [List.take_succ_cons, List.mem_cons] at hc
        rcases hc with hc | hc
        · rw [hc]; exact hp
        · exact ih (hi.map (· - 1)) m (by omega) c hc
      · omega

theorem spanLen_ge (p : Char → Bool) (w : Str) :
    ∀ (hi : Option Nat) (rest : Str), (∀ c ∈ w, p c = true) →
      (∀ h, hi = some h → w.length ≤ h) → w.length ≤ spanLen p hi (w ++ rest) := by
  induction w with
  | nil => intro hi rest _ _; simp
  | cons x xs ih =>
    intro hi rest hp hh
    show (x :: xs).length ≤ spanLen p hi (x :: (xs ++ rest))
    simp only [spanLen, List.length_cons]
    have hx : p x = true := hp x (List.mem_cons_self _ _)
    have h0 : hi ≠ some 0 := by
      intro e
      have := hh 0 e
      simp at this
    rw [if_neg h0, if_pos hx]
    have := ih (hi.map (· - 1)) rest (fun c hc => hp c (List.mem_cons_of_mem _ hc)) (by
      intro h e
      cases hi with
      | none => simp at e
      | some v =>
        simp only [Option.map_some', Option.some.injEq] at e
        have := hh v rfl
        simp only [List.length_cons] at this
        omega)
    omega

theorem Re.run_sound {α : Type} (r : Re) :
    ∀ (i : Nat) (rest : Str) (caps : Caps) (k : Nat → Str → Caps → Option α) (res : α),
      r.run i rest caps k = some res →
      ∃ w rest1 caps1, rest = w ++ rest1 ∧ r.Lang i w rest1 ∧
        k (i + w.length) rest1 caps1 = some res := by
  induction r with
  | lit s =>
    intro i rest caps k res h
    simp only [Re.run] at h
    split at h
    · next hp =>
      obtain ⟨t, ht⟩ := List.isPrefixOf_iff_prefix.mp hp
      subst ht
      rw [List.drop_left] at h
      exact ⟨s, t, caps, rfl, rfl, h⟩
    · exact absurd h (by simp)
  | rep p lo hi =>
    intro i rest caps k res h
    simp only [Re.run] at h
    split at h
    · exact absurd h (by simp)
    · next hlo =>
      obtain ⟨c, hc1, hc2, hc⟩ := tryCounts_sound _ _ _ _ h
      have hcn : c ≤ spanLen p hi rest := by omega
      have hlen : (rest.take c).length = c := by
        rw [List.length_take]
        have := spanLen_le_length p rest hi
        omega
      refine ⟨rest.take c, rest.drop c, caps, (List.take_append_drop c rest).symm, ?_, ?_⟩
      · refine ⟨spanLen_take p rest hi c hcn, by omega, ?_⟩
        intro hh e
        have := spanLen_le_hi p rest hi hh e
        omega
      · rw [hlen]; exact hc
  | cat a b iha ihb =>
    intro i rest caps k res h
    simp only [Re.run] at h
    obtain ⟨w1, rest1, caps1, e1, l1, h1⟩ := iha _ _ _ _ _ h
    obtain ⟨w2, rest2, caps2, e2, l2, h2⟩ := ihb _ _ _ _ _ h1
    subst e2
    refine ⟨w1 ++ w2, rest2, caps2, by simp [e1], ⟨w1, w2, rfl, l1, l2⟩, ?_⟩
    rw [List.length_append, ← Nat.add_assoc]
    exact h2
  | alt a b iha ihb =>
    intro i rest caps k res h
    simp only [Re.run] at h
    split at h
    · next r hr =>
      obtain ⟨w, rest1, caps1, e1, l1, h1⟩ := iha _ _ _ _ _ hr
      exact ⟨w, rest1, caps1, e1, Or.inl l1, by rw [h1, h]⟩
    · obtain ⟨w, rest1, caps1, e1, l1, h1⟩ := ihb _ _ _ _ _ h
      exact ⟨w, rest1, caps1, e1, Or.inr l1, h1⟩
  | opt a iha =>
    intro i rest caps k res h
    simp only [Re.run] at h
    split at h
    · next r hr =>
      obtain ⟨w, rest1, caps1, e1, l1, h1⟩ := iha _ _ _ _ _ hr
      exact ⟨w, rest1, caps1, e1, Or.inl l1, by rw [h1, h]⟩
    · exact ⟨[], rest, caps, rfl, Or.inr rfl, h⟩
  | grp n a iha =>
    intro i rest caps k res h
    simp only [Re.run] at h
    obtain ⟨w, rest1, caps1, e1, l1, h1⟩ := iha _ _ _ _ _ h
    exact ⟨w, rest1, _, e1, l1, h1⟩
  | bos =>
    intro i rest caps k res h
    simp only [Re.run] at h
    split at h
    · next hi => exact ⟨[], rest, caps, rfl, ⟨rfl, hi⟩, h⟩
    · exact absurd h (by simp)
  | eos =>
    intro i rest caps k res h
    simp only [Re.run] at h
    split at h
    · next hi => exact ⟨[], rest, caps, rfl, ⟨rfl, by simpa using hi⟩, h⟩
    · exact absurd h (by simp)

theorem Re.run_complete {α : Type} (r : Re) :
    ∀ (i : Nat) (w rest : Str) (caps : Caps) (k : Nat → Str → Caps → Option α),
      r.Lang i w rest → (∀ caps1, (k (i + w.length) rest caps1).isSome = true) →
      (r.run i (w ++ rest) caps k).isSome = true := by
  induction r with
  | lit s =>
    intro i w rest caps k hl hk
    simp only [Re.Lang] at hl
    subst hl
    simp only [Re.run]
    rw [if_pos (List.isPrefixOf_iff_prefix.mpr (List.prefix_append _ _)), List.drop_left]
    exact hk caps
  | rep p lo hi =>
    intro i w rest caps k hl hk
    obtain ⟨hp, hlo, hhi⟩ := hl
    have hge := spanLen_ge p w hi rest hp hhi
    simp only [Re.run]
    rw [if_neg (by omega)]
    apply tryCounts_complete _ lo _ w.length hlo (by omega)
    rw [List.drop_left]
    exact hk caps
  | cat a b iha ihb =>
    intro i w rest caps k hl hk
    obtain ⟨w1, w2, e, l1, l2⟩ := hl
    subst e
    simp only [Re.run, List.append_assoc]
    apply iha i w1 (w2 ++ rest) caps _ l1
    intro caps1
    apply ihb _ w2 rest caps1 k l2
    intro caps2
    have := hk caps2
    rwa [List.length_append, ← Nat.add_assoc] at this
  | alt a b iha ihb =>
    intro i w rest caps k hl hk
    simp only [Re.run]
    rcases hl with hl | hl
    · have := iha i w rest caps k hl hk
      split
      · rfl
      · next hn => rw [hn] at this; exact absurd this (by simp)
    · split
      · rfl
      · exact ihb i w rest caps k hl hk
  | opt a iha =>
    intro i w rest caps k hl hk
    simp only [Re.run]
    rcases hl with hl | hl
    · have := iha i w rest caps k hl hk
      split
      · rfl
      · next hn => rw [hn] at this; exact absurd this (by simp)
    · subst hl
      split
      · rfl
      · simpa using hk caps
  | grp n a iha =>
    intro i w rest caps k hl hk
    simp only [Re.run]
    exact iha i w rest caps _ hl (fun caps1 => hk _)
  | bos =>
    intro i w rest caps k hl hk
    obtain ⟨e, hi⟩ := hl
    subst e
    simp only [Re.run, List.nil_append]
    rw [if_pos hi]
    simpa using hk caps
  | eos =>
    intro i w rest caps k hl hk
    obtain ⟨e, hr⟩ := hl
    subst e; subst hr
    simp only [Re.run, List.nil_append, List.isEmpty_nil, if_true]
    simpa using hk caps

theorem Re.matchAt_isSome_iff (r : Re) (i : Nat) (s : Str) :
    (r.matchAt i s).isSome = true ↔ ∃ w rest, s = w ++ rest ∧ r.Lang i w rest := by
  constructor
  · intro h
    obtain ⟨m, hm⟩ := Option.isSome_iff_exists.mp h
    obtain ⟨w, rest1, _, e, l, _⟩ := Re.run_sound r _ _ _ _ _ hm
    exact ⟨w, rest1, e, l⟩
  · rintro ⟨w, rest, e, l⟩
    subst e
    exact Re.run_complete r i w rest _ _ l (fun _ => rfl)

theorem Re.searchFrom_isSome_iff (r : Re) (s : Str) :
    ∀ i : Nat, (r.searchFrom i s).isSome = true ↔
      ∃ pre w rest, s = pre ++ (w ++ rest) ∧ r.Lang (i + pre.length) w rest := by
  induction s with
  | nil =>
    intro i
    simp only [Re.searchFrom, Re.matchAt_isSome_iff]
    constructor
    · rintro ⟨w, rest, e, l⟩
      exact ⟨[], w, rest, e, l⟩
    · rintro ⟨pre, w, rest, e, l⟩
      have hpre : pre = [] := by
        cases pre with
        | nil => rfl
        | cons _ _ => simp at e
      subst hpre
      exact ⟨w, rest, e, l⟩
  | cons c cs ih =>
    intro i
    simp only [Re.searchFrom]
    constructor
    · intro h
      split at h
      · next m hm =>
        obtain ⟨w, rest, e, l⟩ := (Re.matchAt_isSome_iff r i (c :: cs)).mp (by rw [hm]; rfl)
        exact ⟨[], w, rest, e, l⟩
      · obtain ⟨pre, w, rest, e, l⟩ := (ih (i + 1)).mp h
        refine ⟨c :: pre, w, rest, by rw [e]; rfl, ?_⟩
        simp only [List.length_cons]
        rwa [Nat.add_assoc, Nat.add_comm 1] at l
    · rintro ⟨pre, w, rest, e, l⟩
      split
      · rfl
      · next hn =>
        cases pre with
        | nil =>
          have := (Re.matchAt_isSome_iff r i (c :: cs)).mpr ⟨w, rest, e, l⟩
          rw [hn] at this
          exact absurd this (by simp)
        | cons p ps =>
          simp only [List.cons_append, List.cons.injEq] at e
          apply (ih (i + 1)).mpr
          refine ⟨ps, w, rest, e.2, ?_⟩
          simp only [List.length_cons] at l
          rwa [Nat.add_assoc, Nat.add_comm 1]

theorem Re.exec_isSome_iff (r : Re) (s : Str) :
    (r.exec s).isSome = true ↔
      ∃ pre w rest, s = pre ++ (w ++ rest) ∧ r.Lang pre.length w rest := by
  unfold Re.exec
  rw [Re.searchFrom_isSome_iff]
  simp

/-! ## The normalizer never fails -/

theorem swedishStep_total (s : Str) : ∃ r, swedishStep s = some r := by
  unfold swedishStep
  split
  · exact ⟨_, rfl⟩
  · next m hm =>
    obtain ⟨d, hd⟩ := Re.exec_group reSwedishDate 1 rfl s m hm
    obtain ⟨mo, hmo⟩ := Re.exec_group reSwedishDate 2 rfl s m hm
    obtain ⟨y, hy⟩ := Re.exec_group reSwedishDate 3 rfl s m hm
    simp only [hd, hmo, hy, Option.bind_eq_bind, Option.some_bind]
    split <;> exact ⟨_, rfl⟩

theorem formatDate_total (d : Option Str) : ∃ r, formatDate d = some r := by
  unfold formatDate
  split
  · exact ⟨_, rfl⟩
  · exact ⟨_, rfl⟩
  · next c cs =>
    obtain ⟨r, hr⟩ := swedishStep_total (trim (collapseSpaces (c :: cs)))
    simp only [hr]
    cases r with
    | some d => exact ⟨_, rfl⟩
    | none =>
      simp only
      split
      · next m hm => exact Re.exec_group reIso 1 rfl _ m hm
      · split
        · next m hm => exact Re.exec_group reIsoStart 1 rfl _ m hm
        · split <;> exact ⟨_, rfl⟩

theorem extractTime_total (t : Option Str) : ∃ r, extractTime t = some r := by
  unfold extractTime
  split
  · exact ⟨_, rfl⟩
  · exact ⟨_, rfl⟩
  · split
    · next m hm => exact Re.exec_group reTime 1 rfl _ m hm
    · exact ⟨_, rfl⟩

theorem extractRegion_total (t : Option Str) : ∃ r, extractRegion t = some r := by
  unfold extractRegion
  split
  · exact ⟨_, rfl⟩
  · exact ⟨_, rfl⟩
  · simp only
    split_ifs
    · exact ⟨_, rfl⟩
    · exact ⟨_, rfl⟩
    · exact ⟨_, rfl⟩
    · exact ⟨_, rfl⟩
    · split
      · next m hm =>
        obtain ⟨v, hv⟩ := Re.exec_group reRegion 1 rfl _ m hm
        exact ⟨_, by rw [hv]; rfl⟩
      · exact ⟨_, rfl⟩
    · exact ⟨_, rfl⟩

theorem extractResponsiblePerson_total (t : Option Str) :
    ∃ r, extractResponsiblePerson t = some r := by
  unfold extractResponsiblePerson
  split
  · exact ⟨_, rfl⟩
  · exact ⟨_, rfl⟩
  · split
    · next m hm =>
      obtain ⟨v, hv⟩ := Re.exec_group rePerson 1 rfl _ m hm
      exact ⟨_, by rw [hv]; rfl⟩
    · split
      · next m hm =>
        obtain ⟨v, hv⟩ := Re.exec_group reOtherPerson 1 rfl _ m hm
        exact ⟨_, by rw [hv]; rfl⟩
      · exact ⟨_, rfl⟩

theorem extractRole_total (t : Option Str) : ∃ r, extractRole t = some r := by
  unfold extractRole
  split
  · exact ⟨_, rfl⟩
  · exact ⟨_, rfl⟩
  · split
    · next m hm =>
      obtain ⟨v, hv⟩ := Re.exec_group reRole 1 rfl _ m hm
      exact ⟨_, by rw [hv]; rfl⟩
    · exact ⟨_, rfl⟩

theorem normalizeEntry_total (raw : RawEntry) (i : Nat) :
    ∃ r, normalizeEntry raw i = some r ∧ r.id = entryId i := by
  obtain ⟨d, hd⟩ := formatDate_total raw.date
  obtain ⟨t, ht⟩ := extractTime_total raw.text
  obtain ⟨g, hg⟩ := extractRegion_total raw.source
  obtain ⟨p, hp⟩ := extractResponsiblePerson_total raw.text
  obtain ⟨ro, hro⟩ := extractRole_total raw.text
  simp only [normalizeEntry, hd, ht, hg, hp, hro, Option.bind_eq_bind, Option.some_bind]
  exact ⟨_, rfl, rfl⟩

theorem normalizeFrom_spec (raw : List RawEntry) :
    ∀ start : Nat, ∃ out, normalizeFrom start raw = some out ∧ out.length = raw.length ∧
      ∀ (i : Nat) (h : i < raw.length), normalizeEntry raw[i] (start + i) = out[i]? := by
  induction raw with
  | nil => intro start; exact ⟨[], rfl, rfl, fun i h => absurd h (by simp)⟩
  | cons e rest ih =>
    intro start
    obtain ⟨r, hr, _⟩ := normalizeEntry_total e start
    obtain ⟨rs, hrs, hlen, hidx⟩ := ih (start + 1)
    refine ⟨r :: rs, ?_, by simp [hlen], ?_⟩
    · simp only [normalizeFrom, hr, hrs, Option.bind_eq_bind, Option.some_bind]
      rfl
    · intro i h
      cases i with
      | zero => simpa using hr
      | succ j =>
        have hj : j < rest.length := by simpa using h
        have := hidx j hj
        simp only [List.getElem_cons_succ, List.getElem?_cons_succ]
        rw [← this]
        congr 1
        omega

/-! ## Decimal numerals -/

theorem digitVal_digitChar (d : Nat) (h : d < 10) : digitVal (digitChar d) = d := by
  interval_cases d <;> rfl

theorem isDigit_digitChar (d : Nat) : isDigit (digitChar d) = true := by
  have h : d % 10 < 10 := Nat.mod_lt _ (by decide)
  unfold digitChar
  generalize d % 10 = r at h
  interval_cases r <;> rfl

theorem digitChar_mod (d : Nat) : digitChar d = digitChar (d % 10) := by
  simp [digitChar]

theorem numVal_append_single (s : Str) (c : Char) :
    numVal (s ++ [c]) = 10 * numVal s + digitVal c := by
  simp [numVal, List.foldl_append]

theorem decimalAux_spec (fuel : Nat) :
    ∀ (n : Nat) (acc : Str), n < 10 ^ (fuel + 1) →
      ∃ ds, decimalAux (fuel + 1) n acc = ds ++ acc ∧ (∀ c ∈ ds, isDigit c = true) ∧
        numVal ds = n ∧ ds ≠ [] ∧ (ds.head? = some '0' → n = 0) := by
  induction fuel with
  | zero =>
    intro n acc hn
    have hn10 : n < 10 := by simpa using hn
    refine ⟨[digitChar n], ?_, ?_, ?_, by simp, ?_⟩
    · simp [decimalAux, hn10]
    · intro c hc
      simp only [List.mem_singleton] at hc
      rw [hc]; exact isDigit_digitChar n
    · simp [numVal, digitVal_digitChar n hn10]
    · intro h
      simp only [List.head?_cons, Option.some.injEq] at h
      have := digitVal_digitChar n hn10
      rw [h] at this
      rw [← this]; rfl
  | succ f ih =>
    intro n acc hn
    by_cases hn10 : n < 10
    · refine ⟨[digitChar n], ?_, ?_, ?_, by simp, ?_⟩
      · simp [decimalAux, hn10]
      · intro c hc
        simp only [List.mem_singleton] at hc
        rw [hc]; exact isDigit_digitChar n
      · simp [numVal, digitVal_digitChar n hn10]
      · intro h
        simp only [List.head?_cons, Option.some.injEq] at h
        have := digitVal_digitChar n hn10
        rw [h] at this
        rw [← this]; rfl
    · have hdiv : n / 10 < 10 ^ (f + 1) := by
        rw [Nat.div_lt_iff_lt_mul (by decide)]
        rw [pow_succ] at hn
        exact hn
      obtain ⟨ds, h1, h2, h3, h4, h5⟩ := ih (n / 10) (digitChar n :: acc) hdiv
      refine ⟨ds ++ [digitChar n], ?_, ?_, ?_, by simp, ?_⟩
      · rw [decimalAux, if_neg hn10, h1]; simp
      · intro c hc
        simp only [List.mem_append, List.mem_singleton] at hc
        rcases hc with hc | hc
        · exact h2 c hc
        · rw [hc]; exact isDigit_digitChar n
      · rw [numVal_append_single, h3, digitChar_mod,
          digitVal_digitChar _ (Nat.mod_lt _ (by decide))]
        omega
      · intro h
        cases ds with
        | nil => exact absurd rfl h4
        | cons x xs =>
          simp only [List.cons_append, List.head?_cons] at h
          have := h5 (by simpa using h)
          omega

theorem decimal_spec (n : Nat) :
    (∀ c ∈ decimal n, isDigit c = true) ∧ numVal (decimal n) = n ∧ decimal n ≠ [] ∧
      ((decimal n).head? = some '0' → n = 0) := by
  have hlt : n < 10 ^ (n + 1) :=
    lt_of_lt_of_le (Nat.lt_pow_self (by decide) n) (Nat.pow_le_pow_right (by decide) (by omega))
  obtain ⟨ds, h1, h2, h3, h4, h5⟩ := decimalAux_spec n n [] hlt
  have : decimal n = ds := by simp [decimal, h1]
  rw [this]
  exact ⟨h2, h3, h4, h5⟩

theorem numVal_zeros (k : Nat) (s : Str) : numVal (List.replicate k '0' ++ s) = numVal s := by
  induction k with
  | zero => rfl
  | succ j ih =>
    have : numVal (List.replicate (j + 1) '0' ++ s) = numVal (List.replicate j '0' ++ s) := by
      simp [numVal, List.replicate_succ, digitVal]
    rw [this, ih]

theorem entryId_injective : Function.Injective entryId := by
  intro i j h
  unfold entryId at h
  have h2 := List.append_cancel_left h
  have h3 : numVal (padStart0 3 (decimal (i + 1))) = numVal (padStart0 3 (decimal (j + 1))) := by
    rw [h2]
  simp only [padStart0, numVal_zeros, (decimal_spec _).2.1] at h3
  omega

/-! ## Claims on the normalizer -/

/-- C1: `normalize` returns a list as long as its argument; the record at index `i` is
`normalizeEntry(raw[i], i)`, and its id is `entry_` followed by the decimal numeral of
`i + 1` (digits only, value `i + 1`, no leading zero) padded on the left with `0` to three
characters; the ids are pairwise distinct. -/
theorem C1_normalize_index_preserving (raw : List RawEntry) :
    ∃ out : List NormalizedEntry, normalize raw = some out ∧ out.length = raw.length ∧
      (∀ (i : Nat) (h : i < raw.length), ∃ r : NormalizedEntry,
        normalizeEntry raw[i] i = some r ∧ out[i]? = some r ∧
        r.id = jstr "entry_" ++ List.replicate (3 - (decimal (i + 1)).length) '0'
          ++ decimal (i + 1) ∧
        (∀ c ∈ decimal (i + 1), isDigit c = true) ∧ numVal (decimal (i + 1)) = i + 1 ∧
        (decimal (i + 1)).head? ≠ some '0') ∧
      (out.map (fun r => r.id)).Nodup ∧
      out.map (fun r => r.id) = (List.range raw.length).map entryId := by
  obtain ⟨out, hout, hlen, hidx⟩ := normalizeFrom_spec raw 0
  have hids : out.map (fun r => r.id) = (List.range raw.length).map entryId := by
    apply List.ext_getElem
    · simp [hlen]
    · intro i h1 h2
      have hi : i < raw.length := by simpa [hlen] using h1
      have hio : i < out.length := by rw [hlen]; exact hi
      obtain ⟨r, hr, hid⟩ := normalizeEntry_total raw[i] i
      have h3 := hidx i hi
      rw [Nat.zero_add, hr, List.getElem?_eq_getElem hio] at h3
      simp only [List.getElem_map, List.getElem_range]
      rw [← Option.some.inj h3, hid]
  refine ⟨out, hout, hlen, ?_, ?_, hids⟩
  · intro i hi
    obtain ⟨r, hr, hid⟩ := normalizeEntry_total raw[i] i
    have h3 := hidx i hi
    rw [Nat.zero_add, hr] at h3
    have hs := decimal_spec (i + 1)
    refine ⟨r, hr, h3.symm, ?_, hs.1, hs.2.1, ?_⟩
    · rw [hid]; simp [entryId, padStart0, jstr]
    · intro h0
      have := hs.2.2.2 h0
      omega
  · rw [hids]
    exact List.Nodup.map entryId_injective (List.nodup_range _)

/-- Witness for C1 on a list of two raw entries: the result has two records. -/
theorem C1_normalize_index_preserving_witness :
    ∃ out : List NormalizedEntry,
      normalize [{ text := some (jstr "17 mar 2025 besök") }, { }] = some out ∧
        out.length = 2 ∧ out.map (fun r => r.id) = [jstr "entry_001", jstr "entry_002"] :=
  let ⟨out, h1, h2, _, _, h5⟩ :=
    C1_normalize_index_preserving [{ text := some (jstr "17 mar 2025 besök") }, { }]
  ⟨out, h1, h2, by rw [h5]; decide⟩

theorem falsy_cases (x : Option Str) (h : falsy x = true) : x = none ∨ x = some [] := by
  match x, h with
  | none, _ => exact Or.inl rfl
  | some [], _ => exact Or.inr rfl

theorem orElse_falsy (x : Option Str) (d : Str) (h : falsy x = true) : orElse x d = d := by
  rcases falsy_cases x h with rfl | rfl <;> rfl

theorem formatDate_falsy (x : Option Str) (h : falsy x = true) :
    formatDate x = some unknown := by
  rcases falsy_cases x h with rfl | rfl <;> rfl

theorem extractTime_falsy (x : Option Str) (h : falsy x = true) :
    extractTime x = some unknown := by
  rcases falsy_cases x h with rfl | rfl <;> rfl

theorem extractRegion_falsy (x : Option Str) (h : falsy x = true) :
    extractRegion x = some unknown := by
  rcases falsy_cases x h with rfl | rfl <;> rfl

theorem extractResponsiblePerson_falsy (x : Option Str) (h : falsy x = true) :
    extractResponsiblePerson x = some unknown := by
  rcases falsy_cases x h with rfl | rfl <;> rfl

theorem extractRole_falsy (x : Option Str) (h : falsy x = true) :
    extractRole x = some unknown := by
  rcases falsy_cases x h with rfl | rfl <;> rfl

theorem extractStatus_falsy (x : Option Str) (h : falsy x = true) :
    extractStatus x = unknown := by
  rcases falsy_cases x h with rfl | rfl <;> rfl

theorem detailsOf_falsy (x : Option Str) (h : falsy x = true) : detailsOf x = [] := by
  rcases falsy_cases x h with rfl | rfl <;> rfl

theorem extractNotes_falsy (x : Option Str) (h : falsy x = true) : extractNotes x = [] := by
  rcases falsy_cases x h with rfl | rfl <;> rfl

theorem generateSummary_falsy (e : RawEntry) (hc : falsy e.category = true)
    (ht : falsy e.title = true) : generateSummary e = jstr "Journal Entry" := by
  unfold generateSummary
  rw [orElse_falsy _ _ hc, orElse_falsy _ _ ht]
  rfl

theorem generateTags_falsy (e : RawEntry) (hc : falsy e.category = true)
    (ht : falsy e.text = true) : generateTags e = [] := by
  unfold generateTags
  rw [orElse_falsy _ _ ht, hc]
  rfl

/-- C2: `normalizeEntry` returns a record for every raw entry, whatever is missing or empty
in it; when text, date, title, category and source are all missing or empty, the record has
`Unknown` in date, time, category, type, the provider fields, status and the
responsible-person fields, summary `Journal Entry`, empty details, and no notes,
attachments or tags. -/
theorem C2_normalizeEntry_total (rawEntry : RawEntry) (index : Nat) :
    ∃ r : NormalizedEntry, normalizeEntry rawEntry index = some r ∧
      (falsy rawEntry.text = true → falsy rawEntry.date = true →
        falsy rawEntry.title = true → falsy rawEntry.category = true →
        falsy rawEntry.source = true →
        r.date = jstr "Unknown" ∧ r.time = jstr "Unknown" ∧ r.category = jstr "Unknown" ∧
        r.type = jstr "Unknown" ∧ r.provider.name = jstr "Unknown" ∧
        r.provider.region = jstr "Unknown" ∧ r.provider.location = jstr "Unknown" ∧
        r.status = jstr "Unknown" ∧ r.responsible_person.name = jstr "Unknown" ∧
        r.responsible_person.role = jstr "Unknown" ∧
        r.content.summary = jstr "Journal Entry" ∧ r.content.details = [] ∧
        r.content.notes = [] ∧ r.attachments = [] ∧ r.tags = []) := by
  obtain ⟨r, hr, _⟩ := normalizeEntry_total rawEntry index
  refine ⟨r, hr, ?_⟩
  intro h1 h2 h3 h4 h5
  simp only [normalizeEntry, formatDate_falsy _ h2, extractTime_falsy _ h1,
    extractRegion_falsy _ h5, extractResponsiblePerson_falsy _ h1, extractRole_falsy _ h1,
    Option.bind_eq_bind, Option.some_bind, Option.pure_def, Option.some.injEq] at hr
  subst hr
  simp only [orElse_falsy _ _ h4, orElse_falsy _ _ h3, orElse_falsy _ _ h5,
    extractStatus_falsy _ h1, generateSummary_falsy _ h4 h3, detailsOf_falsy _ h1,
    extractNotes_falsy _ h1, generateTags_falsy _ h4 h1]
  refine ⟨?_, ?_, ?_, ?_, ?_, ?_, ?_, ?_, ?_, ?_, ?_, ?_, ?_, ?_, ?_⟩ <;> trivial

/-- Witness for C2 on the raw entry without any property. -/
theorem C2_normalizeEntry_total_witness :
    ∃ r : NormalizedEntry, normalizeEntry { } 0 = some r ∧ r.date = jstr "Unknown" ∧
      r.content.summary = jstr "Journal Entry" ∧ r.tags = [] :=
  let ⟨r, h, hp⟩ := C2_normalizeEntry_total { } 0
  ⟨r, h, (hp rfl rfl rfl rfl rfl).1, (hp rfl rfl rfl rfl rfl).2.2.2.2.2.2.2.2.2.2.1,
    (hp rfl rfl rfl rfl rfl).2.2.2.2.2.2.2.2.2.2.2.2.2.2⟩

/-! ## Claims on the handoff protocol -/

theorem isSpace_of_isDigit (c : Char) (h : isDigit c = true) : isSpace c = false := by
  simp only [isDigit, Bool.and_eq_true, decide_eq_true_eq] at h
  simp only [isSpace, Bool.or_eq_false_iff, beq_eq_false_iff_ne, ne_eq, Bool.and_eq_false_iff,
    decide_eq_false_iff_not]
  omega

theorem parseDecAux_digits (s : Str) :
    ∀ (acc : Nat) (seen : Bool), (∀ c ∈ s, isDigit c = true) →
      parseDecAux s acc seen =
        if s = [] then (if seen then some acc else none)
        else some (s.foldl (fun a c => 10 * a + digitVal c) acc) := by
  induction s with
  | nil => intro acc seen _; simp [parseDecAux]
  | cons c cs ih =>
    intro acc seen h
    have hc : isDigit c = true := h c (List.mem_cons_self _ _)
    have hcs : ∀ x ∈ cs, isDigit x = true := fun x hx => h x (List.mem_cons_of_mem _ hx)
    simp only [parseDecAux, hc, if_true, ih _ true hcs]
    by_cases e : cs = []
    · subst e; simp
    · simp [e]

theorem parseInt_decimal (n : Nat) : parseInt (decimal n) = some (n : Int) := by
  obtain ⟨hd, hv, hne, _⟩ := decimal_spec n
  obtain ⟨c, cs, hcs⟩ := List.exists_cons_of_ne_nil hne
  rw [hcs] at hd hv
  rw [hcs]
  have hc : isDigit c = true := hd c (List.mem_cons_self _ _)
  have htrim : trimStart (c :: cs) = c :: cs := by
    simp [trimStart, List.dropWhile, isSpace_of_isDigit c hc]
  have hun : parseUnsigned (c :: cs) = some n := by
    unfold parseUnsigned
    split
    · next t ht =>
      have : isDigit 'x' = true := hd 'x' (by rw [ht]; simp)
      exact absurd this (by decide)
    · next t ht =>
      have : isDigit 'X' = true := hd 'X' (by rw [ht]; simp)
      exact absurd this (by decide)
    · rw [parseDecAux_digits _ _ _ hd]
      simp only [reduceCtorEq, if_false, Option.some.injEq]
      exact hv
  unfold parseInt
  rw [htrim]
  split
  · next t ht =>
    have : c = '-' := by injection ht
    rw [this] at hc
    exact absurd hc (by decide)
  · next t ht =>
    have : c = '+' := by injection ht
    rw [this] at hc
    exact absurd hc (by decide)
  · rw [hun]; rfl

theorem ne_append_expires (k : Str) : k ≠ k ++ jstr "_expires" := by
  intro h
  have := congrArg List.length h
  simp [jstr] at this

theorem jsonStringify_document (d : Document) :
    ∃ cs, jsonStringify d.toJVal = '\x7b' :: cs := by
  simp only [Document.toJVal, jsonStringify]
  exact ⟨_, rfl⟩

theorem storeEirData_storage (m0 : Manager) (entries : List EntryIn) (metadata : MetadataIn)
    (keyTime : Nat) (random currentDate : Str) (t0 : Nat) :
    (storeEirData m0 entries metadata keyTime random currentDate t0).1.dataKey =
        some (storeEirData m0 entries metadata keyTime random currentDate t0).2 ∧
      (storeEirData m0 entries metadata keyTime random currentDate t0).1.storage
          (storeEirData m0 entries metadata keyTime random currentDate t0).2 =
        some (jsonStringify (generateEIRContent entries metadata currentDate).toJVal) ∧
      (storeEirData m0 entries metadata keyTime random currentDate t0).1.storage
          ((storeEirData m0 entries metadata keyTime random currentDate t0).2
            ++ jstr "_expires") = some (decimal (t0 + 86400000)) := by
  refine ⟨rfl, ?_, ?_⟩
  · simp only [storeEirData, Storage.setItem]
    rw [if_neg (ne_append_expires _)]
    simp
  · simp [storeEirData, Storage.setItem, ttl]

theorem onMessage_state (m : Manager) (event : MessageEvent) (now : Nat) :
    (onMessage m event now).1 = m := by
  unfold onMessage handleMessage sendEirData
  repeat' split
  all_goals rfl

theorem onMessage_request (m : Manager) (k data : Str) (hk : m.dataKey = some k)
    (hs : m.storage k = some data) (hne : data ≠ []) (event : MessageEvent) (now : Nat)
    (hreq : IsRequestFor event k) :
    onMessage m event now =
      (m, [{ target := event.source, targetOrigin := jstr "https://eir.space",
             type := jstr "EIR_DATA_RESPONSE", key := some k, data := data,
             timestamp := now }]) := by
  obtain ⟨ho, t, ht, hd⟩ := hreq
  obtain ⟨c, cs, rfl⟩ := List.exists_cons_of_ne_nil hne
  have hsend : sendEirData m event.source (KeyVal.str k) now =
      (m, [{ target := event.source, targetOrigin := jstr "https://eir.space",
             type := jstr "EIR_DATA_RESPONSE", key := some k, data := c :: cs,
             timestamp := now }]) := by
    simp only [sendEirData, hk, KeyVal.same, decide_True, Bool.not_true, storageKey,
      Storage.getItem, hs]
    rfl
  unfold onMessage handleMessage
  rw [if_neg (by rw [ho]; exact fun h => h rfl), hd]
  rcases ht with rfl | rfl
  · simp only [if_true]; exact hsend
  · have hne2 : (some (jstr "EIR_SPACE_READY") : Option Str) ≠ some (jstr "REQUEST_EIR_DATA") := by
      decide
    simp only [hne2, if_false, if_true]; exact hsend

theorem assembleFrom_spec (entries : List EntryIn) :
    ∀ start : Nat, (assembleFrom start entries).length = entries.length ∧
      ∀ (i : Nat) (h : i < entries.length),
        (assembleFrom start entries)[i]? = some (assembleEntry entries[i] (start + i)) := by
  induction entries with
  | nil => intro start; exact ⟨rfl, fun i h => absurd h (by simp)⟩
  | cons e rest ih =>
    intro start
    obtain ⟨hlen, hidx⟩ := ih (start + 1)
    refine ⟨by simp [assembleFrom, hlen], ?_⟩
    intro i h
    cases i with
    | zero => simp [assembleFrom]
    | succ j =>
      have hj : j < rest.length := by simpa using h
      simp only [assembleFrom, List.getElem?_cons_succ, List.getElem_cons_succ, hidx j hj]
      congr 2
      omega

theorem replacedBy_orElse (x : Option Str) (d : Str) : ReplacedBy x d (orElse x d) := by
  constructor
  · intro v hv hne
    subst hv
    cases v with
    | nil => exact absurd rfl hne
    | cons c cs => rfl
  · rintro (rfl | rfl) <;> rfl

/-- C3: the listener posts a response only for a message whose origin is exactly
`https://eir.space`, whose type is `REQUEST_EIR_DATA` or `EIR_SPACE_READY`, and whose key
is the stored data key; it posts at most one response, and whatever the message is, the
state of the manager (data key, document, stored records) is the same afterwards. -/
theorem C3_response_only_if_authorized (m : Manager) (event : MessageEvent) (now : Nat) :
    (onMessage m event now).1 = m ∧ (onMessage m event now).2.length ≤ 1 ∧
      ((onMessage m event now).2 ≠ [] →
        event.origin = jstr "https://eir.space" ∧
        ∃ data : MessageData, event.data = some data ∧
          (data.type = some (jstr "REQUEST_EIR_DATA") ∨
            data.type = some (jstr "EIR_SPACE_READY")) ∧
          ((∃ k, data.key = KeyVal.str k ∧ m.dataKey = some k) ∨
            (data.key = KeyVal.null ∧ m.dataKey = none))) := by
  have hsend : ∀ (w : Nat) (key : KeyVal),
      (sendEirData m w key now).2.length ≤ 1 ∧ ((sendEirData m w key now).2 ≠ [] →
        ((∃ k, key = KeyVal.str k ∧ m.dataKey = some k) ∨
          (key = KeyVal.null ∧ m.dataKey = none))) := by
    intro w key
    unfold sendEirData
    split
    · exact ⟨by simp, fun h => absurd rfl h⟩
    · next hsame =>
      have hk : (∃ k, key = KeyVal.str k ∧ m.dataKey = some k) ∨
          (key = KeyVal.null ∧ m.dataKey = none) := by
        cases key with
        | null =>
          cases hd : m.dataKey with
          | none => exact Or.inr ⟨rfl, rfl⟩
          | some d => rw [hd] at hsame; simp [KeyVal.same] at hsame
        | str s =>
          cases hd : m.dataKey with
          | none => rw [hd] at hsame; simp [KeyVal.same] at hsame
          | some d =>
            rw [hd] at hsame
            simp only [KeyVal.same, Bool.not_eq_true', decide_eq_false_iff_not,
              Decidable.not_not] at hsame
            exact Or.inl ⟨s, rfl, by rw [hsame]⟩
        | other => simp [KeyVal.same] at hsame
      split
      · exact ⟨by simp, fun _ => hk⟩
      · exact ⟨by simp, fun h => absurd rfl h⟩
  refine ⟨onMessage_state m event now, ?_, ?_⟩
  · unfold onMessage handleMessage
    split
    · simp
    · split
      · simp
      · split
        · exact (hsend _ _).1
        · split
          · exact (hsend _ _).1
          · simp
  · unfold onMessage handleMessage
    split
    · intro h; exact absurd rfl h
    · next ho =>
      have ho2 : event.origin = jstr "https://eir.space" := by
        by_contra hc
        exact ho hc
      split
      · intro h; exact absurd rfl h
      · next data hd =>
        split
        · next ht => exact fun h => ⟨ho2, data, hd, Or.inl ht, (hsend _ _).2 h⟩
        · split
          · next ht => exact fun h => ⟨ho2, data, hd, Or.inr ht, (hsend _ _).2 h⟩
          · intro h; exact absurd rfl h

/-- Witness for C3: a request with the stored key from the configured origin is answered,
so the premise of C3 holds there, and its conclusion names the origin. -/
theorem C3_response_only_if_authorized_witness :
    (onMessage { dataKey := some (jstr "k"), eirData := none,
                 storage := fun k => if k = jstr "k" then some (jstr "\x7b\x7d") else none }
        { origin := jstr "https://eir.space", source := 1,
          data := some { type := some (jstr "REQUEST_EIR_DATA"), key := KeyVal.str (jstr "k") } }
        5).2 ≠ [] ∧
      ({ origin := jstr "https://eir.space", source := 1,
         data := some { type := some (jstr "REQUEST_EIR_DATA"),
                        key := KeyVal.str (jstr "k") } } : MessageEvent).origin
        = jstr "https://eir.space" :=
  ⟨by decide,
   ((C3_response_only_if_authorized
      { dataKey := some (jstr "k"), eirData := none,
        storage := fun k => if k = jstr "k" then some (jstr "\x7b\x7d") else none }
      { origin := jstr "https://eir.space", source := 1,
        data := some { type := some (jstr "REQUEST_EIR_DATA"), key := KeyVal.str (jstr "k") } }
      5).2.2 (by decide)).1⟩

/-- C4: after `storeEirData(entries, metadata)` has returned the key `k`, every message from
the configured origin with type `REQUEST_EIR_DATA` or `EIR_SPACE_READY` and key `k` makes
the listener post exactly one message `EIR_DATA_RESPONSE` with key `k`, addressed to the
sender at the configured origin, stamped with the clock, whose data is the text stored under
`k`, the JSON text of `generateEIRContent(entries, metadata)`; that document has one entry
per record, carrying the record's id when it has a non-empty one; the state is unchanged, so
a second request is answered with the same data. -/
theorem C4_matching_request_answered (m0 : Manager) (entries : List EntryIn)
    (metadata : MetadataIn) (keyTime : Nat) (random currentDate : Str) (expTime : Nat)
    (ev1 ev2 : MessageEvent) (now1 now2 : Nat)
    (h1 : IsRequestFor ev1 (storeEirData m0 entries metadata keyTime random currentDate expTime).2)
    (h2 : IsRequestFor ev2
      (storeEirData m0 entries metadata keyTime random currentDate expTime).2) :
    (storeEirData m0 entries metadata keyTime random currentDate expTime).1.storage.getItem
        (storeEirData m0 entries metadata keyTime random currentDate expTime).2 =
      some (jsonStringify (generateEIRContent entries metadata currentDate).toJVal) ∧
    onMessage (storeEirData m0 entries metadata keyTime random currentDate expTime).1 ev1 now1 =
      ((storeEirData m0 entries metadata keyTime random currentDate expTime).1,
       [{ target := ev1.source, targetOrigin := jstr "https://eir.space",
          type := jstr "EIR_DATA_RESPONSE",
          key := some (storeEirData m0 entries metadata keyTime random currentDate expTime).2,
          data := jsonStringify (generateEIRContent entries metadata currentDate).toJVal,
          timestamp := now1 }]) ∧
    (onMessage
        (onMessage (storeEirData m0 entries metadata keyTime random currentDate expTime).1
          ev1 now1).1 ev2 now2).2 =
      [{ target := ev2.source, targetOrigin := jstr "https://eir.space",
         type := jstr "EIR_DATA_RESPONSE",
         key := some (storeEirData m0 entries metadata keyTime random currentDate expTime).2,
         data := jsonStringify (generateEIRContent entries metadata currentDate).toJVal,
         timestamp := now2 }] ∧
    (generateEIRContent entries metadata currentDate).entries.length = entries.length ∧
    ∀ (i : Nat) (h : i < entries.length), ∃ e : Entry,
      (generateEIRContent entries metadata currentDate).entries[i]? = some e ∧
        ∀ v, entries[i].id = some v → v ≠ [] → e.id = v := by
  obtain ⟨hk, hs, _⟩ := storeEirData_storage m0 entries metadata keyTime random currentDate expTime
  obtain ⟨cs, hcs⟩ := jsonStringify_document (generateEIRContent entries metadata currentDate)
  have hne : jsonStringify (generateEIRContent entries metadata currentDate).toJVal ≠ [] := by
    rw [hcs]; simp
  have r1 := onMessage_request _ _ _ hk hs hne ev1 now1 h1
  have r2 := onMessage_request _ _ _ hk hs hne ev2 now2 h2
  refine ⟨hs, r1, ?_, (assembleFrom_spec entries 0).1, ?_⟩
  · rw [onMessage_state, r2]
  · intro i h
    refine ⟨_, (assembleFrom_spec entries 0).2 i h, ?_⟩
    exact (replacedBy_orElse _ _).1

/-- Witness for C4: a store of no records with an empty seed, and twice the same request
carrying the returned key. -/
theorem C4_matching_request_answered_witness :
    (onMessage (storeEirData (Manager.init (fun _ => none)) [] { } 1000 (jstr "r1")
        (jstr "2025-01-01T00:00:00.000Z") 1000).1
      { origin := jstr "https://eir.space", source := 1,
        data := some { type := some (jstr "REQUEST_EIR_DATA"),
                       key := KeyVal.str (jstr "eir_data_1000_r1") } } 2000).2.map
        (fun p => p.timestamp) = [2000] :=
  have hreq : IsRequestFor
      { origin := jstr "https://eir.space", source := 1,
        data := some { type := some (jstr "REQUEST_EIR_DATA"),
                       key := KeyVal.str (jstr "eir_data_1000_r1") } }
      (storeEirData (Manager.init (fun _ => none)) [] { } 1000 (jstr "r1")
        (jstr "2025-01-01T00:00:00.000Z") 1000).2 :=
    ⟨rfl, jstr "REQUEST_EIR_DATA", Or.inl rfl, by decide⟩
  by rw [(C4_matching_request_answered (Manager.init (fun _ => none)) [] { } 1000 (jstr "r1")
      (jstr "2025-01-01T00:00:00.000Z") 1000 _ _ 2000 2000 hreq hreq).2.1]; rfl

set_option maxRecDepth 1000000 in
/-- C5 (the code at a failing input): a document is stored at clock time 1000, so that it
expires at 86401000; at clock time 86401001 `isDataExpired` holds for its key, and yet a
request with that key from the configured origin is answered with the stored document,
whereas the same request for a key under which nothing is stored (here: after
`cleanupData`) gets no response. -/
theorem C5_expired_record_is_served :
    isDataExpired
        (storeEirData (Manager.init (fun _ => none)) [] { } 1000 (jstr "r1")
          (jstr "2025-01-01T00:00:00.000Z") 1000).1
        (jstr "eir_data_1000_r1") 86401001 = true ∧
      (onMessage
          (storeEirData (Manager.init (fun _ => none)) [] { } 1000 (jstr "r1")
            (jstr "2025-01-01T00:00:00.000Z") 1000).1
          { origin := jstr "https://eir.space", source := 1,
            data := some { type := some (jstr "REQUEST_EIR_DATA"),
                           key := KeyVal.str (jstr "eir_data_1000_r1") } }
          86401001).2.map (fun p => p.data) =
        [jsonStringify
          (generateEIRContent [] { } (jstr "2025-01-01T00:00:00.000Z")).toJVal] ∧
      (onMessage
          (cleanupData (storeEirData (Manager.init (fun _ => none)) [] { } 1000 (jstr "r1")
            (jstr "2025-01-01T00:00:00.000Z") 1000).1)
          { origin := jstr "https://eir.space", source := 1,
            data := some { type := some (jstr "REQUEST_EIR_DATA"),
                           key := KeyVal.str (jstr "eir_data_1000_r1") } }
          86401001).2 = [] := by
  refine ⟨by decide, by decide, by decide⟩

/-- C6: `storeEirData`, reading the clock `t0` for the expiration and returning the key `k`,
leaves under `k` the JSON text of the document and under `k_expires` the decimal numeral of
`t0 + 86400000`; afterwards `isDataExpired(k)` at clock time `t` is true exactly when
`t > t0 + 86400000`; and `isDataExpired` is true for every key without an `_expires`
entry. -/
theorem C6_expiration_window (m0 : Manager) (entries : List EntryIn) (metadata : MetadataIn)
    (keyTime : Nat) (random currentDate : Str) (t0 : Nat) :
    (storeEirData m0 entries metadata keyTime random currentDate t0).1.storage.getItem
        (storeEirData m0 entries metadata keyTime random currentDate t0).2 =
      some (jsonStringify (generateEIRContent entries metadata currentDate).toJVal) ∧
    (storeEirData m0 entries metadata keyTime random currentDate t0).1.storage.getItem
        ((storeEirData m0 entries metadata keyTime random currentDate t0).2 ++ jstr "_expires") =
      some (decimal (t0 + 86400000)) ∧
    (∀ c ∈ decimal (t0 + 86400000), isDigit c = true) ∧
    numVal (decimal (t0 + 86400000)) = t0 + 86400000 ∧
    (∀ t : Nat,
      isDataExpired (storeEirData m0 entries metadata keyTime random currentDate t0).1
        (storeEirData m0 entries metadata keyTime random currentDate t0).2 t = true
      ↔ t > t0 + 86400000) ∧
    ∀ (m : Manager) (key : Str) (t : Nat),
      m.storage.getItem (key ++ jstr "_expires") = none → isDataExpired m key t = true := by
  obtain ⟨_, hs, he⟩ := storeEirData_storage m0 entries metadata keyTime random currentDate t0
  have hd := decimal_spec (t0 + 86400000)
  refine ⟨hs, he, hd.1, hd.2.1, ?_, ?_⟩
  · intro t
    obtain ⟨c, cs, hcs⟩ := List.exists_cons_of_ne_nil hd.2.2.1
    have hp := parseInt_decimal (t0 + 86400000)
    rw [hcs] at hp
    unfold isDataExpired
    simp only [Storage.getItem, he, hcs, hp, decide_eq_true_eq]
    omega
  · intro m key t h
    unfold isDataExpired
    rw [h]

/-- Witness for C6: in the empty store no key has an `_expires` entry, so every key counts
as expired. -/
theorem C6_expiration_window_witness :
    isDataExpired (Manager.init (fun _ => none)) (jstr "eir_data_1_a") 0 = true :=
  (C6_expiration_window (Manager.init (fun _ => none)) [] { } 0 [] [] 0).2.2.2.2.2
    (Manager.init (fun _ => none)) (jstr "eir_data_1_a") 0 rfl

/-! ## Claims on the formatter -/

theorem strictIso_iff (s : Str) :
    (reStrictIso.exec s).isSome = true ↔ ∃ y mo d, IsIsoDate y mo d s := by
  rw [Re.exec_isSome_iff]
  constructor
  · rintro ⟨pre, w, rest, e, hl⟩
    simp only [reStrictIso, reIsoBody, Re.Lang] at hl
    obtain ⟨w1, w2, e1, ⟨rfl, hpre⟩, w3, w4, e2, hbody, rfl, rfl⟩ := hl
    obtain ⟨a, r1, e3, ⟨ha, ha1, ha2⟩, h1, r2, e4, rfl, b, r3, e5, ⟨hb, hb1, hb2⟩,
      h2, c, e6, rfl, hc, hc1, hc2⟩ := hbody
    have hpre0 : pre = [] := List.length_eq_zero.mp hpre
    subst hpre0
    subst e1 e2 e3 e4 e5 e6
    refine ⟨a, b, c, ?_, ?_, ?_, ?_, ha, hb, hc⟩
    · rw [e]; simp
    · have := ha2 4 rfl; omega
    · have := hb2 2 rfl; omega
    · have := hc2 2 rfl; omega
  · rintro ⟨y, mo, d, rfl, hy, hm, hd, hyd, hmd, hdd⟩
    refine ⟨[], y ++ ['-'] ++ mo ++ ['-'] ++ d, [], by simp, ?_⟩
    simp only [reStrictIso, reIsoBody, Re.Lang]
    refine ⟨[], y ++ ['-'] ++ mo ++ ['-'] ++ d, rfl, ⟨rfl, rfl⟩,
      y ++ ['-'] ++ mo ++ ['-'] ++ d, [], by simp, ?_, rfl, trivial⟩
    refine ⟨y, ['-'] ++ mo ++ ['-'] ++ d, by simp, ⟨hyd, by omega, ?_⟩,
      ['-'], mo ++ ['-'] ++ d, by simp, rfl, mo, ['-'] ++ d, by simp, ⟨hmd, by omega, ?_⟩,
      ['-'], d, rfl, rfl, hdd, by omega, ?_⟩
    · intro h e; injection e with e; omega
    · intro h e; injection e with e; omega
    · intro h e; injection e with e; omega

theorem strLe_refl (a : Str) : strLe a a = true := by
  induction a with
  | nil => rfl
  | cons c cs ih => simp [strLe, ih]

theorem strLe_total (a : Str) : ∀ b : Str, strLe a b = true ∨ strLe b a = true := by
  induction a with
  | nil => intro b; exact Or.inl rfl
  | cons c cs ih =>
    intro b
    cases b with
    | nil => exact Or.inr rfl
    | cons d ds =>
      simp only [strLe]
      rcases Nat.lt_trichotomy c.toNat d.toNat with h | h | h
      · simp [h]
      · simp [h, ih ds]
      · right; simp [h]

theorem strLe_trans (a : Str) :
    ∀ b c : Str, strLe a b = true → strLe b c = true → strLe a c = true := by
  induction a with
  | nil => intro b c _ _; rfl
  | cons x xs ih =>
    intro b c hab hbc
    cases b with
    | nil => simp [strLe] at hab
    | cons y ys =>
      cases c with
      | nil => simp [strLe] at hbc
      | cons z zs =>
        simp only [strLe] at hab hbc ⊢
        split_ifs at hab hbc ⊢ <;>
          first | rfl | omega | exact ih _ _ hab hbc

theorem mem_insertStr (x y : Str) (l : List Str) : y ∈ insertStr x l ↔ y = x ∨ y ∈ l := by
  induction l with
  | nil => simp [insertStr]
  | cons z zs ih =>
    simp only [insertStr]
    split_ifs
    · simp
    · simp only [List.mem_cons, ih]
      tauto

theorem mem_sortStr (y : Str) (l : List Str) : y ∈ sortStr l ↔ y ∈ l := by
  induction l with
  | nil => simp [sortStr]
  | cons z zs ih => simp [sortStr, mem_insertStr, ih]

theorem sorted_insertStr (x : Str) (l : List Str)
    (h : l.Pairwise (fun a b => strLe a b = true)) :
    (insertStr x l).Pairwise (fun a b => strLe a b = true) := by
  induction l with
  | nil => simp [insertStr]
  | cons z zs ih =>
    rw [List.pairwise_cons] at h
    simp only [insertStr]
    split_ifs with hxz
    · rw [List.pairwise_cons]
      refine ⟨?_, List.pairwise_cons.mpr h⟩
      intro b hb
      rw [List.mem_cons] at hb
      rcases hb with rfl | hb
      · exact hxz
      · exact strLe_trans _ _ _ hxz (h.1 b hb)
    · rw [List.pairwise_cons]
      refine ⟨?_, ih h.2⟩
      intro b hb
      rw [mem_insertStr] at hb
      rcases hb with rfl | hb
      · rcases strLe_total z b with h1 | h1
        · exact h1
        · exact absurd h1 hxz
      · exact h.1 b hb

theorem sorted_sortStr (l : List Str) :
    (sortStr l).Pairwise (fun a b => strLe a b = true) := by
  induction l with
  | nil => simp [sortStr]
  | cons z zs ih => exact sorted_insertStr z _ ih

theorem sorted_first_last (l : List Str) (h : l.Pairwise (fun a b => strLe a b = true))
    (x : Str) (hx : x ∈ l) :
    ∃ a b, l[0]? = some a ∧ l[l.length - 1]? = some b ∧ a ∈ l ∧ b ∈ l ∧
      strLe a x = true ∧ strLe x b = true := by
  have hpos : 0 < l.length := List.length_pos_of_mem hx
  have hlast : l.length - 1 < l.length := by omega
  refine ⟨l[0], l[l.length - 1], List.getElem?_eq_getElem hpos,
    List.getElem?_eq_getElem hlast, List.getElem_mem _, List.getElem_mem _, ?_, ?_⟩
  · obtain ⟨i, hi, rfl⟩ := List.getElem_of_mem hx
    rcases Nat.eq_zero_or_pos i with rfl | hi0
    · exact strLe_refl _
    · exact (List.pairwise_iff_getElem.mp h) 0 i hpos hi hi0
  · obtain ⟨i, hi, rfl⟩ := List.getElem_of_mem hx
    rcases Nat.lt_or_ge i (l.length - 1) with hlt | hge
    · exact (List.pairwise_iff_getElem.mp h) i (l.length - 1) hi hlast hlt
    · have : i = l.length - 1 := by omega
      subst this
      exact strLe_refl _

theorem isDigit_bounds (c : Char) (h : isDigit c = true) : 48 ≤ c.toNat ∧ c.toNat ≤ 57 := by
  simpa [isDigit] using h

theorem strLe_cons_iff (a b : Char) (s t : Str) :
    strLe (a :: s) (b :: t) = true ↔
      a.toNat < b.toNat ∨ (a.toNat = b.toNat ∧ strLe s t = true) := by
  simp only [strLe]
  split_ifs with h1 h2
  · simp [h1]
  · simp only [reduceCtorEq, false_iff]; omega
  · have : a.toNat = b.toNat := by omega
    simp [this]

theorem strLe_digits (n : Nat) :
    ∀ (u v s t : Str), u.length = n → v.length = n → (∀ c ∈ u, isDigit c = true) →
      (∀ c ∈ v, isDigit c = true) →
      (strLe (u ++ s) (v ++ t) = true ↔
        numVal u < numVal v ∨ (numVal u = numVal v ∧ strLe s t = true)) := by
  induction n with
  | zero =>
    intro u v s t hu hv _ _
    rw [List.length_eq_zero.mp hu, List.length_eq_zero.mp hv]
    simp [numVal]
  | succ k ih =>
    intro u v s t hu hv hud hvd
    rcases List.eq_nil_or_concat u with rfl | ⟨u1, c, rfl⟩
    · simp at hu
    rcases List.eq_nil_or_concat v with rfl | ⟨v1, d, rfl⟩
    · simp at hv
    simp only [List.concat_eq_append] at hu hv hud hvd ⊢
    have hu1 : u1.length = k := by simpa using hu
    have hv1 : v1.length = k := by simpa using hv
    have hc := isDigit_bounds c (hud c (by simp))
    have hd := isDigit_bounds d (hvd d (by simp))
    rw [List.append_assoc, List.append_assoc, List.singleton_append, List.singleton_append,
      ih u1 v1 (c :: s) (d :: t) hu1 hv1 (fun x hx => hud x (by simp [hx]))
        (fun x hx => hvd x (by simp [hx])),
      strLe_cons_iff, numVal_append_single, numVal_append_single]
    simp only [digitVal]
    by_cases hP : strLe s t = true
    · simp only [hP, and_true]; omega
    · simp only [hP, Bool.false_eq_true, and_false, or_false]; omega

theorem isoDate_order (y1 m1 d1 s1 y2 m2 d2 s2 : Str) (h1 : IsIsoDate y1 m1 d1 s1)
    (h2 : IsIsoDate y2 m2 d2 s2) :
    strLe s1 s2 = true ↔
      dateLe (numVal y1) (numVal m1) (numVal d1) (numVal y2) (numVal m2) (numVal d2) := by
  obtain ⟨rfl, hy1, hm1, hd1, hyd1, hmd1, hdd1⟩ := h1
  obtain ⟨rfl, hy2, hm2, hd2, hyd2, hmd2, hdd2⟩ := h2
  have e1 : y1 ++ ['-'] ++ m1 ++ ['-'] ++ d1 = y1 ++ ('-' :: (m1 ++ ('-' :: (d1 ++ [])))) := by
    simp
  have e2 : y2 ++ ['-'] ++ m2 ++ ['-'] ++ d2 = y2 ++ ('-' :: (m2 ++ ('-' :: (d2 ++ [])))) := by
    simp
  rw [e1, e2, strLe_digits 4 y1 y2 _ _ hy1 hy2 hyd1 hyd2, strLe_cons_iff,
    strLe_digits 2 m1 m2 _ _ hm1 hm2 hmd1 hmd2, strLe_cons_iff,
    strLe_digits 2 d1 d2 _ _ hd1 hd2 hdd1 hdd2]
  simp only [strLe, dateLe, Nat.lt_irrefl, false_or, true_and, and_true]
  omega

theorem isoDate_length (y mo d s : Str) (h : IsIsoDate y mo d s) : s.length = 10 := by
  obtain ⟨rfl, hy, hm, hd, _⟩ := h
  simp [hy, hm, hd]

theorem keepDate_iff (x : Option Str) (d : Str) :
    keepDate x = some d ↔ x = some d ∧ ∃ y mo dd, IsIsoDate y mo dd d := by
  constructor
  · intro h
    unfold keepDate at h
    split at h
    · next c cs =>
      split_ifs at h with hc
      simp only [Option.some.injEq] at h
      subst h
      exact ⟨rfl, (strictIso_iff _).mp hc.2⟩
    · exact absurd h (by simp)
  · rintro ⟨rfl, y, mo, dd, hiso⟩
    have hlen := isoDate_length y mo dd d hiso
    cases d with
    | nil => simp at hlen
    | cons c cs =>
      have hne : c :: cs ≠ unknown := by
        intro e
        rw [e] at hlen
        simp [unknown] at hlen
      simp only [keepDate]
      rw [if_pos ⟨hne, (strictIso_iff _).mpr ⟨y, mo, dd, hiso⟩⟩]

theorem mem_validDates (entries : List EntryIn) (d : Str) :
    d ∈ validDates entries ↔
      ∃ e ∈ entries, e.date = some d ∧ ∃ y mo dd, IsIsoDate y mo dd d := by
  unfold validDates
  rw [mem_sortStr, List.mem_filterMap]
  constructor
  · rintro ⟨x, hx, hk⟩
    obtain ⟨e, he, rfl⟩ := List.mem_map.mp hx
    obtain ⟨h1, h2⟩ := (keepDate_iff _ _).mp hk
    exact ⟨e, he, h1, h2⟩
  · rintro ⟨e, he, h1, h2⟩
    exact ⟨e.date, List.mem_map.mpr ⟨e, he, rfl⟩, (keepDate_iff _ _).mpr ⟨h1, h2⟩⟩

theorem orElse_some_of_ne_nil (x d : Str) (h : x ≠ []) : orElse (some x) d = x := by
  cases x with
  | nil => exact absurd rfl h
  | cons c cs => rfl

/-- C7: the date range of the document built by `generateEIRContent`.  If some record has a
date of the strict shape (four digits, hyphen, two digits, hyphen, two digits), then start
and end are such dates of records, start is below and end above every such date in string
order; otherwise both are `Unknown`.  On strict dates the string order is the order of
(year, month, day). -/
theorem C7_date_range (entries : List EntryIn) (metadata : MetadataIn) (currentDate : Str) :
    ((∃ e ∈ entries, ∃ s y mo d, e.date = some s ∧ IsIsoDate y mo d s) →
      (∃ e ∈ entries, ∃ y mo d,
        e.date = some (generateEIRContent entries metadata
          currentDate).metadata.export_info.date_range.start ∧
        IsIsoDate y mo d (generateEIRContent entries metadata
          currentDate).metadata.export_info.date_range.start) ∧
      (∃ e ∈ entries, ∃ y mo d,
        e.date = some (generateEIRContent entries metadata
          currentDate).metadata.export_info.date_range.stop ∧
        IsIsoDate y mo d (generateEIRContent entries metadata
          currentDate).metadata.export_info.date_range.stop) ∧
      ∀ e ∈ entries, ∀ s y mo d, e.date = some s → IsIsoDate y mo d s →
        strLe (generateEIRContent entries metadata
          currentDate).metadata.export_info.date_range.start s = true ∧
        strLe s (generateEIRContent entries metadata
          currentDate).metadata.export_info.date_range.stop = true) ∧
    ((¬ ∃ e ∈ entries, ∃ s y mo d, e.date = some s ∧ IsIsoDate y mo d s) →
      (generateEIRContent entries metadata currentDate).metadata.export_info.date_range.start
        = jstr "Unknown" ∧
      (generateEIRContent entries metadata currentDate).metadata.export_info.date_range.stop
        = jstr "Unknown") ∧
    ∀ y1 m1 d1 s1 y2 m2 d2 s2 : Str, IsIsoDate y1 m1 d1 s1 → IsIsoDate y2 m2 d2 s2 →
      (strLe s1 s2 = true ↔
        dateLe (numVal y1) (numVal m1) (numVal d1) (numVal y2) (numVal m2) (numVal d2)) := by
  have hrange : (generateEIRContent entries metadata currentDate).metadata.export_info.date_range
      = dateRange entries := rfl
  rw [hrange]
  refine ⟨?_, ?_, fun y1 m1 d1 s1 y2 m2 d2 s2 => isoDate_order y1 m1 d1 s1 y2 m2 d2 s2⟩
  · rintro ⟨e0, he0, s0, y0, mo0, d0, hs0, hiso0⟩
    have hmem0 : s0 ∈ validDates entries := (mem_validDates _ _).mpr ⟨e0, he0, hs0, _, _, _, hiso0⟩
    obtain ⟨a, b, ha, hb, hma, hmb, _, _⟩ :=
      sorted_first_last (validDates entries) (sorted_sortStr _) s0 hmem0
    obtain ⟨ea, hea, hda, ya, ma, da, hisoa⟩ := (mem_validDates _ _).mp hma
    obtain ⟨eb, heb, hdb, yb, mb, db, hisob⟩ := (mem_validDates _ _).mp hmb
    have hane : a ≠ [] := by
      intro e; have := isoDate_length _ _ _ _ hisoa; rw [e] at this; simp at this
    have hbne : b ≠ [] := by
      intro e; have := isoDate_length _ _ _ _ hisob; rw [e] at this; simp at this
    have hstart : (dateRange entries).start = a := by
      simp only [dateRange, ha]; exact orElse_some_of_ne_nil a _ hane
    have hstop : (dateRange entries).stop = b := by
      simp only [dateRange, hb]; exact orElse_some_of_ne_nil b _ hbne
    rw [hstart, hstop]
    refine ⟨⟨ea, hea, ya, ma, da, hda, hisoa⟩, ⟨eb, heb, yb, mb, db, hdb, hisob⟩, ?_⟩
    intro e he s y mo d hs hiso
    have hmem : s ∈ validDates entries := (mem_validDates _ _).mpr ⟨e, he, hs, _, _, _, hiso⟩
    obtain ⟨a1, b1, ha1, hb1, _, _, h1, h2⟩ :=
      sorted_first_last (validDates entries) (sorted_sortStr _) s hmem
    rw [ha] at ha1
    rw [hb] at hb1
    injection ha1 with ha1
    injection hb1 with hb1
    subst ha1 hb1
    exact ⟨h1, h2⟩
  · intro hnone
    have hnil : validDates entries = [] := by
      apply List.eq_nil_iff_forall_not_mem.mpr
      intro d hd
      obtain ⟨e, he, h1, y, mo, dd, h2⟩ := (mem_validDates _ _).mp hd
      exact hnone ⟨e, he, d, y, mo, dd, h1, h2⟩
    simp only [dateRange, hnil]
    exact ⟨rfl, rfl⟩

/-- Witness for C7: two records dated 2024-01-05 and 2023-11-05; the start of the range is
below the first date. -/
theorem C7_date_range_witness :
    strLe (generateEIRContent
        [{ date := some (jstr "2024-01-05") }, { date := some (jstr "2023-11-05") }] { }
        (jstr "2025-01-01T00:00:00.000Z")).metadata.export_info.date_range.start
      (jstr "2024-01-05") = true :=
  have hiso : IsIsoDate (jstr "2024") (jstr "01") (jstr "05") (jstr "2024-01-05") :=
    ⟨rfl, rfl, rfl, rfl, by decide, by decide, by decide⟩
  (((C7_date_range
      [{ date := some (jstr "2024-01-05") }, { date := some (jstr "2023-11-05") }] { }
      (jstr "2025-01-01T00:00:00.000Z")).1
    ⟨{ date := some (jstr "2024-01-05") }, by simp, jstr "2024-01-05", jstr "2024", jstr "01",
      jstr "05", rfl, hiso⟩).2.2
    { date := some (jstr "2024-01-05") } (by simp) (jstr "2024-01-05") (jstr "2024") (jstr "01")
      (jstr "05") rfl hiso).1

theorem mem_uniqAux (xs : List Str) :
    ∀ (seen : List Str) (x : Str), x ∈ uniqAux seen xs ↔ x ∈ xs ∧ x ∉ seen := by
  induction xs with
  | nil => intro seen x; simp [uniqAux]
  | cons y ys ih =>
    intro seen x
    simp only [uniqAux]
    split_ifs with hy
    · rw [ih, List.mem_cons]
      constructor
      · rintro ⟨h1, h2⟩; exact ⟨Or.inr h1, h2⟩
      · rintro ⟨h1 | h1, h2⟩
        · subst h1; exact absurd hy h2
        · exact ⟨h1, h2⟩
    · rw [List.mem_cons, ih, List.mem_cons, List.mem_cons]
      constructor
      · rintro (h | ⟨h1, h2⟩)
        · subst h; exact ⟨Or.inl rfl, hy⟩
        · exact ⟨Or.inr h1, fun h => h2 (Or.inr h)⟩
      · rintro ⟨h1 | h1, h2⟩
        · exact Or.inl h1
        · by_cases hxy : x = y
          · exact Or.inl hxy
          · exact Or.inr ⟨h1, fun h => h.elim hxy h2⟩

theorem nodup_uniqAux (xs : List Str) : ∀ seen : List Str, (uniqAux seen xs).Nodup := by
  induction xs with
  | nil => intro seen; simp [uniqAux]
  | cons y ys ih =>
    intro seen
    simp only [uniqAux]
    split_ifs with hy
    · exact ih seen
    · rw [List.nodup_cons]
      refine ⟨?_, ih _⟩
      rw [mem_uniqAux]
      exact fun h => h.2 (List.mem_cons_self _ _)

theorem keepName_iff (x : Option Str) (n : Str) :
    keepName x = some n ↔ x = some n ∧ n ≠ [] ∧ n ≠ unknown := by
  constructor
  · intro h
    unfold keepName at h
    split at h
    · next c cs =>
      split_ifs at h with hc
      simp only [Option.some.injEq] at h
      subst h
      exact ⟨rfl, by simp, hc⟩
    · exact absurd h (by simp)
  · rintro ⟨rfl, h1, h2⟩
    cases n with
    | nil => exact absurd rfl h1
    | cons c cs => simp only [keepName]; rw [if_pos h2]

theorem uniq_order (names : List (Option Str)) :
    ∀ seen : List Str,
      (uniqAux seen (names.filterMap keepName)).Pairwise
        (fun a b => firstIndexOf a names < firstIndexOf b names) := by
  induction names with
  | nil => intro seen; simp [uniqAux]
  | cons o rest ih =>
    intro seen
    have shift : ∀ (seen1 : List Str) (x : Str),
        x ∈ uniqAux seen1 (rest.filterMap keepName) → o ≠ some x →
          firstIndexOf x (o :: rest) = firstIndexOf x rest + 1 :=
      fun _ x _ hne => by simp only [firstIndexOf]; rw [if_neg hne]
    cases hk : keepName o with
    | none =>
      rw [List.filterMap_cons_none hk]
      have hne : ∀ x ∈ uniqAux seen (rest.filterMap keepName), o ≠ some x := by
        intro x hx e
        obtain ⟨hx1, _⟩ := (mem_uniqAux _ _ _).mp hx
        obtain ⟨y, _, hy⟩ := List.mem_filterMap.mp hx1
        have := (keepName_iff _ _).mp hy
        rw [e] at hk
        have h2 := (keepName_iff (some x) x).mpr ⟨rfl, this.2.1, this.2.2⟩
        rw [hk] at h2
        exact absurd h2 (by simp)
      refine (ih seen).imp_of_mem ?_
      intro a b ha hb hab
      rw [shift seen a ha (hne a ha), shift seen b hb (hne b hb)]
      omega
    | some n =>
      rw [List.filterMap_cons_some hk]
      have ho : o = some n := ((keepName_iff _ _).mp hk).1
      simp only [uniqAux]
      split_ifs with hn
      · have hne : ∀ x ∈ uniqAux seen (rest.filterMap keepName), o ≠ some x := by
          intro x hx e
          obtain ⟨_, hx2⟩ := (mem_uniqAux _ _ _).mp hx
          rw [ho] at e
          injection e with e
          subst e
          exact hx2 hn
        refine (ih seen).imp_of_mem ?_
        intro a b ha hb hab
        rw [shift seen a ha (hne a ha), shift seen b hb (hne b hb)]
        omega
      · have hne : ∀ x ∈ uniqAux (n :: seen) (rest.filterMap keepName), o ≠ some x := by
          intro x hx e
          obtain ⟨_, hx2⟩ := (mem_uniqAux _ _ _).mp hx
          rw [ho] at e
          injection e with e
          subst e
          exact hx2 (List.mem_cons_self _ _)
        rw [List.pairwise_cons]
        constructor
        · intro b hb
          rw [shift _ b hb (hne b hb), ho]
          simp [firstIndexOf]
        · refine (ih (n :: seen)).imp_of_mem ?_
          intro a b ha hb hab
          rw [shift _ a ha (hne a ha), shift _ b hb (hne b hb)]
          omega

/-- C8: the list `healthcare_providers` of the document built by `generateEIRContent` has no
duplicates, holds neither `Unknown` nor the empty name, holds exactly the names that some
record has as a non-empty `provider.name` other than `Unknown`, and lists them in the order
in which they first occur in the record list. -/
theorem C8_healthcare_providers (entries : List EntryIn) (metadata : MetadataIn)
    (currentDate : Str) :
    (generateEIRContent entries metadata
      currentDate).metadata.export_info.healthcare_providers.Nodup ∧
    jstr "Unknown" ∉ (generateEIRContent entries metadata
      currentDate).metadata.export_info.healthcare_providers ∧
    ([] : Str) ∉ (generateEIRContent entries metadata
      currentDate).metadata.export_info.healthcare_providers ∧
    (∀ n : Str,
      n ∈ (generateEIRContent entries metadata
        currentDate).metadata.export_info.healthcare_providers ↔
      ∃ e ∈ entries, ∃ p : ProviderIn, e.provider = some p ∧ p.name = some n ∧ n ≠ [] ∧
        n ≠ jstr "Unknown") ∧
    (generateEIRContent entries metadata
      currentDate).metadata.export_info.healthcare_providers.Pairwise
      (fun a b => firstIndexOf a (entries.map (fun e => e.provider.bind (fun p => p.name)))
        < firstIndexOf b (entries.map (fun e => e.provider.bind (fun p => p.name)))) := by
  have hp : (generateEIRContent entries metadata
      currentDate).metadata.export_info.healthcare_providers = providers entries := rfl
  rw [hp]
  have hmem : ∀ n : Str, n ∈ providers entries ↔
      ∃ e ∈ entries, ∃ p : ProviderIn, e.provider = some p ∧ p.name = some n ∧ n ≠ [] ∧
        n ≠ jstr "Unknown" := by
    intro n
    unfold providers uniq
    rw [mem_uniqAux, List.mem_filterMap]
    constructor
    · rintro ⟨⟨x, hx, hk⟩, _⟩
      obtain ⟨e, he, rfl⟩ := List.mem_map.mp hx
      obtain ⟨h1, h2, h3⟩ := (keepName_iff _ _).mp hk
      unfold providerName at h1
      cases hpv : e.provider with
      | none => rw [hpv] at h1; simp at h1
      | some p =>
        rw [hpv] at h1
        exact ⟨e, he, p, hpv, h1, h2, h3⟩
    · rintro ⟨e, he, p, h1, h2, h3, h4⟩
      refine ⟨⟨providerName e, List.mem_map.mpr ⟨e, he, rfl⟩, ?_⟩, by simp⟩
      apply (keepName_iff _ _).mpr
      refine ⟨?_, h3, h4⟩
      unfold providerName
      rw [h1]
      exact h2
  refine ⟨nodup_uniqAux _ _, ?_, ?_, hmem, ?_⟩
  · intro h
    obtain ⟨_, _, _, _, _, _, h4⟩ := (hmem _).mp h
    exact h4 rfl
  · intro h
    obtain ⟨_, _, _, _, _, h3, _⟩ := (hmem _).mp h
    exact h3 rfl
  · exact uniq_order (entries.map providerName) []

theorem replacedBy_orOpt (a b : Option Str) (d : Str) :
    ReplacedBy a (orElse b d) (orElse (orOpt a b) d) := by
  constructor
  · intro v hv hne
    subst hv
    cases v with
    | nil => exact absurd rfl hne
    | cons c cs => rfl
  · rintro (rfl | rfl) <;> rfl

theorem replacedByEmpty_getD {α : Type} (x : Option (List α)) :
    ReplacedByEmpty x (x.getD []) := by
  constructor
  · intro l hl; subst hl; rfl
  · intro h; subst h; rfl

/-- C9, as the claim states it, fails: for the single record that has the title `Besök`, a
provider named `Vårdcentralen` and nothing else, the entry of the document has type `Besök`
and provider location `Vårdcentralen`, although type and location are absent from the
record and their stated default is `Unknown`. -/
theorem C9_counterexample :
    ∃ e : Entry,
      (generateEIRContent
        [{ title := some (jstr "Besök"), provider := some { name := some (jstr "Vårdcentralen") } }]
        { } (jstr "2025-01-01T00:00:00.000Z")).entries[0]? = some e ∧
      e.type = jstr "Besök" ∧ e.provider.location = jstr "Vårdcentralen" ∧
      ¬ ReplacedBy ({ title := some (jstr "Besök"),
                      provider := some { name := some (jstr "Vårdcentralen") } } : EntryIn).type
          (jstr "Unknown") e.type ∧
      ¬ ReplacedBy (({ name := some (jstr "Vårdcentralen") } : ProviderIn).location)
          (jstr "Unknown") e.provider.location :=
  ⟨assembleEntry
      { title := some (jstr "Besök"), provider := some { name := some (jstr "Vårdcentralen") } } 0,
    rfl, rfl, rfl, fun h => absurd (h.2 (Or.inl rfl)) (by decide),
    fun h => absurd (h.2 (Or.inl rfl)) (by decide)⟩

/-- C9 (amended): the document built by `generateEIRContent` has as many entries as there
are records, `total_entries` is that number, and the entry at index `i` is the record at
index `i` with every absent or empty field replaced by its default: `Unknown` for date,
time, category, provider name and region, status and the responsible-person fields; for
type the record's title, and `Unknown` when that is absent or empty too; for the provider's
location the provider's name, else `Unknown`; for the summary the record's title, else
`Journal Entry`; for the details the record's text, else the empty string; the empty list
for notes, attachments and tags; the id is the record's id when present and non-empty, and
otherwise `entry_` followed by `i + 1` padded with zeros to three digits. -/
theorem C9_entries_with_defaults (entries : List EntryIn) (metadata : MetadataIn)
    (currentDate : Str) :
    (generateEIRContent entries metadata currentDate).entries.length = entries.length ∧
    (generateEIRContent entries metadata currentDate).metadata.export_info.total_entries
      = entries.length ∧
    ∀ (i : Nat) (h : i < entries.length), ∃ e : Entry,
      (generateEIRContent entries metadata currentDate).entries[i]? = some e ∧
      ReplacedBy entries[i].id (jstr "entry_" ++ padStart0 3 (decimal (i + 1))) e.id ∧
      ReplacedBy entries[i].date (jstr "Unknown") e.date ∧
      ReplacedBy entries[i].time (jstr "Unknown") e.time ∧
      ReplacedBy entries[i].category (jstr "Unknown") e.category ∧
      (∃ d, ReplacedBy entries[i].title (jstr "Unknown") d ∧
        ReplacedBy entries[i].type d e.type) ∧
      ReplacedBy (entries[i].provider.bind (fun p => p.name)) (jstr "Unknown")
        e.provider.name ∧
      ReplacedBy (entries[i].provider.bind (fun p => p.region)) (jstr "Unknown")
        e.provider.region ∧
      (∃ d, ReplacedBy (entries[i].provider.bind (fun p => p.name)) (jstr "Unknown") d ∧
        ReplacedBy (entries[i].provider.bind (fun p => p.location)) d e.provider.location) ∧
      ReplacedBy entries[i].status (jstr "Unknown") e.status ∧
      ReplacedBy (entries[i].responsible_person.bind (fun p => p.name)) (jstr "Unknown")
        e.responsible_person.name ∧
      ReplacedBy (entries[i].responsible_person.bind (fun p => p.role)) (jstr "Unknown")
        e.responsible_person.role ∧
      (∃ d, ReplacedBy entries[i].title (jstr "Journal Entry") d ∧
        ReplacedBy (entries[i].content.bind (fun c => c.summary)) d e.content.summary) ∧
      (∃ d, ReplacedBy entries[i].text [] d ∧
        ReplacedBy (entries[i].content.bind (fun c => c.details)) d e.content.details) ∧
      ReplacedByEmpty (entries[i].content.bind (fun c => c.notes)) e.content.notes ∧
      ReplacedByEmpty entries[i].attachments e.attachments ∧
      ReplacedByEmpty entries[i].tags e.tags := by
  refine ⟨(assembleFrom_spec entries 0).1, rfl, ?_⟩
  intro i h
  refine ⟨assembleEntry entries[i] (0 + i), (assembleFrom_spec entries 0).2 i h, ?_⟩
  rw [Nat.zero_add]
  exact ⟨replacedBy_orElse _ _, replacedBy_orElse _ _, replacedBy_orElse _ _,
    replacedBy_orElse _ _, ⟨_, replacedBy_orElse _ _, replacedBy_orOpt _ _ _⟩,
    replacedBy_orElse _ _, replacedBy_orElse _ _,
    ⟨_, replacedBy_orElse _ _, replacedBy_orOpt _ _ _⟩, replacedBy_orElse _ _,
    replacedBy_orElse _ _, replacedBy_orElse _ _,
    ⟨_, replacedBy_orElse _ _, replacedBy_orOpt _ _ _⟩,
    ⟨_, replacedBy_orElse _ _, replacedBy_orOpt _ _ _⟩,
    replacedByEmpty_getD _, replacedByEmpty_getD _, replacedByEmpty_getD _⟩

/-- Witness for C9 (amended): the single record with title `Besök` and nothing else gives one
entry. -/
theorem C9_entries_with_defaults_witness :
    ∃ e : Entry,
      (generateEIRContent [{ title := some (jstr "Besök") }] { }
        (jstr "2025-01-01T00:00:00.000Z")).entries[0]? = some e ∧
      ReplacedBy ({ title := some (jstr "Besök") } : EntryIn).date (jstr "Unknown") e.date :=
  let ⟨e, h1, _, h3, _⟩ := (C9_entries_with_defaults [{ title := some (jstr "Besök") }] { }
    (jstr "2025-01-01T00:00:00.000Z")).2.2 0 (by decide)
  ⟨e, h1, h3⟩

/-- C10, as the claim states it, fails: with no records and a seed without `created_at`, the
texts produced at two different clock readings differ. -/
theorem C10_counterexample :
    convertToYAML (generateEIRContent [] { } (jstr "2025-01-01T00:00:00.000Z")).toJVal ≠
      convertToYAML (generateEIRContent [] { } (jstr "2025-01-02T00:00:00.000Z")).toJVal := by
  decide

/-- C10 (amended): when the seed has a non-empty `created_at`, two evaluations of
`convertToYAML(generateEIRContent(records, seed))` give the same text whatever the two clock
readings; when it has none, the document's `created_at` is the clock reading of the
evaluation, and two evaluations give documents that differ in nothing else. -/
theorem C10_deterministic_with_created_at (records : List EntryIn) (seed : MetadataIn)
    (clock1 clock2 : Str) :
    (falsy seed.created_at = false →
      convertToYAML (generateEIRContent records seed clock1).toJVal =
        convertToYAML (generateEIRContent records seed clock2).toJVal) ∧
    (falsy seed.created_at = true →
      (generateEIRContent records seed clock1).metadata.created_at = clock1 ∧
      (generateEIRContent records seed clock2).metadata.created_at = clock2 ∧
      (generateEIRContent records seed clock1).entries =
        (generateEIRContent records seed clock2).entries ∧
      { (generateEIRContent records seed clock1).metadata with created_at := clock2 } =
        (generateEIRContent records seed clock2).metadata) := by
  constructor
  · intro h
    have hc : ∀ c : Str, orElse seed.created_at c = orElse seed.created_at [] := by
      intro c
      match hs : seed.created_at, h with
      | some (x :: xs), _ => rfl
      | none, h => simp [falsy] at h
      | some [], h => simp [falsy] at h
    have hd : generateEIRContent records seed clock1 = generateEIRContent records seed clock2 := by
      simp only [generateEIRContent, hc clock1, hc clock2]
    rw [hd]
  · intro h
    have hc : ∀ c : Str, orElse seed.created_at c = c := fun c => orElse_falsy _ _ h
    simp only [generateEIRContent, hc]
    exact ⟨trivial, trivial, trivial, trivial⟩

/-- Witness for C10 (amended): a seed with `created_at` set, read at two clock times. -/
theorem C10_deterministic_with_created_at_witness :
    convertToYAML (generateEIRContent [] { created_at := some (jstr "2024-12-31T00:00:00.000Z") }
        (jstr "2025-01-01T00:00:00.000Z")).toJVal =
      convertToYAML (generateEIRContent [] { created_at := some (jstr "2024-12-31T00:00:00.000Z") }
        (jstr "2025-01-02T00:00:00.000Z")).toJVal :=
  (C10_deterministic_with_created_at [] { created_at := some (jstr "2024-12-31T00:00:00.000Z") }
    (jstr "2025-01-01T00:00:00.000Z") (jstr "2025-01-02T00:00:00.000Z")).1 rfl

/-! ## Claims on the serializer -/

set_option maxRecDepth 1000000 in
/-- C11 (the code at a failing input): two record lists that differ (one record with the
single tag made of `akut`, a double quote, a line break, six spaces and `- "besök`, against
one record with the two tags `akut` and `besök`) give documents with different entries and
yet the same serialized text, because `yamlify` writes a string between double quotes
without escaping anything in it. -/
theorem C11_serialized_text_not_injective :
    (generateEIRContent [{ tags := some [jstr "akut\"\n      - \"besök"] }]
        { created_at := some (jstr "2025-01-01T00:00:00.000Z") } (jstr "t")).entries.map
        (fun e => e.tags) ≠
      (generateEIRContent [{ tags := some [jstr "akut", jstr "besök"] }]
        { created_at := some (jstr "2025-01-01T00:00:00.000Z") } (jstr "t")).entries.map
        (fun e => e.tags) ∧
    convertToYAML (generateEIRContent [{ tags := some [jstr "akut\"\n      - \"besök"] }]
        { created_at := some (jstr "2025-01-01T00:00:00.000Z") } (jstr "t")).toJVal =
      convertToYAML (generateEIRContent [{ tags := some [jstr "akut", jstr "besök"] }]
        { created_at := some (jstr "2025-01-01T00:00:00.000Z") } (jstr "t")).toJVal := by
  refine ⟨by decide, by decide⟩

set_option maxRecDepth 1000000 in
/-- C12 (the code at a failing input): a key whose value is the empty sequence or the empty
mapping is written as `key:`, a line break, and the marker alone on the next line without
indentation, not on one line; so the document without records ends in the four lines
`healthcare_providers:`, `[]`, `entries:`, `[]`.  An array item that is empty is written
on one line. -/
theorem C12_empty_marker_on_its_own_line :
    convertToYAML (.obj [(jstr "notes", .arr []), (jstr "provider", .obj [])]) =
      jstr "notes:\n[]\nprovider:\n\x7b\x7d" ∧
    convertToYAML (.arr [.arr [], .obj []]) = jstr "- []\n- \x7b\x7d" ∧
    (split '\n' (convertToYAML (generateEIRContent [] { } (jstr "t")).toJVal)).drop 13 =
      [jstr "    healthcare_providers:", jstr "[]", jstr "entries:", jstr "[]"] := by
  refine ⟨by decide, by decide, by decide⟩

/-! ## Claims on the extractors of the normalizer -/

set_option maxRecDepth 1000000 in
/-- C15: scenario A.  The two raw entries with the given texts (the date of each being taken
from its text) normalize, in this order, to a record with date `2025-03-17` and responsible
person `Anna Svensson` and a record with date `2024-01-05` and status `Osignerad`. -/
theorem C15_scenario_A :
    (normalize
      [{ text := some (jstr
            "17 mar 2025 ... Vaccination ... Antecknad av Anna Svensson (Sjuksköterska)"),
         date := some (jstr
            "17 mar 2025 ... Vaccination ... Antecknad av Anna Svensson (Sjuksköterska)") },
       { text := some (jstr "Osignerad ... 2024-01-05 ..."),
         date := some (jstr "Osignerad ... 2024-01-05 ...") }]).map
      (fun out => out.map (fun r => (r.id, r.date, r.responsible_person.name, r.status))) =
    some [(jstr "entry_001", jstr "2025-03-17", jstr "Anna Svensson", jstr "Unknown"),
          (jstr "entry_002", jstr "2024-01-05", jstr "Unknown", jstr "Osignerad")] := by
  decide

theorem split_eq_splitOn (s : Str) : split '\n' s = s.splitOn '\n' := by
  induction s with
  | nil => rfl
  | cons c cs ih =>
    have hne : cs.splitOn '\n' ≠ [] := List.splitOnP_ne_nil _ _
    unfold List.splitOn at ih hne ⊢
    rw [List.splitOnP_cons, split, ih]
    cases h : List.splitOnP (fun x => x == '\n') cs with
    | nil => exact absurd h hne
    | cons l ls =>
      simp only
      split_ifs <;> rfl

theorem trim_eq (s : Str) : trim s = (s.dropWhile isSpace).rdropWhile isSpace := by
  unfold trim trimStart List.rdropWhile
  rfl

theorem includes_iff (s sub : Str) : includes s sub = true ↔ sub <:+: s := by
  unfold includes
  rw [List.any_eq_true, List.infix_iff_prefix_suffix]
  constructor
  · rintro ⟨t, ht, hp⟩
    exact ⟨t, List.isPrefixOf_iff_prefix.mp hp, (List.mem_tails _ _).mp ht⟩
  · rintro ⟨t, hp, hs⟩
    exact ⟨t, (List.mem_tails _ _).mpr hs, List.isPrefixOf_iff_prefix.mpr hp⟩

theorem includes_eq_decide (s sub : Str) : includes s sub = decide (sub <:+: s) := by
  rw [Bool.eq_iff_iff, includes_iff, decide_eq_true_iff]

/-- C19: `extractNotes(text)` is the list of the first 10 elements of the lines of the text
(split at line breaks, trimmed, empty ones dropped) that contain a colon, do not contain
`http` and are longer than 10 characters; so it never has more than 10 elements, and it is
empty for the empty text and for a missing text. -/
theorem C19_extractNotes_first_ten (text : Str) :
    extractNotes (some text) = (notesOfSpec text).take 10 ∧
      (extractNotes (some text)).length ≤ 10 ∧
      extractNotes (some []) = [] ∧ extractNotes none = [] := by
  have h : extractNotes (some text) = (notesOfSpec text).take 10 := by
    cases text with
    | nil => rfl
    | cons c cs =>
      simp only [extractNotes, notesOfSpec, split_eq_splitOn]
      congr 1
      have hmap : List.map trim (List.splitOn '\n' (c :: cs)) =
          List.map (fun line => (line.dropWhile isSpace).rdropWhile isSpace)
            (List.splitOn '\n' (c :: cs)) :=
        List.map_congr_left (fun l _ => trim_eq l)
      rw [hmap]
      have hf1 : (fun line : Str => !line.isEmpty) = (fun line => decide (line ≠ [])) := by
        funext line
        cases line <;> simp
      rw [hf1]
      apply List.filter_congr
      intro line _
      rw [includes_eq_decide, includes_eq_decide]
      simp only [Bool.decide_and, decide_not, gt_iff_lt, Bool.and_assoc, jstr]
  refine ⟨h, ?_, rfl, rfl⟩
  rw [h, List.length_take]
  exact Nat.min_le_left _ _

/-! ## Claims on the connector registry -/

theorem findIn_some (cs : List ConnectorClass) (url : Str) (c : ConnectorClass)
    (h : findIn cs url = some c) :
    ∃ pre post, cs = pre ++ c :: post ∧ c.callMatches url = some true ∧
      ∀ x ∈ pre, x.callMatches url ≠ some true := by
  induction cs with
  | nil => simp [findIn] at h
  | cons x rest ih =>
    unfold findIn at h
    split at h
    · next hx =>
      injection h with h
      subst h
      exact ⟨[], rest, rfl, hx, fun y hy => absurd hy (List.not_mem_nil _)⟩
    · next hx =>
      obtain ⟨pre, post, e, hc, hpre⟩ := ih h
      refine ⟨x :: pre, post, by rw [e]; rfl, hc, ?_⟩
      intro y hy
      rcases List.mem_cons.mp hy with rfl | hy
      · rw [hx]; simp
      · exact hpre y hy
    · next hx =>
      obtain ⟨pre, post, e, hc, hpre⟩ := ih h
      refine ⟨x :: pre, post, by rw [e]; rfl, hc, ?_⟩
      intro y hy
      rcases List.mem_cons.mp hy with rfl | hy
      · rw [hx]; simp
      · exact hpre y hy

theorem findIn_none (cs : List ConnectorClass) (url : Str) :
    findIn cs url = none ↔ ∀ x ∈ cs, x.callMatches url ≠ some true := by
  induction cs with
  | nil => simp [findIn]
  | cons x rest ih =>
    unfold findIn
    split
    · next hx =>
      constructor
      · intro h; exact absurd h (by simp)
      · intro h; exact absurd hx (h x (List.mem_cons_self _ _))
    · next hx =>
      rw [ih]
      constructor
      · intro h y hy
        rcases List.mem_cons.mp hy with rfl | hy
        · rw [hx]; simp
        · exact h y hy
      · intro h y hy
        exact h y (List.mem_cons_of_mem _ hy)
    · next hx =>
      rw [ih]
      constructor
      · intro h y hy
        rcases List.mem_cons.mp hy with rfl | hy
        · rw [hx]; simp
        · exact h y hy
      · intro h y hy
        exact h y (List.mem_cons_of_mem _ hy)

/-- C20: `findConnector(url)` returns the earliest-registered connector whose
`matches(url)` returns true: the connectors registered before it do not match, a connector
whose `matches` raises counting as not matching; it returns `null` exactly when no
registered connector matches; and it leaves the connector list and the active connector as
they are. -/
theorem C20_findConnector_first_match (r : Registry) (url : Str) :
    (findConnector r url).1 = r ∧
    (∀ c, (findConnector r url).2 = some c →
      ∃ pre post, r.connectors = pre ++ c :: post ∧ c.callMatches url = some true ∧
        ∀ x ∈ pre, x.callMatches url = some false ∨ x.callMatches url = none) ∧
    ((findConnector r url).2 = none ↔
      ∀ x ∈ r.connectors, x.callMatches url ≠ some true) := by
  refine ⟨rfl, ?_, findIn_none _ _⟩
  intro c h
  obtain ⟨pre, post, e, hc, hpre⟩ := findIn_some _ _ _ h
  refine ⟨pre, post, e, hc, ?_⟩
  intro x hx
  have := hpre x hx
  cases hm : x.callMatches url with
  | none => exact Or.inr rfl
  | some b =>
    cases b with
    | false => exact Or.inl rfl
    | true => exact absurd hm this

/-- Witness for C20: three connectors, the first of which raises in `matches`, the second
does not match and the third matches the url; the third is returned. -/
theorem C20_findConnector_first_match_witness :
    ∃ c : ConnectorClass,
      (findConnector
        { connectors := [{ providerName := some (jstr "A"), matchesFn := some (fun _ => none) },
                         { providerName := some (jstr "B"),
                           matchesFn := some (fun _ => some false) },
                         { providerName := some (jstr "1177.se"),
                           matchesFn := some (fun url =>
                             some (includes url (jstr "journalen.1177.se"))) }],
          activeConnector := none }
        (jstr "https://journalen.1177.se/")).2 = some c ∧
      c.providerName = some (jstr "1177.se") ∧
      c.callMatches (jstr "https://journalen.1177.se/") = some true :=
  have hres : (findConnector
        { connectors := [{ providerName := some (jstr "A"), matchesFn := some (fun _ => none) },
                         { providerName := some (jstr "B"),
                           matchesFn := some (fun _ => some false) },
                         { providerName := some (jstr "1177.se"),
                           matchesFn := some (fun url =>
                             some (includes url (jstr "journalen.1177.se"))) }],
          activeConnector := none }
        (jstr "https://journalen.1177.se/")).2 =
      some { providerName := some (jstr "1177.se"),
             matchesFn := some (fun url => some (includes url (jstr "journalen.1177.se"))) } := by
    have h3 : includes (jstr "https://journalen.1177.se/") (jstr "journalen.1177.se") = true := by
      decide
    simp [findConnector, findIn, ConnectorClass.callMatches, h3]
  let ⟨_, _, _, hc, _⟩ := (C20_findConnector_first_match _ _).2.1 _ hres
  ⟨_, hres, rfl, hc⟩

/-! ## Tags -/

theorem lowerChar_idem (c : Char) : lowerChar (lowerChar c) = lowerChar c := by
  by_cases h : (0x41 ≤ c.toNat ∧ c.toNat ≤ 0x5A) ∨ (0xC0 ≤ c.toNat ∧ c.toNat ≤ 0xDE ∧ c.toNat ≠ 0xD7)
  · rw [← Char.ofNat_toNat c]
    generalize c.toNat = n at h
    rcases h with ⟨h1, h2⟩ | ⟨h1, h2, h3⟩
    · interval_cases n <;> rfl
    · interval_cases n <;> rfl
  · have : lowerChar c = c := by
      unfold lowerChar
      simp only
      rw [if_neg h]
    rw [this, this]

theorem toLowerCase_idem (s : Str) : toLowerCase (toLowerCase s) = toLowerCase s := by
  unfold toLowerCase
  rw [List.map_map]
  apply List.map_congr_left
  intro c _
  exact lowerChar_idem c

theorem uniqAux_sublist (xs : List Str) : ∀ seen : List Str, (uniqAux seen xs).Sublist xs := by
  induction xs with
  | nil => intro seen; exact List.Sublist.refl _
  | cons y ys ih =>
    intro seen
    simp only [uniqAux]
    split_ifs
    · exact (ih seen).cons _
    · exact (ih _).cons₂ _

theorem pushIf_eq (c : Bool) (k : Str) (tags : List Str) :
    pushIf c k tags = tags ++ (if c = true then [k] else []) := by
  unfold pushIf
  split_ifs <;> simp

theorem ite_single_sublist (c : Bool) (k : Str) :
    (if c = true then [k] else []).Sublist [k] := by
  split_ifs
  · exact List.Sublist.refl _
  · exact List.nil_sublist _

theorem filterMap_hit_cons (text k : Str) (forms : List Str) (rest : List (Str × List Str)) :
    ((k, forms) :: rest).filterMap
        (fun p => if p.2.any (fun f => includes text f) then some p.1 else none) =
      (if forms.any (fun f => includes text f) = true then [k] else []) ++
        rest.filterMap
          (fun p => if p.2.any (fun f => includes text f) then some p.1 else none) := by
  by_cases h : forms.any (fun f => includes text f) = true
  · rw [List.filterMap_cons_some (b := k) (by simp [h]), if_pos h]; rfl
  · rw [List.filterMap_cons_none (by simp [h]), if_neg h]; rfl

theorem generateTags_eq (entry : RawEntry) :
    generateTags entry =
      uniq ((if falsy entry.category = true then []
             else [toLowerCase (orElse entry.category [])]) ++
        pushedKeywords (orElse entry.text [])) := by
  unfold generateTags pushedKeywords keywordSpellings
  simp only [pushIf_eq, List.append_assoc, filterMap_hit_cons, List.filterMap_nil,
    List.any_cons, List.any_nil, Bool.or_false, List.append_nil, jstr]

theorem pushedKeywords_sublist (text : Str) : (pushedKeywords text).Sublist tagKeywords := by
  have hgen : ∀ l : List (Str × List Str),
      (l.filterMap (fun p => if p.2.any (fun f => includes text f) then some p.1 else none)).Sublist
        (l.map Prod.fst) := by
    intro l
    induction l with
    | nil => exact List.Sublist.refl _
    | cons p rest ih =>
      by_cases h : p.2.any (fun f => includes text f) = true
      · rw [List.filterMap_cons_some (b := p.1) (by simp [h])]
        exact ih.cons₂ _
      · rw [List.filterMap_cons_none (by simp [h])]
        exact ih.cons _
  exact hgen keywordSpellings

theorem keywordSpellings_key :
    ∀ p ∈ keywordSpellings, ∀ q ∈ keywordSpellings, p.1 = q.1 → p = q := by
  decide

theorem mem_pushedKeywords (text k : Str) (forms : List Str)
    (h : (k, forms) ∈ keywordSpellings) :
    k ∈ pushedKeywords text ↔ ∃ f ∈ forms, f <:+: text := by
  unfold pushedKeywords
  rw [List.mem_filterMap]
  constructor
  · rintro ⟨p, hp, hc⟩
    split_ifs at hc with hany
    injection hc with hc
    have := keywordSpellings_key p hp (k, forms) h hc
    subst this
    obtain ⟨f, hf, hi⟩ := List.any_eq_true.mp hany
    exact ⟨f, hf, (includes_iff _ _).mp hi⟩
  · rintro ⟨f, hf, hi⟩
    refine ⟨(k, forms), h, ?_⟩
    have : forms.any (fun f => includes text f) = true :=
      List.any_eq_true.mpr ⟨f, hf, (includes_iff _ _).mpr hi⟩
    simp [this]

theorem tagKeywords_lower : ∀ k ∈ tagKeywords, toLowerCase k = k := by
  decide

theorem generateTags_with (entry : RawEntry) :
    generateTags entry = generateTagsWith toLowerCase entry := rfl

theorem generateTagsWith_eq (lower : Str → Str) (entry : RawEntry) :
    generateTagsWith lower entry =
      uniq ((if falsy entry.category = true then []
             else [lower (orElse entry.category [])]) ++
        pushedKeywords (orElse entry.text [])) := by
  unfold generateTagsWith pushedKeywords keywordSpellings
  simp only [pushIf_eq, List.append_assoc, filterMap_hit_cons, List.filterMap_nil,
    List.any_cons, List.any_nil, Bool.or_false, List.append_nil, jstr]

/-- C18: whatever the built-in `toLowerCase` does to a string, as long as lower-casing twice
is lower-casing once and the nine keywords, written in lower case, are left as they are:
for every raw entry `generateTags` returns a list without repeated elements, every element
of which is lowercase (its own lower-casing); with a non-empty category the list starts
with the lower-cased category and goes on with keywords in the order of the fixed keyword
list, without a category it consists of such keywords only; a keyword of the list is in the
result exactly when one of the spellings looked for occurs in the text or the keyword is
the lower-cased category, wherever in the text the spelling stands; and the result depends
on nothing but the category and the text. -/
theorem C18_generateTags_shape (lower : Str → Str) (entry : RawEntry)
    (hidem : ∀ s, lower (lower s) = lower s) (hkw : ∀ k ∈ tagKeywords, lower k = k) :
    (generateTagsWith lower entry).Nodup ∧
    (∀ t ∈ generateTagsWith lower entry, lower t = t) ∧
    (falsy entry.category = true → (generateTagsWith lower entry).Sublist tagKeywords) ∧
    (∀ c, entry.category = some c → c ≠ [] →
      ∃ rest, generateTagsWith lower entry = lower c :: rest ∧ rest.Sublist tagKeywords) ∧
    (∀ k forms, (k, forms) ∈ keywordSpellings →
      (k ∈ generateTagsWith lower entry ↔
        (∃ f ∈ forms, f <:+: orElse entry.text []) ∨
          ∃ c, entry.category = some c ∧ c ≠ [] ∧ k = lower c)) ∧
    ∀ other : RawEntry, other.category = entry.category → other.text = entry.text →
      generateTagsWith lower other = generateTagsWith lower entry := by
  have hcat : ∀ c, entry.category = some c → c ≠ [] →
      generateTagsWith lower entry = lower c ::
        uniqAux [lower c] (pushedKeywords (orElse entry.text [])) := by
    intro c hc hne
    obtain ⟨x, xs, rfl⟩ := List.exists_cons_of_ne_nil hne
    rw [generateTagsWith_eq, hc]
    simp [falsy, orElse, uniq, uniqAux]
  have hnocat : falsy entry.category = true →
      generateTagsWith lower entry = uniq (pushedKeywords (orElse entry.text [])) := by
    intro h
    rw [generateTagsWith_eq, if_pos h, List.nil_append]
  have hcases : falsy entry.category = true ∨ ∃ c, entry.category = some c ∧ c ≠ [] := by
    cases h : entry.category with
    | none => exact Or.inl rfl
    | some c =>
      cases c with
      | nil => exact Or.inl rfl
      | cons x xs => exact Or.inr ⟨_, rfl, by simp⟩
  refine ⟨?_, ?_, ?_, ?_, ?_, ?_⟩
  · rw [generateTagsWith_eq]
    exact nodup_uniqAux _ _
  · intro t ht
    rcases hcases with h | ⟨c, hc, hne⟩
    · rw [hnocat h] at ht
      exact hkw t ((pushedKeywords_sublist _).subset ((uniqAux_sublist _ _).subset ht))
    · rw [hcat c hc hne] at ht
      rcases List.mem_cons.mp ht with rfl | ht
      · exact hidem c
      · exact hkw t
          ((pushedKeywords_sublist _).subset ((uniqAux_sublist _ _).subset ht))
  · intro h
    rw [hnocat h]
    exact (uniqAux_sublist _ _).trans (pushedKeywords_sublist _)
  · intro c hc hne
    exact ⟨_, hcat c hc hne, (uniqAux_sublist _ _).trans (pushedKeywords_sublist _)⟩
  · intro k forms hk
    rcases hcases with h | ⟨c, hc, hne⟩
    · rw [hnocat h, uniq, mem_uniqAux, mem_pushedKeywords _ _ _ hk]
      constructor
      · rintro ⟨h1, _⟩; exact Or.inl h1
      · rintro (h1 | ⟨c, hc, hne, _⟩)
        · exact ⟨h1, List.not_mem_nil _⟩
        · rw [hc] at h
          cases c with
          | nil => exact absurd rfl hne
          | cons x xs => simp [falsy] at h
    · rw [hcat c hc hne, List.mem_cons, mem_uniqAux, mem_pushedKeywords _ _ _ hk]
      constructor
      · rintro (h1 | ⟨h1, _⟩)
        · exact Or.inr ⟨c, hc, hne, h1⟩
        · exact Or.inl h1
      · rintro (h1 | ⟨c2, hc2, _, h2⟩)
        · by_cases hk2 : k = lower c
          · exact Or.inl hk2
          · exact Or.inr ⟨h1, by simpa using hk2⟩
        · rw [hc] at hc2
          injection hc2 with hc2
          subst hc2
          exact Or.inl h2
  · intro other h1 h2
    rw [generateTagsWith_eq, generateTagsWith_eq, h1, h2]

theorem lowerChar_latin (c : Char) : lowerChar c = c ∨ (lowerChar c).toNat ≤ 0xFE := by
  by_cases h : (0x41 ≤ c.toNat ∧ c.toNat ≤ 0x5A) ∨ (0xC0 ≤ c.toNat ∧ c.toNat ≤ 0xDE ∧ c.toNat ≠ 0xD7)
  · right
    rw [← Char.ofNat_toNat c]
    generalize c.toNat = n at h
    rcases h with ⟨h1, h2⟩ | ⟨h1, h2, h3⟩
    · interval_cases n <;> decide
    · interval_cases n <;> decide
  · left
    unfold lowerChar
    simp only
    rw [if_neg h]

theorem lowerSample_idem (s : Str) : lowerSample (lowerSample s) = lowerSample s := by
  unfold lowerSample
  rw [List.map_map]
  apply List.map_congr_left
  intro c _
  simp only [Function.comp]
  by_cases h1 : c = 'Š'
  · subst h1; decide
  · by_cases h2 : c = '\u212A'
    · subst h2; decide
    · rw [if_neg h1, if_neg h2]
      have h3 : lowerChar c ≠ 'Š' := by
        intro e
        rcases lowerChar_latin c with h | h
        · exact h1 (h ▸ e)
        · rw [e] at h; exact absurd h (by decide)
      have h4 : lowerChar c ≠ '\u212A' := by
        intro e
        rcases lowerChar_latin c with h | h
        · exact h2 (h ▸ e)
        · rw [e] at h; exact absurd h (by decide)
      rw [if_neg h3, if_neg h4]
      exact lowerChar_idem c

theorem lowerSample_keywords : ∀ k ∈ tagKeywords, lowerSample k = k := by
  decide

set_option maxRecDepth 1000000 in
/-- Witness for C18, with a lower-casing that also lowers `Š` and the Kelvin sign: for the
category `ŠKODA Ålder` and a text in which `läkare` comes before `akut`, the tags start
with `škoda ålder` and list `akut` before `läkare`; for the category `A\u212AUT`, written
with the Kelvin sign, and the text `akut` there is the one tag `akut`. -/
theorem C18_generateTags_shape_witness :
    (∃ rest : List Str,
      generateTagsWith lowerSample
          { category := some (jstr "ŠKODA Ålder"),
            text := some (jstr "Besök hos läkare, akut") } =
        lowerSample (jstr "ŠKODA Ålder") :: rest ∧ rest.Sublist tagKeywords) ∧
    generateTagsWith lowerSample
        { category := some (jstr "ŠKODA Ålder"),
          text := some (jstr "Besök hos läkare, akut") } =
      [jstr "škoda ålder", jstr "akut", jstr "besök", jstr "läkare"] ∧
    (generateTagsWith lowerSample
        { category := some (jstr "A\u212AUT"), text := some (jstr "akut") }).Nodup ∧
    generateTagsWith lowerSample
        { category := some (jstr "A\u212AUT"), text := some (jstr "akut") } = [jstr "akut"] :=
  ⟨(C18_generateTags_shape lowerSample
      { category := some (jstr "ŠKODA Ålder"),
        text := some (jstr "Besök hos läkare, akut") }
      lowerSample_idem lowerSample_keywords).2.2.2.1 (jstr "ŠKODA Ålder") rfl
      (by decide), by decide,
    (C18_generateTags_shape lowerSample
      { category := some (jstr "A\u212AUT"), text := some (jstr "akut") }
      lowerSample_idem lowerSample_keywords).1, by decide⟩

/-! ## What the capture groups hold -/

theorem Re.run_caps {α : Type} (r : Re) :
    ∀ (i : Nat) (rest : Str) (caps : Caps) (k : Nat → Str → Caps → Option α) (res : α),
      r.run i rest caps k = some res →
      ∃ w rest1 caps1, rest = w ++ rest1 ∧ r.Lang i w rest1 ∧
        k (i + w.length) rest1 caps1 = some res ∧
        ∀ g, caps1 g = caps g ∨ ∃ v, caps1 g = some v ∧ r.groupLang g v := by
  induction r with
  | lit s =>
    intro i rest caps k res h
    simp only [Re.run] at h
    split at h
    · next hp =>
      obtain ⟨t, ht⟩ := List.isPrefixOf_iff_prefix.mp hp
      subst ht
      rw [List.drop_left] at h
      exact ⟨s, t, caps, rfl, rfl, h, fun g => Or.inl rfl⟩
    · exact absurd h (by simp)
  | rep p lo hi =>
    intro i rest caps k res h
    simp only [Re.run] at h
    split at h
    · exact absurd h (by simp)
    · next hlo =>
      obtain ⟨c, hc1, hc2, hc⟩ := tryCounts_sound _ _ _ _ h
      have hcn : c ≤ spanLen p hi rest := by omega
      have hlen : (rest.take c).length = c := by
        rw [List.length_take]
        have := spanLen_le_length p rest hi
        omega
      refine ⟨rest.take c, rest.drop c, caps, (List.take_append_drop c rest).symm, ?_, ?_,
        fun g => Or.inl rfl⟩
      · refine ⟨spanLen_take p rest hi c hcn, by omega, ?_⟩
        intro hh e
        have := spanLen_le_hi p rest hi hh e
        omega
      · rw [hlen]; exact hc
  | cat a b iha ihb =>
    intro i rest caps k res h
    simp only [Re.run] at h
    obtain ⟨w1, rest1, caps1, e1, l1, h1, c1⟩ := iha _ _ _ _ _ h
    obtain ⟨w2, rest2, caps2, e2, l2, h2, c2⟩ := ihb _ _ _ _ _ h1
    subst e2
    refine ⟨w1 ++ w2, rest2, caps2, by simp [e1], ⟨w1, w2, rfl, l1, l2⟩, ?_, ?_⟩
    · rw [List.length_append, ← Nat.add_assoc]
      exact h2
    · intro g
      rcases c2 g with e | ⟨v, hv, hl⟩
      · rcases c1 g with e' | ⟨v, hv, hl⟩
        · exact Or.inl (e.trans e')
        · exact Or.inr ⟨v, e.trans hv, Or.inl hl⟩
      · exact Or.inr ⟨v, hv, Or.inr hl⟩
  | alt a b iha ihb =>
    intro i rest caps k res h
    simp only [Re.run] at h
    split at h
    · next r hr =>
      obtain ⟨w, rest1, caps1, e1, l1, h1, c1⟩ := iha _ _ _ _ _ hr
      refine ⟨w, rest1, caps1, e1, Or.inl l1, by rw [h1, h], ?_⟩
      intro g
      rcases c1 g with e | ⟨v, hv, hl⟩
      · exact Or.inl e
      · exact Or.inr ⟨v, hv, Or.inl hl⟩
    · obtain ⟨w, rest1, caps1, e1, l1, h1, c1⟩ := ihb _ _ _ _ _ h
      refine ⟨w, rest1, caps1, e1, Or.inr l1, h1, ?_⟩
      intro g
      rcases c1 g with e | ⟨v, hv, hl⟩
      · exact Or.inl e
      · exact Or.inr ⟨v, hv, Or.inr hl⟩
  | opt a iha =>
    intro i rest caps k res h
    simp only [Re.run] at h
    split at h
    · next r hr =>
      obtain ⟨w, rest1, caps1, e1, l1, h1, c1⟩ := iha _ _ _ _ _ hr
      exact ⟨w, rest1, caps1, e1, Or.inl l1, by rw [h1, h], c1⟩
    · exact ⟨[], rest, caps, rfl, Or.inr rfl, h, fun g => Or.inl rfl⟩
  | grp n a iha =>
    intro i rest caps k res h
    simp only [Re.run] at h
    obtain ⟨w, rest1, caps1, e1, l1, h1, c1⟩ := iha _ _ _ _ _ h
    have htake : rest.take (i + w.length - i) = w := by
      rw [e1, Nat.add_sub_cancel_left, List.take_left]
    rw [htake] at h1
    refine ⟨w, rest1, _, e1, l1, h1, ?_⟩
    intro g
    simp only [Caps.set]
    split
    · next hg => exact Or.inr ⟨w, rfl, Or.inl ⟨hg.symm, i, rest1, l1⟩⟩
    · rcases c1 g with e | ⟨v, hv, hl⟩
      · exact Or.inl e
      · exact Or.inr ⟨v, hv, Or.inr hl⟩
  | bos =>
    intro i rest caps k res h
    simp only [Re.run] at h
    split at h
    · next hi => exact ⟨[], rest, caps, rfl, ⟨rfl, hi⟩, h, fun g => Or.inl rfl⟩
    · exact absurd h (by simp)
  | eos =>
    intro i rest caps k res h
    simp only [Re.run] at h
    split at h
    · next hi =>
      exact ⟨[], rest, caps, rfl, ⟨rfl, by simpa using hi⟩, h, fun g => Or.inl rfl⟩
    · exact absurd h (by simp)

theorem Re.matchAt_group_lang (r : Re) (g : Nat) (hg : g ≠ 0) (i : Nat) (s : Str) (m : Match)
    (h : r.matchAt i s = some m) (v : Str) (hv : m.group g = some v) : r.groupLang g v := by
  unfold Re.matchAt at h
  obtain ⟨w, rest1, caps1, _, _, h1, c1⟩ := Re.run_caps r _ _ _ _ _ h
  simp only [Option.some.injEq] at h1
  subst h1
  simp only [Match.group, Caps.set, if_neg hg] at hv
  rcases c1 g with e | ⟨v2, hv2, hl⟩
  · rw [e] at hv
    exact absurd hv (by simp [Caps.empty])
  · rw [hv2] at hv
    injection hv with hv
    subst hv
    exact hl

theorem Re.searchFrom_group_lang (r : Re) (g : Nat) (hg : g ≠ 0) (s : Str) :
    ∀ (i : Nat) (m : Match), r.searchFrom i s = some m →
      ∀ v, m.group g = some v → r.groupLang g v := by
  induction s with
  | nil =>
    intro i m h
    exact Re.matchAt_group_lang r g hg _ _ _ h
  | cons c cs ih =>
    intro i m h
    simp only [Re.searchFrom] at h
    split at h
    · next m1 hm1 =>
      simp only [Option.some.injEq] at h
      subst h
      exact Re.matchAt_group_lang r g hg _ _ _ hm1
    · exact ih _ _ h

theorem Re.exec_group_lang (r : Re) (g : Nat) (hg : g ≠ 0) (s : Str) (m : Match)
    (h : r.exec s = some m) (v : Str) (hv : m.group g = some v) : r.groupLang g v :=
  Re.searchFrom_group_lang r g hg s 0 m h v hv

/-! ## The shape of the dates that `formatDate` returns -/

theorem isoBody_lang (i : Nat) (v rest : Str) (h : reIsoBody.Lang i v rest) :
    ∃ y mo d, IsIsoDate y mo d v := by
  simp only [reIsoBody, Re.Lang] at h
  obtain ⟨a, r1, e3, ⟨ha, ha1, ha2⟩, h1, r2, e4, rfl, b, r3, e5, ⟨hb, hb1, hb2⟩,
    h2, c, e6, rfl, hc, hc1, hc2⟩ := h
  subst e3 e4 e5 e6
  refine ⟨a, b, c, by simp, ?_, ?_, ?_, ha, hb, hc⟩
  · have := ha2 4 rfl; omega
  · have := hb2 2 rfl; omega
  · have := hc2 2 rfl; omega

theorem lookup_mem (l : List (String × String)) (k x : String) (h : l.lookup k = some x) :
    x ∈ l.map Prod.snd := by
  induction l with
  | nil => simp at h
  | cons p rest ih =>
    obtain ⟨a, b⟩ := p
    simp only [List.lookup] at h
    split at h
    · injection h with h
      subst h
      simp
    · simp only [List.map_cons, List.mem_cons]
      exact Or.inr (ih h)

theorem monthMap_some (key v : Str) (h : monthMap key = some v) :
    v.length = 2 ∧ ∀ c ∈ v, isDigit c = true := by
  unfold monthMap at h
  simp only [Option.map_eq_some'] at h
  obtain ⟨x, hx, rfl⟩ := h
  have hmem := lookup_mem _ _ _ hx
  have hall : ∀ x ∈ ["01", "02", "03", "04", "05", "06", "07", "08", "09", "10", "11", "12"],
      (String.toList x).length = 2 ∧ ∀ c ∈ String.toList x, isDigit c = true := by
    decide
  exact hall x (by simpa using hmem)

theorem padStart0_day (day : Str) (h1 : 1 ≤ day.length) (h2 : day.length ≤ 2)
    (hd : ∀ c ∈ day, isDigit c = true) :
    (padStart0 2 day).length = 2 ∧ ∀ c ∈ padStart0 2 day, isDigit c = true := by
  unfold padStart0
  refine ⟨by simp; omega, ?_⟩
  intro c hc
  rcases List.mem_append.mp hc with hc | hc
  · rw [(List.mem_replicate.mp hc).2]; rfl
  · exact hd c hc

theorem swedishStep_shape (s r : Str) (h : swedishStep s = some (some r)) :
    ∃ y mo d, IsIsoDate y mo d r := by
  unfold swedishStep at h
  split at h
  · exact absurd h (by simp)
  · next m hm =>
    obtain ⟨d, hd⟩ := Re.exec_group reSwedishDate 1 rfl s m hm
    obtain ⟨mo, hmo⟩ := Re.exec_group reSwedishDate 2 rfl s m hm
    obtain ⟨y, hy⟩ := Re.exec_group reSwedishDate 3 rfl s m hm
    have ld := Re.exec_group_lang reSwedishDate 1 (by decide) s m hm d hd
    have ly := Re.exec_group_lang reSwedishDate 3 (by decide) s m hm y hy
    simp [reSwedishDate, Re.groupLang, Re.Lang] at ld ly
    simp only [hd, hmo, hy, Option.bind_eq_bind, Option.some_bind] at h
    split at h
    · next monthNum hmn =>
      simp only [Option.pure_def, Option.some.injEq] at h
      subst h
      obtain ⟨hm2, hmd⟩ := monthMap_some _ _ hmn
      obtain ⟨hp2, hpd⟩ := padStart0_day d ld.2.1 ld.2.2 ld.1
      exact ⟨y, monthNum, padStart0 2 d, rfl, by omega, hm2, hp2, ly.1, hmd, hpd⟩
    · simp at h

theorem formatDate_shape (x : Option Str) (r : Str) (h : formatDate x = some r) :
    r = unknown ∨ ∃ y mo d, IsIsoDate y mo d r := by
  unfold formatDate at h
  split at h
  · exact Or.inl (Option.some.inj h).symm
  · exact Or.inl (Option.some.inj h).symm
  · next c cs =>
    simp only at h
    split at h
    · exact absurd h (by simp)
    · next d hd =>
      injection h with h
      subst h
      exact Or.inr (swedishStep_shape _ _ hd)
    · split at h
      · next m hm =>
        have hl := Re.exec_group_lang reIso 1 (by decide) _ m hm r h
        simp only [reIso, Re.groupLang, true_and] at hl
        rcases hl with ⟨i, rest, hl⟩ | hl
        · exact Or.inr (isoBody_lang i r rest hl)
        · simp [reIsoBody, Re.groupLang] at hl
      · split at h
        · next m hm =>
          have hl := Re.exec_group_lang reIsoStart 1 (by decide) _ m hm r h
          simp only [reIsoStart, Re.groupLang, true_and, false_or] at hl
          rcases hl with ⟨i, rest, hl⟩ | hl
          · exact Or.inr (isoBody_lang i r rest hl)
          · simp [reIsoBody, Re.groupLang] at hl
        · split at h
          · split at h
            · exact absurd h (by simp)
            · next d hd => exact absurd hd (by simp)
            · exact Or.inl (Option.some.inj h).symm
          · exact Or.inl (Option.some.inj h).symm

theorem normalizeEntry_date (e : RawEntry) (i : Nat) (r : NormalizedEntry)
    (h : normalizeEntry e i = some r) : formatDate e.date = some r.date := by
  obtain ⟨d, hd⟩ := formatDate_total e.date
  obtain ⟨t, ht⟩ := extractTime_total e.text
  obtain ⟨g, hg⟩ := extractRegion_total e.source
  obtain ⟨p, hp⟩ := extractResponsiblePerson_total e.text
  obtain ⟨ro, hro⟩ := extractRole_total e.text
  simp only [normalizeEntry, hd, ht, hg, hp, hro, Option.bind_eq_bind, Option.some_bind,
    Option.pure_def, Option.some.injEq] at h
  subst h
  exact hd

theorem mem_normalize (raw : List RawEntry) (out : List NormalizedEntry)
    (h : normalize raw = some out) (r : NormalizedEntry) (hr : r ∈ out) :
    ∃ e i, normalizeEntry e i = some r := by
  obtain ⟨out2, h2, hlen, hidx⟩ := normalizeFrom_spec raw 0
  unfold normalize at h
  rw [h] at h2
  injection h2 with h2
  subst h2
  obtain ⟨i, hi, rfl⟩ := List.getElem_of_mem hr
  have hi2 : i < raw.length := by rw [← hlen]; exact hi
  refine ⟨raw[i], 0 + i, ?_⟩
  rw [hidx i hi2, List.getElem?_eq_getElem hi]

theorem dateRange_valid (entries : List EntryIn) (d : Str) (hd : d ∈ validDates entries) :
    (dateRange entries).start ∈ validDates entries ∧
      (dateRange entries).stop ∈ validDates entries := by
  obtain ⟨a, b, ha, hb, hma, hmb, _, _⟩ :=
    sorted_first_last (validDates entries) (sorted_sortStr _) d hd
  obtain ⟨_, _, _, ya, ma, da, hisoa⟩ := (mem_validDates _ _).mp hma
  obtain ⟨_, _, _, yb, mb, db, hisob⟩ := (mem_validDates _ _).mp hmb
  have hane : a ≠ [] := by
    intro e; have := isoDate_length _ _ _ _ hisoa; rw [e] at this; simp at this
  have hbne : b ≠ [] := by
    intro e; have := isoDate_length _ _ _ _ hisob; rw [e] at this; simp at this
  have hstart : (dateRange entries).start = a := by
    simp only [dateRange, ha]; exact orElse_some_of_ne_nil a _ hane
  have hstop : (dateRange entries).stop = b := by
    simp only [dateRange, hb]; exact orElse_some_of_ne_nil b _ hbne
  rw [hstart, hstop]
  exact ⟨hma, hmb⟩

theorem unknown_not_valid (entries : List EntryIn) : unknown ∉ validDates entries := by
  intro h
  obtain ⟨_, _, _, y, mo, d, hiso⟩ := (mem_validDates _ _).mp h
  have := isoDate_length _ _ _ _ hiso
  simp [unknown] at this

/-- C13: for every input string `formatDate` returns a string that is either `Unknown` or
of the strict shape four digits, hyphen, two digits, hyphen, two digits (ten characters,
accepted by the pattern of the date-range computation); hence, for the records that
`normalize` returns, the date range of the document is `Unknown` only when the date of
every record is `Unknown`. -/
theorem C13_formatDate_strict_or_unknown (s : Str) (raw : List RawEntry)
    (metadata : MetadataIn) (currentDate : Str) :
    (∃ r, formatDate (some s) = some r ∧
      (r = jstr "Unknown" ∨
        ((∃ y mo d, IsIsoDate y mo d r) ∧ r.length = 10 ∧
          (reStrictIso.exec r).isSome = true))) ∧
    ∀ out : List NormalizedEntry, normalize raw = some out →
      ((generateEIRContent (out.map NormalizedEntry.toEntryIn) metadata
          currentDate).metadata.export_info.date_range.start = jstr "Unknown" ∨
        (generateEIRContent (out.map NormalizedEntry.toEntryIn) metadata
          currentDate).metadata.export_info.date_range.stop = jstr "Unknown") →
      ∀ r ∈ out, r.date = jstr "Unknown" := by
  constructor
  · obtain ⟨r, hr⟩ := formatDate_total (some s)
    refine ⟨r, hr, ?_⟩
    rcases formatDate_shape _ _ hr with h | ⟨y, mo, d, h⟩
    · exact Or.inl h
    · exact Or.inr ⟨⟨y, mo, d, h⟩, isoDate_length _ _ _ _ h, (strictIso_iff r).mpr ⟨y, mo, d, h⟩⟩
  · intro out hout hunk r hr
    have hrange : (generateEIRContent (out.map NormalizedEntry.toEntryIn) metadata
        currentDate).metadata.export_info.date_range =
        dateRange (out.map NormalizedEntry.toEntryIn) := rfl
    rw [hrange] at hunk
    obtain ⟨e, i, he⟩ := mem_normalize raw out hout r hr
    rcases formatDate_shape _ _ (normalizeEntry_date e i r he) with h | ⟨y, mo, d, h⟩
    · exact h
    · exfalso
      have hmem : r.date ∈ validDates (out.map NormalizedEntry.toEntryIn) :=
        (mem_validDates _ _).mpr
          ⟨r.toEntryIn, List.mem_map.mpr ⟨r, hr, rfl⟩, rfl, y, mo, d, h⟩
      obtain ⟨h1, h2⟩ := dateRange_valid _ _ hmem
      rcases hunk with hu | hu
      · rw [hu] at h1; exact unknown_not_valid _ h1
      · rw [hu] at h2; exact unknown_not_valid _ h2

set_option maxRecDepth 1000000 in
/-- Witness for C13: the raw entry without any property normalizes to one record, the date
range of the document is `Unknown`, and so is the date of the record. -/
theorem C13_formatDate_strict_or_unknown_witness :
    ∀ r ∈ (normalize [{ }]).getD [], r.date = jstr "Unknown" :=
  (C13_formatDate_strict_or_unknown (jstr "17 mar 2025") [{ }] { } (jstr "t")).2
    ((normalize [{ }]).getD []) (by decide) (Or.inl (by decide))

/-! ## The first way of matching -/

theorem isSpace_of_isWord (c : Char) (h : isWord c = true) : isSpace c = false := by
  simp only [isWord, isDigit, Bool.or_eq_true, Bool.and_eq_true, decide_eq_true_eq,
    beq_iff_eq] at h
  simp only [isSpace, Bool.or_eq_false_iff, beq_eq_false_iff_ne, ne_eq, Bool.and_eq_false_iff,
    decide_eq_false_iff_not]
  omega

theorem isWord_of_lower (c : Char) (h1 : 0x61 ≤ (lowerChar c).toNat)
    (h2 : (lowerChar c).toNat ≤ 0x7A) : isWord c = true := by
  by_cases h : (0x41 ≤ c.toNat ∧ c.toNat ≤ 0x5A) ∨ (0xC0 ≤ c.toNat ∧ c.toNat ≤ 0xDE ∧ c.toNat ≠ 0xD7)
  · rcases h with ⟨h3, h4⟩ | ⟨h3, h4, h5⟩
    · simp only [isWord, isDigit, Bool.or_eq_true, Bool.and_eq_true, decide_eq_true_eq,
        beq_iff_eq]
      omega
    · exfalso
      rw [← Char.ofNat_toNat c] at h1 h2
      generalize c.toNat = n at h1 h2 h3 h4 h5
      interval_cases n <;> exact absurd h2 (by decide)
  · have : lowerChar c = c := by
      unfold lowerChar
      simp only
      rw [if_neg h]
    rw [this] at h1 h2
    simp only [isWord, isDigit, Bool.or_eq_true, Bool.and_eq_true, decide_eq_true_eq,
      beq_iff_eq]
    omega

theorem collapse_nonspace (w : Str) :
    ∀ (rest : Str) (b : Bool), (∀ c ∈ w, isSpace c = false) → w ≠ [] →
      collapseAux b (w ++ rest) = w ++ collapseAux false rest := by
  induction w with
  | nil => intro rest b _ h; exact absurd rfl h
  | cons c cs ih =>
    intro rest b hw _
    have hc : isSpace c = false := hw c (List.mem_cons_self _ _)
    simp only [List.cons_append, collapseAux, hc, Bool.false_eq_true, if_false]
    cases cs with
    | nil => rfl
    | cons c2 cs2 =>
      rw [List.append_eq, ih rest false (fun x hx => hw x (List.mem_cons_of_mem _ hx)) (by simp)]

theorem collapse_space (ws : Str) :
    ∀ (rest : Str) (b : Bool), (∀ c ∈ ws, isSpace c = true) → ws ≠ [] →
      collapseAux b (ws ++ rest) = (if b = true then [] else [' ']) ++ collapseAux true rest := by
  induction ws with
  | nil => intro rest b _ h; exact absurd rfl h
  | cons c cs ih =>
    intro rest b hw _
    have hc : isSpace c = true := hw c (List.mem_cons_self _ _)
    simp only [List.cons_append, collapseAux, hc, if_true]
    cases cs with
    | nil => cases b <;> rfl
    | cons c2 cs2 =>
      rw [List.append_eq, ih rest true (fun x hx => hw x (List.mem_cons_of_mem _ hx)) (by simp)]
      cases b <;> rfl

theorem dropWhile_append_stop (p : Char → Bool) (a : Str) (z : Char) (r : Str)
    (hz : p z = false) : ∃ a1, (a ++ z :: r).dropWhile p = a1 ++ z :: r := by
  induction a with
  | nil => exact ⟨[], by simp [List.dropWhile, hz]⟩
  | cons x xs ih =>
    by_cases hx : p x = true
    · obtain ⟨a1, h⟩ := ih
      exact ⟨a1, by simp [List.dropWhile, hx, h]⟩
    · exact ⟨x :: xs, by simp [List.dropWhile, hx]⟩

theorem trim_shape (a z : Char) (mid x : Str) (ha : isSpace a = false)
    (hz : isSpace z = false) : ∃ x1, trim (a :: (mid ++ z :: x)) = a :: (mid ++ z :: x1) := by
  have h1 : trimStart (a :: (mid ++ z :: x)) = a :: (mid ++ z :: x) := by
    simp [trimStart, List.dropWhile, ha]
  obtain ⟨a1, h2⟩ := dropWhile_append_stop isSpace x.reverse z (mid.reverse ++ [a]) hz
  refine ⟨a1.reverse, ?_⟩
  unfold trim
  rw [h1]
  have h3 : (a :: (mid ++ z :: x)).reverse = x.reverse ++ z :: (mid.reverse ++ [a]) := by simp
  rw [h3]
  unfold trimStart
  rw [h2]
  simp

theorem spanLen_exact (p : Char → Bool) (w : Str) :
    ∀ (hi : Option Nat) (rest : Str), (∀ c ∈ w, p c = true) →
      (∀ h, hi = some h → w.length ≤ h) →
      (hi = some w.length ∨ rest = [] ∨ ∃ c r, rest = c :: r ∧ p c = false) →
      spanLen p hi (w ++ rest) = w.length := by
  induction w with
  | nil =>
    intro hi rest _ _ hstop
    rcases hstop with h | h | ⟨c, r, h, hc⟩
    · subst h
      cases rest <;> simp [spanLen]
    · subst h; rfl
    · subst h
      simp [spanLen, hc]
  | cons x xs ih =>
    intro hi rest hp hh hstop
    have hx : p x = true := hp x (List.mem_cons_self _ _)
    have h0 : hi ≠ some 0 := by
      intro e
      have := hh 0 e
      simp at this
    show spanLen p hi (x :: (xs ++ rest)) = (x :: xs).length
    simp only [spanLen, List.length_cons]
    rw [if_neg h0, if_pos hx]
    rw [ih (hi.map (· - 1)) rest (fun c hc => hp c (List.mem_cons_of_mem _ hc))]
    · intro h e
      cases hi with
      | none => simp at e
      | some v =>
        simp only [Option.map_some', Option.some.injEq] at e
        have := hh v rfl
        simp only [List.length_cons] at this
        omega
    · rcases hstop with h | h | h
      · left
        subst h
        simp
      · exact Or.inr (Or.inl h)
      · exact Or.inr (Or.inr h)

theorem tryCounts_first {α : Type} (k : Nat → Option α) (lo extra : Nat) (res : α)
    (h : k (lo + extra) = some res) : tryCounts k lo extra = some res := by
  cases extra with
  | zero => exact h
  | succ n =>
    unfold tryCounts
    rw [show lo + n + 1 = lo + (n + 1) from rfl, h]

theorem Re.run_rep_first {α : Type} (p : Char → Bool) (lo : Nat) (hi : Option Nat) (i : Nat)
    (w rest : Str) (caps : Caps) (k : Nat → Str → Caps → Option α) (res : α)
    (hspan : spanLen p hi (w ++ rest) = w.length) (hlo : lo ≤ w.length)
    (hk : k (i + w.length) rest caps = some res) :
    (Re.rep p lo hi).run i (w ++ rest) caps k = some res := by
  simp only [Re.run, hspan]
  rw [if_neg (by omega)]
  apply tryCounts_first
  rw [Nat.add_sub_cancel' hlo, List.drop_left]
  exact hk

theorem Re.run_grp_rep_first {α : Type} (g : Nat) (p : Char → Bool) (lo : Nat)
    (hi : Option Nat) (i : Nat) (w rest : Str) (caps : Caps)
    (k : Nat → Str → Caps → Option α) (res : α)
    (hspan : spanLen p hi (w ++ rest) = w.length) (hlo : lo ≤ w.length)
    (hk : k (i + w.length) rest (caps.set g w) = some res) :
    (Re.grp g (Re.rep p lo hi)).run i (w ++ rest) caps k = some res := by
  simp only [Re.run, hspan]
  rw [if_neg (by omega)]
  apply tryCounts_first
  rw [Nat.add_sub_cancel' hlo, List.drop_left, Nat.add_sub_cancel_left, List.take_left]
  exact hk

theorem Re.searchFrom_of_matchAt (r : Re) (i : Nat) (s : Str) (m : Match)
    (h : r.matchAt i s = some m) : r.searchFrom i s = some m := by
  cases s with
  | nil => exact h
  | cons c cs => simp only [Re.searchFrom, h]

theorem isDigit_not_space_head (y : Str) (t : Str) (hy : y ≠ []) (hyd : ∀ c ∈ y, isDigit c = true) :
    ∃ c r, y ++ t = c :: r ∧ isSpace c = false := by
  obtain ⟨c, cs, rfl⟩ := List.exists_cons_of_ne_nil hy
  exact ⟨c, cs ++ t, rfl, isSpace_of_isDigit c (hyd c (List.mem_cons_self _ _))⟩

theorem swedish_match (d m y t : Str) (hd1 : 1 ≤ d.length) (hd2 : d.length ≤ 2)
    (hdd : ∀ c ∈ d, isDigit c = true) (hm : m.length = 3) (hmw : ∀ c ∈ m, isWord c = true)
    (hy : y.length = 4) (hyd : ∀ c ∈ y, isDigit c = true) :
    ∃ mt : Match, reSwedishDate.exec (d ++ (' ' :: (m ++ (' ' :: (y ++ t))))) = some mt ∧
      mt.group 1 = some d ∧ mt.group 2 = some m ∧ mt.group 3 = some y := by
  have hsp : isSpace ' ' = true := by decide
  have hnd : isDigit ' ' = false := by decide
  have hnw : isWord ' ' = false := by decide
  obtain ⟨m0, mr, hm0, hm0s⟩ : ∃ c r, m ++ (' ' :: (y ++ t)) = c :: r ∧ isSpace c = false := by
    obtain ⟨c, cs, rfl⟩ := List.exists_cons_of_ne_nil (l := m) (by intro e; rw [e] at hm; simp at hm)
    exact ⟨c, cs ++ (' ' :: (y ++ t)), rfl, isSpace_of_isWord c (hmw c (List.mem_cons_self _ _))⟩
  obtain ⟨y0, yr, hy0, hy0s⟩ := isDigit_not_space_head y t
    (by intro e; rw [e] at hy; simp at hy) hyd
  have s1 : spanLen isDigit (some 2) (d ++ (' ' :: (m ++ (' ' :: (y ++ t))))) = d.length :=
    spanLen_exact isDigit d _ _ hdd (fun h e => by injection e with e; omega)
      (Or.inr (Or.inr ⟨' ', _, rfl, hnd⟩))
  have s2 : spanLen isSpace none ([' '] ++ (m ++ (' ' :: (y ++ t)))) = [' '].length :=
    spanLen_exact isSpace [' '] _ _ (by simp [hsp]) (fun h e => by simp at e)
      (Or.inr (Or.inr ⟨m0, mr, hm0, hm0s⟩))
  have s3 : spanLen isWord (some 3) (m ++ (' ' :: (y ++ t))) = m.length :=
    spanLen_exact isWord m _ _ hmw (fun h e => by injection e with e; omega)
      (Or.inr (Or.inr ⟨' ', _, rfl, hnw⟩))
  have s4 : spanLen isSpace none ([' '] ++ (y ++ t)) = [' '].length :=
    spanLen_exact isSpace [' '] _ _ (by simp [hsp]) (fun h e => by simp at e)
      (Or.inr (Or.inr ⟨y0, yr, hy0, hy0s⟩))
  have s5 : spanLen isDigit (some 4) (y ++ t) = y.length :=
    spanLen_exact isDigit y _ _ hyd (fun h e => by injection e with e; omega)
      (Or.inl (by rw [hy]))
  refine ⟨Match.mk 0 (0 + d.length + [' '].length + m.length + [' '].length + y.length)
    ((((Caps.empty.set 1 d).set 2 m).set 3 y).set 0
      (List.take (0 + d.length + [' '].length + m.length + [' '].length + y.length - 0)
        (d ++ (' ' :: (m ++ (' ' :: (y ++ t))))))), ?execGoal, ?grp1, ?grp2, ?grp3⟩
  case execGoal =>
    apply Re.searchFrom_of_matchAt
    unfold Re.matchAt reSwedishDate
    simp only [Re.run.eq_3]
    apply Re.run_grp_rep_first 1 isDigit 1 (some 2) 0 d _ _ _ _ s1 hd1
    apply Re.run_rep_first isSpace 1 none _ [' '] _ _ _ _ s2 (by simp)
    apply Re.run_grp_rep_first 2 isWord 3 (some 3) _ m _ _ _ _ s3 (by omega)
    apply Re.run_rep_first isSpace 1 none _ [' '] _ _ _ _ s4 (by simp)
    apply Re.run_grp_rep_first 3 isDigit 4 (some 4) _ y _ _ _ _ s5 (by omega)
    rfl
  all_goals simp [Match.group, Caps.set]

theorem monthNumbers_spec :
    ∀ p ∈ monthNumbers, monthMap p.1 = some p.2 ∧ p.1.length = 3 ∧
      ∀ c ∈ p.1, 0x61 ≤ c.toNat ∧ c.toNat ≤ 0x7A := by
  decide

theorem clean_shape (d ws1 m ws2 y tail : Str) (hd : d ≠ []) (hdd : ∀ c ∈ d, isDigit c = true)
    (hw1 : ws1 ≠ []) (hw1s : ∀ c ∈ ws1, isSpace c = true)
    (hw2 : ws2 ≠ []) (hw2s : ∀ c ∈ ws2, isSpace c = true)
    (hm : m ≠ []) (hmw : ∀ c ∈ m, isWord c = true)
    (hy : y ≠ []) (hyd : ∀ c ∈ y, isDigit c = true) :
    ∃ t, trim (collapseSpaces (d ++ ws1 ++ m ++ ws2 ++ y ++ tail)) =
      d ++ (' ' :: (m ++ (' ' :: (y ++ t)))) := by
  have hds : ∀ c ∈ d, isSpace c = false := fun c hc => isSpace_of_isDigit c (hdd c hc)
  have hms : ∀ c ∈ m, isSpace c = false := fun c hc => isSpace_of_isWord c (hmw c hc)
  have hys : ∀ c ∈ y, isSpace c = false := fun c hc => isSpace_of_isDigit c (hyd c hc)
  have hcol : collapseSpaces (d ++ ws1 ++ m ++ ws2 ++ y ++ tail) =
      d ++ (' ' :: (m ++ (' ' :: (y ++ collapseAux false tail)))) := by
    unfold collapseSpaces
    rw [show d ++ ws1 ++ m ++ ws2 ++ y ++ tail = d ++ (ws1 ++ (m ++ (ws2 ++ (y ++ tail)))) by
      simp only [List.append_assoc]]
    rw [collapse_nonspace d _ _ hds hd, collapse_space ws1 _ _ hw1s hw1,
      collapse_nonspace m _ _ hms hm, collapse_space ws2 _ _ hw2s hw2,
      collapse_nonspace y _ _ hys hy]
    simp
  rw [hcol]
  obtain ⟨a, d1, rfl⟩ := List.exists_cons_of_ne_nil hd
  rcases List.eq_nil_or_concat y with rfl | ⟨y1, z, rfl⟩
  · exact absurd rfl hy
  have ha : isSpace a = false := hds a (List.mem_cons_self _ _)
  have hz : isSpace z = false := hys z (by simp)
  obtain ⟨x1, hx⟩ := trim_shape a z (d1 ++ (' ' :: (m ++ (' ' :: y1)))) (collapseAux false tail)
    ha hz
  refine ⟨x1, ?_⟩
  have e1 : a :: d1 ++ ' ' :: (m ++ ' ' :: (y1.concat z ++ collapseAux false tail)) =
      a :: ((d1 ++ (' ' :: (m ++ (' ' :: y1)))) ++ z :: collapseAux false tail) := by simp
  have e2 : a :: d1 ++ ' ' :: (m ++ ' ' :: (y1.concat z ++ x1)) =
      a :: ((d1 ++ (' ' :: (m ++ (' ' :: y1)))) ++ z :: x1) := by simp
  rw [e1, e2]
  exact hx

/-- C14: for a day numeral `d` of one or two digits, a month `m` that is, lower-cased, one of
the twelve Swedish abbreviations, and a year `y` of four digits, `formatDate` applied to a
string that begins with `d`, white space, `m`, white space, `y`, whatever follows, returns
`y`, a hyphen, the two-digit number of the month, a hyphen, and `d` padded with a zero to
two digits. -/
theorem C14_swedish_date_parsed (d ws1 m ws2 y tail abbr num : Str)
    (hd1 : 1 ≤ d.length) (hd2 : d.length ≤ 2) (hdd : ∀ c ∈ d, isDigit c = true)
    (hw1 : ws1 ≠ []) (hw1s : ∀ c ∈ ws1, isSpace c = true)
    (hw2 : ws2 ≠ []) (hw2s : ∀ c ∈ ws2, isSpace c = true)
    (hmonth : (abbr, num) ∈ monthNumbers) (hlower : toLowerCase m = abbr)
    (hy : y.length = 4) (hyd : ∀ c ∈ y, isDigit c = true) :
    formatDate (some (d ++ ws1 ++ m ++ ws2 ++ y ++ tail)) =
      some (y ++ ['-'] ++ num ++ ['-'] ++ padStart0 2 d) := by
  obtain ⟨hmap, habbr, hletters⟩ := monthNumbers_spec (abbr, num) hmonth
  simp only at hmap habbr hletters
  have hm3 : m.length = 3 := by
    rw [← habbr, ← hlower]
    simp [toLowerCase]
  have hmw : ∀ c ∈ m, isWord c = true := by
    intro c hc
    have hmem : lowerChar c ∈ abbr := by
      rw [← hlower]
      exact List.mem_map_of_mem _ hc
    exact isWord_of_lower c (hletters _ hmem).1 (hletters _ hmem).2
  have hdne : d ≠ [] := by intro e; rw [e] at hd1; simp at hd1
  have hmne : m ≠ [] := by intro e; rw [e] at hm3; simp at hm3
  have hyne : y ≠ [] := by intro e; rw [e] at hy; simp at hy
  obtain ⟨t, hclean⟩ := clean_shape d ws1 m ws2 y tail hdne hdd hw1 hw1s hw2 hw2s hmne hmw
    hyne hyd
  obtain ⟨mt, hexec, hg1, hg2, hg3⟩ := swedish_match d m y t hd1 hd2 hdd hm3 hmw hy hyd
  have hstep : swedishStep (d ++ (' ' :: (m ++ (' ' :: (y ++ t))))) =
      some (some (y ++ ['-'] ++ num ++ ['-'] ++ padStart0 2 d)) := by
    simp only [swedishStep, hexec, hg1, hg2, hg3, Option.bind_eq_bind, Option.some_bind,
      hlower, hmap, Option.pure_def]
  obtain ⟨c, cs, hs0⟩ : ∃ c cs, d ++ ws1 ++ m ++ ws2 ++ y ++ tail = c :: cs := by
    cases d with
    | nil => exact absurd rfl hdne
    | cons a d1 => exact ⟨a, d1 ++ ws1 ++ m ++ ws2 ++ y ++ tail, by simp⟩
  rw [hs0] at hclean ⊢
  unfold formatDate
  simp only [hclean, hstep]

set_option maxRecDepth 1000000 in
/-- Witness for C14: the example of the claim, `17 mar 2025 ...` gives `2025-03-17`; the
text after the year even holds an ISO date. -/
theorem C14_swedish_date_parsed_witness :
    formatDate (some (jstr "17 mar 2025 ... 2024-01-05")) = some (jstr "2025-03-17") :=
  C14_swedish_date_parsed (jstr "17") (jstr " ") (jstr "mar") (jstr " ") (jstr "2025")
    (jstr " ... 2024-01-05") (jstr "mar") (jstr "03") (by decide) (by decide) (by decide)
    (by decide) (by decide) (by decide) (by decide) (by decide) (by decide) (by decide)
    (by decide)

/-! ## Time and tags: what holds in general -/

theorem clock_lang (i : Nat) (w rest : Str) :
    (Re.cat (.rep isDigit 1 (some 2)) (.cat (.lit [':']) (.rep isDigit 2 (some 2)))).Lang i w rest
      ↔ IsClockTime w := by
  simp only [Re.Lang, IsClockTime]
  constructor
  · rintro ⟨h, r1, e1, ⟨hd, h1, h2⟩, col, mm, e2, rfl, hmd, hm1, hm2⟩
    subst e1 e2
    exact ⟨h, mm, by simp, h1, h2 2 rfl, by have := hm2 2 rfl; omega, hd, hmd⟩
  · rintro ⟨h, mm, rfl, h1, h2, hm, hd, hmd⟩
    refine ⟨h, [':'] ++ mm, by simp, ⟨hd, h1, ?_⟩, [':'], mm, rfl, rfl, hmd, by omega, ?_⟩
    · intro x e; injection e with e; omega
    · intro x e; injection e with e; omega

theorem reTime_isSome_iff (t : Str) :
    (reTime.exec t).isSome = true ↔
      ∃ pre w post, t = pre ++ w ++ post ∧ IsClockTime w := by
  rw [Re.exec_isSome_iff]
  constructor
  · rintro ⟨pre, w, rest, e, hl⟩
    simp only [reTime, Re.Lang] at hl
    obtain ⟨w1, w2, rfl, _, hl2⟩ := hl
    have hc := (clock_lang 0 w2 rest).mp (by simpa only [Re.Lang] using hl2)
    exact ⟨pre ++ w1, w2, rest, by rw [e]; simp, hc⟩
  · rintro ⟨pre, w, post, e, hc⟩
    refine ⟨pre, w, post, by rw [e]; simp, ?_⟩
    have hl := (clock_lang (pre.length + ([] : Str).length) w post).mpr hc
    simp only [reTime]
    exact ⟨[], w, rfl, Or.inr rfl, by simpa only [Re.Lang] using hl⟩

theorem reTime_group (t : Str) (m : Match) (h : reTime.exec t = some m) :
    ∃ v, m.group 1 = some v ∧ IsClockTime v := by
  obtain ⟨v, hv⟩ := Re.exec_group reTime 1 rfl t m h
  have hl := Re.exec_group_lang reTime 1 (by decide) t m h v hv
  simp only [reTime, Re.groupLang, true_and, false_or, or_false] at hl
  obtain ⟨i, rest, hl⟩ := hl
  exact ⟨v, hv, (clock_lang i v rest).mp (by simpa only [Re.Lang] using hl)⟩

theorem unknown_not_clock : ¬ IsClockTime unknown := by
  rintro ⟨h, mm, e, h1, _, _, hd, _⟩
  obtain ⟨c, cs, rfl⟩ := List.exists_cons_of_ne_nil (l := h)
    (by intro e2; rw [e2] at h1; simp at h1)
  have hc := hd c (List.mem_cons_self _ _)
  have : c = 'U' := by
    simp only [unknown, List.cons_append] at e
    have := congrArg List.head? e
    simpa using this.symm
  rw [this] at hc
  exact absurd hc (by decide)

set_option maxRecDepth 1000000 in
/-- C16 (the code at a failing input, and what holds in general): for the text
`Besök klockan 9:30` the result of `extractTime` is `9:30`, four characters with a
one-digit hour, not two digits, colon, two digits.  In general the result is `Unknown` or
one or two digits, a colon and two digits, and it is `Unknown` exactly when the text holds
no such occurrence. -/
theorem C16_one_digit_hour :
    extractTime (some (jstr "Besök klockan 9:30")) = some (jstr "9:30") ∧
    (jstr "9:30").length = 4 ∧
    (∀ (text : Option Str) (r : Str), extractTime text = some r →
      r = jstr "Unknown" ∨ IsClockTime r) ∧
    ∀ t : Str, extractTime (some t) = some (jstr "Unknown") ↔
      ¬ ∃ pre w post, t = pre ++ w ++ post ∧ IsClockTime w := by
  refine ⟨by decide, rfl, ?_, ?_⟩
  · intro text r h
    unfold extractTime at h
    split at h
    · exact Or.inl (Option.some.inj h).symm
    · exact Or.inl (Option.some.inj h).symm
    · split at h
      · next m hm =>
        obtain ⟨v, hv, hc⟩ := reTime_group _ m hm
        rw [hv] at h
        injection h with h
        subst h
        exact Or.inr hc
      · exact Or.inl (Option.some.inj h).symm
  · intro t
    cases t with
    | nil =>
      constructor
      · rintro _ ⟨pre, w, post, e, h, mm, rfl, h1, _⟩
        have := congrArg List.length e
        simp at this
        omega
      · intro _; rfl
    | cons c cs =>
      rw [← reTime_isSome_iff]
      unfold extractTime
      simp only
      cases hm : reTime.exec (c :: cs) with
      | none => simp; rfl
      | some m =>
        obtain ⟨v, hv, hc⟩ := reTime_group _ m hm
        simp only [hv, Option.isSome_some, not_true_eq_false, iff_false, Option.some.injEq]
        intro e
        rw [e] at hc
        exact unknown_not_clock hc

/-- Witness for C16: the result at the failing input is a clock time with a one-digit
hour. -/
theorem C16_one_digit_hour_witness : IsClockTime (jstr "9:30") :=
  (C16_one_digit_hour.2.2.1 (some (jstr "Besök klockan 9:30")) (jstr "9:30")
    C16_one_digit_hour.1).resolve_left (by decide)

theorem keywordSpellings_lower :
    ∀ p ∈ keywordSpellings, ∀ f ∈ p.2, toLowerCase f = toLowerCase p.1 := by
  decide

set_option maxRecDepth 1000000 in
/-- C17 (the code at a failing input, and what holds in general): the text `AKUT` contains
the keyword `akut` under case-insensitive comparison, and the text `Antecknad av Therese
Karlberg (Distriktssköterska)` contains `distriktssköterska`, but `generateTags` gives no
tag for either.  The other direction holds: a keyword of the list that is among the tags
occurs in the text under case-insensitive comparison or is the lower-cased category. -/
theorem C17_keyword_in_other_case_missed :
    containsIgnoreCase (jstr "AKUT") (jstr "akut") ∧
    generateTags { text := some (jstr "AKUT") } = [] ∧
    containsIgnoreCase (jstr "Antecknad av Therese Karlberg (Distriktssköterska)")
      (jstr "distriktssköterska") ∧
    generateTags
      { text := some (jstr "Antecknad av Therese Karlberg (Distriktssköterska)") } = [] ∧
    ∀ (entry : RawEntry) (k : Str) (forms : List Str), (k, forms) ∈ keywordSpellings →
      k ∈ generateTags entry →
      containsIgnoreCase (orElse entry.text []) k ∨
        ∃ c, entry.category = some c ∧ c ≠ [] ∧ k = toLowerCase c := by
  refine ⟨by unfold containsIgnoreCase; decide, by decide,
    by unfold containsIgnoreCase; decide, by decide, ?_⟩
  intro entry k forms hk hmem
  rw [generateTags_eq, uniq, mem_uniqAux, List.mem_append] at hmem
  rcases hmem.1 with h | h
  · right
    split_ifs at h with hf
    · exact absurd h (List.not_mem_nil _)
    · rw [List.mem_singleton] at h
      cases hc : entry.category with
      | none => rw [hc] at hf; exact absurd rfl hf
      | some c =>
        cases c with
        | nil => rw [hc] at hf; exact absurd rfl hf
        | cons x xs =>
          rw [hc] at h
          exact ⟨x :: xs, rfl, by simp, h⟩
  · left
    obtain ⟨f, hf, hi⟩ := (mem_pushedKeywords _ _ _ hk).mp h
    unfold containsIgnoreCase
    rw [← keywordSpellings_lower (k, forms) hk f hf]
    unfold toLowerCase
    exact hi.map lowerChar

set_option maxRecDepth 1000000 in
/-- Witness for C17: the text `Akut besök` gives the tag `akut`, and the text contains the
keyword under case-insensitive comparison. -/
theorem C17_keyword_in_other_case_missed_witness :
    containsIgnoreCase (jstr "Akut besök") (jstr "akut") :=
  (C17_keyword_in_other_case_missed.2.2.2.2 { text := some (jstr "Akut besök") } (jstr "akut")
    [jstr "akut", jstr "Akut"] (by decide) (by decide)).resolve_right
    (by rintro ⟨c, hc, _⟩; exact absurd hc (by simp))

/-! ## Registration and the active connector -/

theorem falsy_iff_lacks (x : Option Str) : falsy x = true ↔ Lacks x := by
  unfold Lacks
  match x with
  | none => simp [falsy]
  | some [] => simp [falsy]
  | some (c :: cs) => simp [falsy]

theorem registerConnector_active (r : Registry) (c : ConnectorClass) :
    (registerConnector r c).activeConnector = r.activeConnector := by
  unfold registerConnector
  split_ifs <;> rfl

theorem registerConnector_connectors (r : Registry) (c : ConnectorClass) :
    (registerConnector r c).connectors = r.connectors ∨
      (registerConnector r c).connectors = r.connectors ++ [c] := by
  unfold registerConnector
  split_ifs
  · exact Or.inl rfl
  · exact Or.inl rfl
  · exact Or.inr rfl

/-- C22: a descriptor that lacks a `providerName` (absent or empty), lacks a `country`, or
has no `matches` function leaves the connector list as it is; any other descriptor is
appended at the end of the list, after the descriptors registered before, in their order;
the active connector is the same after the call in both cases. -/
theorem C22_registerConnector (r : Registry) (c : ConnectorClass) :
    ((Lacks c.providerName ∨ Lacks c.country ∨ c.matchesFn = none) →
      (registerConnector r c).connectors = r.connectors) ∧
    (¬ (Lacks c.providerName ∨ Lacks c.country ∨ c.matchesFn = none) →
      (registerConnector r c).connectors = r.connectors ++ [c]) ∧
    (registerConnector r c).activeConnector = r.activeConnector := by
  refine ⟨?_, ?_, registerConnector_active r c⟩
  · intro h
    unfold registerConnector
    split_ifs with h1 h2
    · rfl
    · rfl
    · exfalso
      simp only [Bool.or_eq_true, falsy_iff_lacks] at h1
      rcases h with h | h | h
      · exact h1 (Or.inl h)
      · exact h1 (Or.inr h)
      · rw [h] at h2; exact h2 rfl
  · intro h
    unfold registerConnector
    split_ifs with h1 h2
    · exfalso
      simp only [Bool.or_eq_true, falsy_iff_lacks] at h1
      rcases h1 with h1 | h1
      · exact h (Or.inl h1)
      · exact h (Or.inr (Or.inl h1))
    · exfalso
      exact h (Or.inr (Or.inr (Option.isNone_iff_eq_none.mp h2)))
    · rfl

/-- Witness for C22: a descriptor without a country is not added to a registry that holds
one connector, and a descriptor with name, country and `matches` is added after it. -/
theorem C22_registerConnector_witness :
    (registerConnector { connectors := [connectorSite], activeConnector := none }
      { providerName := some (jstr "X"), matchesFn := some (fun _ => some true) }).connectors
      = [connectorSite] ∧
    (registerConnector { connectors := [connectorSite], activeConnector := none }
      connectorJournal).connectors = [connectorSite, connectorJournal] :=
  ⟨(C22_registerConnector { connectors := [connectorSite], activeConnector := none }
      { providerName := some (jstr "X"), matchesFn := some (fun _ => some true) }).1
      (Or.inr (Or.inl (Or.inl rfl))),
    (C22_registerConnector { connectors := [connectorSite], activeConnector := none }
      connectorJournal).2.1
      (by
        intro h
        have hn : (jstr "1177.se journal" ≠ []) ∧ (jstr "SE" ≠ []) := by decide
        simp [Lacks, connectorJournal, hn.1, hn.2] at h)⟩

theorem getActiveConnector_cached (r : Registry) (url : Str)
    (newInstance : ConnectorClass → Option Nat) (h : CachedMatches r url) :
    getActiveConnector r url newInstance = some (r, r.activeConnector) := by
  obtain ⟨a, ha, hm⟩ := h
  unfold getActiveConnector
  simp only [ha, hm]

theorem getActiveConnector_create (r : Registry) (url : Str)
    (newInstance : ConnectorClass → Option Nat) (h : ¬ CachedMatches r url)
    (hsafe : ∀ a, r.activeConnector = some a → a.classOf.callMatches url ≠ none) :
    getActiveConnector r url newInstance =
      match (findConnector r url).2 with
      | none => some ({ r with activeConnector := none }, none)
      | some c =>
        match newInstance c with
        | some n =>
          some ({ r with activeConnector := some { classOf := c, ident := n } },
            some { classOf := c, ident := n })
        | none => some ({ r with activeConnector := none }, none) := by
  unfold getActiveConnector findConnector
  cases ha : r.activeConnector with
  | none => cases hf : findIn r.connectors url <;> rfl
  | some a =>
    simp only
    cases hm : a.classOf.callMatches url with
    | none => exact absurd hm (hsafe a ha)
    | some b =>
      cases b with
      | true => exact absurd ⟨a, ha, hm⟩ h
      | false => cases hf : findIn r.connectors url <;> rfl

theorem getActiveConnector_result (r : Registry) (url : Str)
    (newInstance : ConnectorClass → Option Nat) (r1 : Registry)
    (res : Option ConnectorInstance) (h : getActiveConnector r url newInstance = some (r1, res)) :
    r1.connectors = r.connectors ∧ r1.activeConnector = res ∧
      ((CachedMatches r url ∧ res = r.activeConnector) ∨
        (¬ CachedMatches r url ∧
          ((findConnector r url).2 = none ∧ res = none ∨
            ∃ c, (findConnector r url).2 = some c ∧
              (newInstance c = none ∧ res = none ∨
                ∃ n, newInstance c = some n ∧ res = some { classOf := c, ident := n })))) := by
  by_cases hc : CachedMatches r url
  · rw [getActiveConnector_cached r url newInstance hc] at h
    injection h with h
    injection h with h1 h2
    subst h1 h2
    obtain ⟨a, ha, _⟩ := hc
    exact ⟨rfl, rfl, Or.inl ⟨⟨a, ha, by assumption⟩, rfl⟩⟩
  · have hsafe : ∀ a, r.activeConnector = some a → a.classOf.callMatches url ≠ none := by
      intro a ha hm
      unfold getActiveConnector at h
      simp only [ha, hm] at h
      exact absurd h (by simp)
    rw [getActiveConnector_create r url newInstance hc hsafe] at h
    cases hf : (findConnector r url).2 with
    | none =>
      rw [hf] at h
      injection h with h
      injection h with h1 h2
      subst h1 h2
      exact ⟨rfl, rfl, Or.inr ⟨hc, Or.inl ⟨rfl, rfl⟩⟩⟩
    | some c =>
      rw [hf] at h
      simp only at h
      cases hn : newInstance c with
      | none =>
        rw [hn] at h
        injection h with h
        injection h with h1 h2
        subst h1 h2
        exact ⟨rfl, rfl, Or.inr ⟨hc, Or.inr ⟨c, rfl, Or.inl ⟨hn, rfl⟩⟩⟩⟩
      | some n =>
        rw [hn] at h
        injection h with h
        injection h with h1 h2
        subst h1 h2
        exact ⟨rfl, rfl, Or.inr ⟨hc, Or.inr ⟨c, rfl, Or.inr ⟨n, hn, rfl⟩⟩⟩⟩

set_option maxRecDepth 1000000 in
/-- C21 (the code at a failing input, and what holds in general).  The failing input: a
connector whose `matches` raises on an address without a scheme is registered and an
instance of it is made for `https://www.1177.se/`; then `getActiveConnector('1177.se')`
raises, although no registered connector matches that address (`findConnector` returns
`null` for it without raising).  In general, whenever the `matches` of the cached
instance's connector does not raise on the url: the call raises nothing; it returns the
cached instance and leaves the state as it is when there is a cached instance whose
connector matches the url; otherwise it makes an instance of the connector that
`findConnector(url)` returns, stores and returns it, and when there is no such connector or
the constructor raises it returns `null` and the active slot is empty; a returned instance
is the cached one only in the first case, a new object being different from the cached
one. -/
theorem C21_cached_matches_call_unguarded :
    getActiveConnector
        (registerConnector { connectors := [], activeConnector := none } connectorParsing)
        (jstr "https://www.1177.se/") (fun _ => some 1) =
      some (registryParsing, some { classOf := connectorParsing, ident := 1 }) ∧
    (findConnector registryParsing (jstr "1177.se")).2 = none ∧
    getActiveConnector registryParsing (jstr "1177.se") (fun _ => some 2) = none ∧
    ∀ (r : Registry) (url : Str) (newInstance : ConnectorClass → Option Nat),
      (∀ a, r.activeConnector = some a → a.classOf.callMatches url ≠ none) →
      (∃ res, getActiveConnector r url newInstance = some res) ∧
      (CachedMatches r url →
        getActiveConnector r url newInstance = some (r, r.activeConnector)) ∧
      (¬ CachedMatches r url → ∀ c n, (findConnector r url).2 = some c →
        newInstance c = some n →
        getActiveConnector r url newInstance =
          some ({ r with activeConnector := some { classOf := c, ident := n } },
            some { classOf := c, ident := n })) ∧
      (¬ CachedMatches r url →
        ((findConnector r url).2 = none ∨
          ∃ c, (findConnector r url).2 = some c ∧ newInstance c = none) →
        getActiveConnector r url newInstance = some ({ r with activeConnector := none }, none)) ∧
      ((∀ a c n, r.activeConnector = some a → newInstance c = some n → n ≠ a.ident) →
        ∀ r1 a, getActiveConnector r url newInstance = some (r1, some a) →
          r.activeConnector = some a → CachedMatches r url) := by
  refine ⟨rfl, rfl, rfl, ?_⟩
  intro r url newInstance hsafe
  refine ⟨?_, getActiveConnector_cached r url newInstance, ?_, ?_, ?_⟩
  · by_cases hc : CachedMatches r url
    · exact ⟨_, getActiveConnector_cached r url newInstance hc⟩
    · rw [getActiveConnector_create r url newInstance hc hsafe]
      cases (findConnector r url).2 with
      | none => exact ⟨_, rfl⟩
      | some c =>
        simp only
        cases hn : newInstance c with
        | none => exact ⟨_, rfl⟩
        | some n => exact ⟨_, rfl⟩
  · intro hc c n hf hn
    rw [getActiveConnector_create r url newInstance hc hsafe, hf]
    simp only [hn]
  · intro hc h
    rw [getActiveConnector_create r url newInstance hc hsafe]
    rcases h with h | ⟨c, hf, hn⟩
    · rw [h]
    · rw [hf]
      simp only [hn]
  · intro hfresh r1 a h ha
    obtain ⟨_, _, h3⟩ := getActiveConnector_result r url newInstance r1 (some a) h
    rcases h3 with ⟨hc, _⟩ | ⟨_, h3⟩
    · exact hc
    · exfalso
      rcases h3 with ⟨_, h3⟩ | ⟨c, _, h3⟩
      · exact absurd h3 (by simp)
      · rcases h3 with ⟨_, h3⟩ | ⟨n, hn, h3⟩
        · exact absurd h3 (by simp)
        · injection h3 with h3
          have := hfresh a c n ha hn
          rw [h3] at this
          exact this rfl

set_option maxRecDepth 1000000 in
/-- Witness for C21: with an instance of the connector for all of 1177.se cached, the call
for a journal address returns that instance and leaves the state as it is, although the
connector for the journal pages is registered too. -/
theorem C21_cached_matches_call_unguarded_witness :
    getActiveConnector
        { connectors := [connectorJournal, connectorSite],
          activeConnector := some { classOf := connectorSite, ident := 1 } }
        (jstr "https://journalen.1177.se/") (fun _ => some 2) =
      some ({ connectors := [connectorJournal, connectorSite],
              activeConnector := some { classOf := connectorSite, ident := 1 } },
        some { classOf := connectorSite, ident := 1 }) :=
  (C21_cached_matches_call_unguarded.2.2.2
    { connectors := [connectorJournal, connectorSite],
      activeConnector := some { classOf := connectorSite, ident := 1 } }
    (jstr "https://journalen.1177.se/") (fun _ => some 2)
    (by
      intro a ha
      injection ha with ha
      subst ha
      exact ne_of_eq_of_ne (rfl : _ = some true) (by simp))).2.1
    ⟨{ classOf := connectorSite, ident := 1 }, rfl, rfl⟩

theorem reachable_active_registered (r : Registry) (hr : Reachable r) :
    ∀ a, r.activeConnector = some a → a.classOf ∈ r.connectors := by
  induction hr with
  | init => intro a ha; exact absurd ha (by simp)
  | register r c _ ih =>
    intro a ha
    rw [registerConnector_active] at ha
    rcases registerConnector_connectors r c with h | h
    · rw [h]; exact ih a ha
    · rw [h]; exact List.mem_append_left _ (ih a ha)
  | getActive r url newInstance r1 res _ h ih =>
    intro a ha
    obtain ⟨h1, h2, h3⟩ := getActiveConnector_result r url newInstance r1 res h
    rw [h1]
    rw [h2] at ha
    rcases h3 with ⟨_, h3⟩ | ⟨_, h3⟩
    · rw [h3] at ha
      exact ih a ha
    · rcases h3 with ⟨_, h3⟩ | ⟨c, hf, h3⟩
      · rw [h3] at ha; exact absurd ha (by simp)
      · rcases h3 with ⟨_, h3⟩ | ⟨n, _, h3⟩
        · rw [h3] at ha; exact absurd ha (by simp)
        · rw [h3] at ha
          injection ha with ha
          subst ha
          obtain ⟨pre, post, e, _, _⟩ := findIn_some r.connectors url c hf
          show c ∈ r.connectors
          rw [e]
          simp
  | clear r _ _ => intro a ha; exact absurd ha (by simp [clearActiveConnector])

set_option maxRecDepth 1000000 in
/-- C26, as the claim states it, fails: the connector for the journal pages is registered
first and the connector for all of 1177.se second, and an instance of the second is made
for `https://www.1177.se/`; then `getActiveConnector('https://journalen.1177.se/')` returns
that cached instance, of the second connector, while `findConnector` returns the first
connector for the same address. -/
theorem C26_counterexample :
    Reachable registryTwo ∧
    getActiveConnector registryTwo (jstr "https://journalen.1177.se/") (fun _ => some 2) =
      some (registryTwo, some { classOf := connectorSite, ident := 1 }) ∧
    (findConnector registryTwo (jstr "https://journalen.1177.se/")).2 = some connectorJournal ∧
    connectorSite.providerName ≠ connectorJournal.providerName := by
  refine ⟨?_, rfl, rfl, by decide⟩
  have h0 : registerConnector
      (registerConnector { connectors := [], activeConnector := none } connectorJournal)
      connectorSite = { connectors := [connectorJournal, connectorSite],
                        activeConnector := none } := rfl
  have h1 : getActiveConnector
      { connectors := [connectorJournal, connectorSite], activeConnector := none }
      (jstr "https://www.1177.se/") (fun _ => some 1) =
      some (registryTwo, some { classOf := connectorSite, ident := 1 }) := rfl
  have hreach := Reachable.register _ connectorSite
    (Reachable.register _ connectorJournal Reachable.init)
  rw [h0] at hreach
  exact Reachable.getActive _ _ _ _ _ hreach h1

/-- C26 (amended): in every state reachable by `registerConnector`, `getActiveConnector`
and `clearActiveConnector`, an instance that `getActiveConnector(url)` returns belongs to a
registered connector whose `matches(url)` is true; it is the cached instance when the
connector of the cached instance matches the url, and otherwise an instance of the
connector that `findConnector(url)` returns, the first registered connector that matches
the url. -/
theorem C26_active_instance_matches (r : Registry) (hr : Reachable r) (url : Str)
    (newInstance : ConnectorClass → Option Nat) (r1 : Registry) (a : ConnectorInstance)
    (h : getActiveConnector r url newInstance = some (r1, some a)) :
    a.classOf ∈ r.connectors ∧ a.classOf.callMatches url = some true ∧
    (CachedMatches r url → r.activeConnector = some a) ∧
    (¬ CachedMatches r url → (findConnector r url).2 = some a.classOf ∧
      ∃ pre post, r.connectors = pre ++ a.classOf :: post ∧
        ∀ x ∈ pre, x.callMatches url ≠ some true) := by
  obtain ⟨_, _, h3⟩ := getActiveConnector_result r url newInstance r1 (some a) h
  rcases h3 with ⟨hc, h3⟩ | ⟨hc, h3⟩
  · obtain ⟨b, hb, hm⟩ := hc
    rw [hb] at h3
    injection h3 with h3
    subst h3
    exact ⟨reachable_active_registered r hr a hb, hm, fun _ => hb,
      fun hn => absurd ⟨a, hb, hm⟩ hn⟩
  · rcases h3 with ⟨_, h3⟩ | ⟨c, hf, h3⟩
    · exact absurd h3 (by simp)
    · rcases h3 with ⟨_, h3⟩ | ⟨n, _, h3⟩
      · exact absurd h3 (by simp)
      · injection h3 with h3
        subst h3
        obtain ⟨pre, post, e, hm, hpre⟩ := findIn_some r.connectors url c hf
        refine ⟨?_, hm, fun h => absurd h hc, fun _ => ⟨hf, pre, post, e, hpre⟩⟩
        show c ∈ r.connectors
        rw [e]
        simp

set_option maxRecDepth 1000000 in
/-- Witness for C26 (amended): in the state of the counterexample the returned instance
belongs to a registered connector that matches the address. -/
theorem C26_active_instance_matches_witness :
    connectorSite ∈ registryTwo.connectors ∧
      connectorSite.callMatches (jstr "https://journalen.1177.se/") = some true :=
  have hreach : Reachable registryTwo :=
    Reachable.getActive _ (jstr "https://www.1177.se/") (fun _ => some 1) _ _
      (Reachable.register _ connectorSite
        (Reachable.register _ connectorJournal Reachable.init))
      (rfl : getActiveConnector
        (registerConnector
          (registerConnector { connectors := [], activeConnector := none } connectorJournal)
          connectorSite)
        (jstr "https://www.1177.se/") (fun _ => some 1) =
        some (registryTwo, some { classOf := connectorSite, ident := 1 }))
  let h := C26_active_instance_matches registryTwo hreach (jstr "https://journalen.1177.se/")
    (fun _ => some 2) registryTwo { classOf := connectorSite, ident := 1 } rfl
  ⟨h.1, h.2.1⟩

/-! ## The authentication heuristics and the load-more loop -/

set_option maxRecDepth 1000000 in
/-- C23 (the code at a failing input, and what it does in general): on the address
`https://e-tjanster.1177.se/login` with none of the indicator elements on the page, the
disjunction of the heuristics is false, but both `Connector1177.isAuthenticated` and
`BaseConnector.isAuthenticated` return true.  The last element of the array is a boolean,
and a boolean is never `null`, so both methods return true on every page. -/
theorem C23_isAuthenticated_always_true :
    signedInHeuristics1177 { href := jstr "https://e-tjanster.1177.se/login" } = false ∧
    Connector1177.isAuthenticated { href := jstr "https://e-tjanster.1177.se/login" } = true ∧
    signedInHeuristicsBase { href := jstr "https://e-tjanster.1177.se/login" } = false ∧
    BaseConnector.isAuthenticated { href := jstr "https://e-tjanster.1177.se/login" } = true ∧
    ∀ page : Page, Connector1177.isAuthenticated page = true ∧
      BaseConnector.isAuthenticated page = true := by
  refine ⟨by decide, by decide, by decide, by decide, ?_⟩
  intro page
  constructor
  · simp [Connector1177.isAuthenticated, Indicator.isNotNull]
  · simp [BaseConnector.isAuthenticated, Indicator.isNotNull]

theorem loadLoop_clicked (page : Nat → Option LoadMoreButton) :
    ∀ (n left clicks : Nat), n ≤ left →
      (∀ i, i < n → LoadMoreClicked (page (clicks + i))) →
      loadLoop page left clicks = loadLoop page (left - n) (clicks + n) := by
  intro n
  induction n with
  | zero => intro left clicks _ _; rfl
  | succ n ih =>
    intro left clicks hle h
    obtain ⟨l, rfl⟩ : ∃ l, left = l + 1 := ⟨left - 1, by omega⟩
    obtain ⟨x, hx, h1, h2, h3⟩ := h 0 (by omega)
    rw [Nat.add_zero] at hx
    rw [loadLoop, hx]
    simp only [h1, h2, h3, Bool.or_self, Bool.false_eq_true, if_false]
    rw [ih l (clicks + 1) (by omega)
      (fun i hi => by rw [Nat.add_assoc, Nat.add_comm 1 i]; exact h (i + 1) (by omega))]
    rw [show l + 1 - (n + 1) = l - n by omega, show clicks + 1 + n = clicks + (n + 1) by omega]

theorem loadLoop_stop (page : Nat → Option LoadMoreButton) (left clicks : Nat)
    (h : left = 0 ∨ ¬ LoadMoreClicked (page clicks)) : loadLoop page left clicks = clicks := by
  cases left with
  | zero => rfl
  | succ l =>
    rcases h with h | h
    · exact absurd h (by simp)
    · rw [loadLoop]
      cases hp : page clicks with
      | none => rfl
      | some x =>
        simp only
        by_cases hb : (x.offsetParentNull || x.disabled) = true
        · rw [if_pos hb]
        · rw [if_neg hb]
          by_cases hr : x.clickRaises = true
          · rw [if_pos hr]
          · exfalso
            apply h
            rw [hp]
            simp only [Bool.or_eq_true, not_or, Bool.not_eq_true] at hb hr
            exact ⟨x, rfl, hb.1, hb.2, hr⟩

set_option maxRecDepth 1000000 in
/-- C24, as the claim states it, fails: when the button is present, visible and not
disabled in the first 3 iterations and absent afterwards, but its click raises, the loop
ends after no completed cycle, not after 3; and when such a button never disappears, it
ends after no completed cycle, not after 50. -/
theorem C24_counterexample :
    (∀ i, i < 3 → LoadMoreReady (pageThenAbsent { clickRaises := true } 3 i)) ∧
    ¬ LoadMoreReady (pageThenAbsent { clickRaises := true } 3 3) ∧
    loadAllJournalEntries (pageThenAbsent { clickRaises := true } 3) = 0 ∧
    (∀ i, LoadMoreReady (pageAlways { clickRaises := true } i)) ∧
    loadAllJournalEntries (pageAlways { clickRaises := true }) = 0 := by
  refine ⟨?_, ?_, by decide, ?_, by decide⟩
  · intro i hi
    simp only [pageThenAbsent, hi, if_true]
    exact ⟨_, rfl, rfl, rfl⟩
  · rintro ⟨x, hx, _⟩
    simp [pageThenAbsent] at hx
  · intro i
    exact ⟨_, rfl, rfl, rfl⟩

/-- C24 (amended): `loadAllJournalEntries` returns, and it does so after exactly
`min k 50` click-and-wait cycles, where `k` is the number of consecutive iterations, counted
from the first, in which the button is present, visible, not disabled and its click does
not raise (so iteration `k` is the first one without such a button, when `k < 50`). -/
theorem C24_load_more_cycles (page : Nat → Option LoadMoreButton) (k : Nat)
    (hk : ∀ i, i < min k 50 → LoadMoreClicked (page i))
    (hstop : k < 50 → ¬ LoadMoreClicked (page k)) :
    loadAllJournalEntries page = min k 50 := by
  unfold loadAllJournalEntries maxClicks
  rw [loadLoop_clicked page (min k 50) 50 0 (Nat.min_le_right _ _)
    (fun i hi => by rw [Nat.zero_add]; exact hk i hi), Nat.zero_add]
  apply loadLoop_stop
  by_cases h : k < 50
  · right
    rw [Nat.min_eq_left (by omega)]
    exact hstop h
  · left
    rw [Nat.min_eq_right (by omega)]

set_option maxRecDepth 1000000 in
/-- Witness for C24 (amended): a button that is there for 3 iterations and then absent
gives 3 cycles, and a button that never disappears gives 50. -/
theorem C24_load_more_cycles_witness :
    loadAllJournalEntries (pageThenAbsent { } 3) = 3 ∧
      loadAllJournalEntries (pageAlways { }) = 50 :=
  ⟨C24_load_more_cycles (pageThenAbsent { } 3) 3
      (fun i hi => by
        have hi3 : i < 3 := by simpa using hi
        simp only [pageThenAbsent, hi3, if_true]
        exact ⟨_, rfl, rfl, rfl, rfl⟩)
      (fun _ => by
        rintro ⟨x, hx, _⟩
        simp [pageThenAbsent] at hx),
    C24_load_more_cycles (pageAlways { }) 50
      (fun _ _ => ⟨_, rfl, rfl, rfl, rfl⟩)
      (fun h => absurd h (by decide))⟩

/-! ## The entries that the extractor returns -/

theorem extractEntryContent_some (element : EntryElement) (e : RawEntry)
    (h : extractEntryContent element = some e) :
    e.text = some (resultingText element) ∧ 20 < (resultingText element).length := by
  unfold extractEntryContent at h
  simp only at h
  split_ifs at h with hc
  injection h with h
  subst h
  simp only [Bool.and_eq_true, decide_eq_true_eq] at hc
  exact ⟨rfl, hc.2⟩

theorem extractEntryContent_none (element : EntryElement) :
    extractEntryContent element = none ↔ (resultingText element).length ≤ 20 := by
  unfold extractEntryContent
  simp only
  constructor
  · intro h
    split_ifs at h with hc
    simp only [Bool.and_eq_true, decide_eq_true_eq, not_and, not_lt] at hc
    by_cases he : (resultingText element) = []
    · rw [he]; simp
    · apply hc
      cases hr : resultingText element with
      | nil => exact absurd hr he
      | cons a b =>
        unfold resultingText at hr
        rw [hr]
        rfl
  · intro h
    rw [if_neg]
    simp only [Bool.and_eq_true, decide_eq_true_eq, not_and, not_lt]
    intro _
    exact h

set_option maxRecDepth 1000000 in
/-- C25, as the claim states it, fails: the container with the text `Besök 17 mar 2025 ok`
between blanks and line breaks gives a resulting text of exactly 20 characters, and the
entry is discarded. -/
theorem C25_counterexample :
    resultingText { textContent := some (jstr "  Besök 17 mar\n 2025 ok ") } =
      jstr "Besök 17 mar 2025 ok" ∧
    (jstr "Besök 17 mar 2025 ok").length = 20 ∧
    extractEntryContent { textContent := some (jstr "  Besök 17 mar\n 2025 ok ") } = none := by
  refine ⟨by decide, by decide, ?_⟩
  rw [extractEntryContent_none]
  decide

/-- C25 (amended): `extractEntryContent` discards the entry (returns `null`) if and only if
the resulting text, after trimming and collapsing of white space, has 20 characters or
fewer; an entry whose resulting text has 21 or more characters is returned, with that
text. -/
theorem C25_discarded_iff_at_most_20 (element : EntryElement) :
    (extractEntryContent element = none ↔ (resultingText element).length ≤ 20) ∧
    (21 ≤ (resultingText element).length →
      ∃ e, extractEntryContent element = some e ∧ e.text = some (resultingText element)) := by
  refine ⟨extractEntryContent_none element, ?_⟩
  intro h
  cases he : extractEntryContent element with
  | none =>
    have := (extractEntryContent_none element).mp he
    omega
  | some e => exact ⟨e, rfl, (extractEntryContent_some element e he).1⟩

set_option maxRecDepth 1000000 in
/-- Witness for C25 (amended): one character more than in the counterexample and the entry
is returned. -/
theorem C25_discarded_iff_at_most_20_witness :
    ∃ e, extractEntryContent { textContent := some (jstr "  Besök 17 mar\n 2025 ok!") } = some e ∧
      e.text = some (resultingText { textContent := some (jstr "  Besök 17 mar\n 2025 ok!") }) :=
  (C25_discarded_iff_at_most_20 { textContent := some (jstr "  Besök 17 mar\n 2025 ok!") }).2
    (by decide)

/-! ## The text of an extracted entry -/

theorem collapseAux_spec (s : Str) : ∀ b : Bool,
    List.Chain' (fun x y => ¬ (isSpace x = true ∧ isSpace y = true)) (collapseAux b s) ∧
    (b = true → ∀ c, (collapseAux b s).head? = some c → isSpace c = false) ∧
    (∀ c ∈ collapseAux b s, isSpace c = true → c = ' ') := by
  induction s with
  | nil =>
    intro b
    simp [collapseAux]
  | cons c cs ih =>
    intro b
    by_cases hc : isSpace c = true
    · cases b with
      | true =>
        have e : collapseAux true (c :: cs) = collapseAux true cs := by
          simp only [collapseAux, hc, if_true]
        rw [e]
        exact ih true
      | false =>
        have e : collapseAux false (c :: cs) = ' ' :: collapseAux true cs := by
          simp [collapseAux, hc]
        rw [e]
        obtain ⟨h1, h2, h3⟩ := ih true
        refine ⟨?_, fun hb => absurd hb (by simp), ?_⟩
        · rw [List.chain'_cons']
          refine ⟨?_, h1⟩
          intro y hy
          have := h2 rfl y (by simpa using hy)
          simp [this]
        · intro x hx hs
          rcases List.mem_cons.mp hx with rfl | hx
          · rfl
          · exact h3 x hx hs
    · have hcf : isSpace c = false := by simpa using hc
      have e : collapseAux b (c :: cs) = c :: collapseAux false cs := by
        simp [collapseAux, hcf]
      rw [e]
      obtain ⟨h1, _, h3⟩ := ih false
      refine ⟨?_, ?_, ?_⟩
      · rw [List.chain'_cons']
        refine ⟨?_, h1⟩
        intro y _
        simp [hcf]
      · intro _ x hx
        simp only [List.head?_cons, Option.some.injEq] at hx
        rw [← hx]
        exact hcf
      · intro x hx hs
        rcases List.mem_cons.mp hx with rfl | hx
        · rw [hcf] at hs; exact absurd hs (by simp)
        · exact h3 x hx hs

theorem blankLines_matchAt_none (i : Nat) (s : Str) (h : '\n' ∉ s) :
    reBlankLines.matchAt i s = none := by
  cases hm : reBlankLines.matchAt i s with
  | none => rfl
  | some m =>
    exfalso
    obtain ⟨w, rest, e, hl⟩ := (Re.matchAt_isSome_iff reBlankLines i s).mp (by rw [hm]; rfl)
    simp only [reBlankLines, Re.Lang] at hl
    obtain ⟨w1, w2, e1, e2, _⟩ := hl
    apply h
    rw [e, e1, e2]
    simp

theorem replaceAux_blankLines (rep : Str) (s : Str) :
    ∀ i : Nat, '\n' ∉ s → replaceAux reBlankLines rep 0 i s = s := by
  induction s with
  | nil =>
    intro i h
    rw [replaceAux, blankLines_matchAt_none i [] h]
  | cons c cs ih =>
    intro i h
    rw [replaceAux, blankLines_matchAt_none i (c :: cs) h]
    simp only
    rw [ih (i + 1) (fun hc => h (List.mem_cons_of_mem _ hc))]

theorem trim_within (s : Str) : trim s <:+: s := by
  rw [trim_eq]
  have h1 := List.rdropWhile_prefix isSpace (s.dropWhile isSpace)
  have h2 : s.dropWhile isSpace <:+ s := List.dropWhile_suffix isSpace
  exact h1.isInfix.trans h2.isInfix

theorem trim_head (s : Str) (c : Char) (h : (trim s).head? = some c) : isSpace c = false := by
  rw [trim_eq] at h
  have hp : (s.dropWhile isSpace).rdropWhile isSpace <+: s.dropWhile isSpace :=
    List.rdropWhile_prefix _ _
  obtain ⟨x, hx⟩ := hp
  cases ht : (s.dropWhile isSpace).rdropWhile isSpace with
  | nil => rw [ht] at h; exact absurd h (by simp)
  | cons a t =>
    rw [ht] at h hx
    simp only [List.head?_cons, Option.some.injEq] at h
    subst h
    have hd := List.head?_dropWhile_not isSpace s
    rw [← hx] at hd
    simpa using hd

theorem trim_last (s : Str) (c : Char) (h : (trim s).getLast? = some c) :
    isSpace c = false := by
  rw [trim_eq] at h
  have hne : (s.dropWhile isSpace).rdropWhile isSpace ≠ [] := by
    intro e; rw [e] at h; exact absurd h (by simp)
  have := List.rdropWhile_last_not isSpace (s.dropWhile isSpace) hne
  rw [List.getLast?_eq_getLast _ hne] at h
  injection h with h
  rw [h] at this
  simpa using this

theorem trim_id (t : Str) (hh : ∀ c, t.head? = some c → isSpace c = false)
    (hl : ∀ c, t.getLast? = some c → isSpace c = false) : trim t = t := by
  rw [trim_eq]
  have h1 : t.dropWhile isSpace = t := by
    cases t with
    | nil => rfl
    | cons a r => simp [List.dropWhile, hh a rfl]
  rw [h1, List.rdropWhile_eq_self_iff]
  intro hne
  have := hl (t.getLast hne) (List.getLast?_eq_getLast _ hne)
  simp [this]

theorem split_no_sep (sep : Char) (s : Str) (h : sep ∉ s) : split sep s = [s] := by
  induction s with
  | nil => rfl
  | cons c cs ih =>
    have hc : (c == sep) = false := by
      have : c ≠ sep := fun e => h (by rw [e]; exact List.mem_cons_self _ _)
      simpa using this
    rw [split, ih (fun hm => h (List.mem_cons_of_mem _ hm))]
    simp [hc]

theorem cleanTextOf_spec (x : Str) :
    (∀ c ∈ cleanTextOf x, isSpace c = true → c = ' ') ∧
    List.Chain' (fun a b => ¬ (isSpace a = true ∧ isSpace b = true)) (cleanTextOf x) ∧
    (∀ c, (cleanTextOf x).head? = some c → isSpace c = false) ∧
    (∀ c, (cleanTextOf x).getLast? = some c → isSpace c = false) := by
  obtain ⟨h1, _, h3⟩ := collapseAux_spec x false
  have hn : '\n' ∉ collapseSpaces x := by
    intro hm
    have := h3 '\n' hm (by decide)
    exact absurd this (by decide)
  have e : cleanTextOf x = trim (collapseSpaces x) := by
    unfold cleanTextOf replaceAll
    rw [replaceAux_blankLines _ _ 0 hn]
  rw [e]
  refine ⟨?_, ?_, trim_head _, trim_last _⟩
  · intro c hc hs
    exact h3 c ((trim_within _).subset hc) hs
  · exact h1.infix (trim_within _)

theorem extractNotes_one_line (t : Str) (hn : '\n' ∉ t)
    (hh : ∀ c, t.head? = some c → isSpace c = false)
    (hl : ∀ c, t.getLast? = some c → isSpace c = false) :
    extractNotes (some t) = [] ∨ extractNotes (some t) = [t] := by
  cases t with
  | nil => exact Or.inl rfl
  | cons a r =>
    unfold extractNotes
    simp only [split_no_sep '\n' (a :: r) hn, List.map_cons, List.map_nil,
      trim_id (a :: r) hh hl, List.filter_cons, List.filter_nil, List.isEmpty_cons,
      Bool.not_false, if_true]
    split_ifs
    · right; rfl
    · left; rfl

/-- C28: the text of an entry that `extractEntryContent` returns holds no white space other
than single blanks (so no line break), no two adjacent white-space characters, and no
white space at its start or end; consequently `extractNotes` of that text is empty or has
the entire text as its only element. -/
theorem C28_entry_text_is_one_line (element : EntryElement) (e : RawEntry)
    (h : extractEntryContent element = some e) :
    ∃ t, e.text = some t ∧
      '\n' ∉ t ∧ (∀ c ∈ t, isSpace c = true → c = ' ') ∧
      (∀ pre a b post, t = pre ++ a :: b :: post → ¬ (isSpace a = true ∧ isSpace b = true)) ∧
      (∀ c, t.head? = some c → isSpace c = false) ∧
      (∀ c, t.getLast? = some c → isSpace c = false) ∧
      (extractNotes e.text = [] ∨ extractNotes e.text = [t]) := by
  obtain ⟨ht, _⟩ := extractEntryContent_some element e h
  obtain ⟨h1, h2, h3, h4⟩ :=
    cleanTextOf_spec (trim (orElse element.textContent (orElse element.innerText [])))
  have hn : '\n' ∉ resultingText element := by
    intro hm
    have := h1 '\n' hm (by decide)
    exact absurd this (by decide)
  refine ⟨resultingText element, ht, hn, h1, ?_, h3, h4, ?_⟩
  · intro pre a b post e2
    have hin : [a, b] <:+: resultingText element := ⟨pre, post, by rw [e2]; simp⟩
    have hpair := h2.infix hin
    exact List.chain'_pair.mp hpair
  · rw [ht]
    exact extractNotes_one_line _ hn h3 h4

set_option maxRecDepth 1000000 in
/-- Witness for C28: a container whose text has three lines with a colon each gives an entry
whose text is one line, and the notes are that line alone. -/
theorem C28_entry_text_is_one_line_witness :
    ∃ t, (extractEntryContent
        { textContent := some (jstr " Diagnos: J06\n  Ordination: vila \n Status: Signerad\n") }).bind
          (fun e => e.text) = some t ∧
      '\n' ∉ t ∧ extractNotes (some t) = [t] :=
  let el : EntryElement :=
    { textContent := some (jstr " Diagnos: J06\n  Ordination: vila \n Status: Signerad\n") }
  have hsome : (extractEntryContent el).isSome = true := by decide
  let ⟨e, he⟩ := Option.isSome_iff_exists.mp hsome
  let ⟨t, h1, h2, _, _, _, _, h7⟩ := C28_entry_text_is_one_line el e he
  ⟨t, by show (extractEntryContent el).bind (fun e => e.text) = some t; rw [he]; exact h1, h2,
    by
      rw [h1] at h7
      rcases h7 with h7 | h7
      · exfalso
        have hev : ((extractEntryContent el).bind (fun e => e.text)).map
            (fun x => extractNotes (some x)) ≠ some [] := by decide
        apply hev
        rw [he]
        show (e.text).map (fun x => extractNotes (some x)) = some []
        rw [h1]
        exact congrArg some h7
      · exact h7⟩

/-! ## Dates: the extractor and the normalizer -/

theorem isoStart_none (s : Str) (h : reIso.exec s = none) : reIsoStart.exec s = none := by
  cases hs : reIsoStart.exec s with
  | none => rfl
  | some m =>
    exfalso
    obtain ⟨pre, w, rest, e, hl⟩ := (Re.exec_isSome_iff reIsoStart s).mp (by rw [hs]; rfl)
    simp only [reIsoStart, Re.Lang] at hl
    obtain ⟨w1, w2, e1, ⟨e2, _⟩, hl2⟩ := hl
    have : (reIso.exec s).isSome = true := by
      rw [Re.exec_isSome_iff]
      refine ⟨pre, w2, rest, by rw [e, e1, e2]; rfl, ?_⟩
      simp only [reIso, Re.Lang]
      simpa only [reIsoBody, Re.Lang] using hl2
    rw [h] at this
    exact absurd this (by simp)

/-- C29: for every input `formatDate` returns what the two-step function returns that tries
the Swedish day-month-year pattern on its leftmost match and then the ISO pattern anywhere
in the string; the step with the ISO pattern at the start and the retry for strings longer
than 20 characters never decide the result.  Both return a string for every input. -/
theorem C29_formatDate_two_steps (dateString : Option Str) :
    formatDate dateString = formatDateTwoStep dateString ∧
      ∃ r, formatDate dateString = some r := by
  refine ⟨?_, formatDate_total dateString⟩
  unfold formatDate formatDateTwoStep
  split
  · rfl
  · rfl
  · next c cs =>
    simp only
    cases hstep : swedishStep (trim (collapseSpaces (c :: cs))) with
    | none => rfl
    | some r =>
      cases r with
      | some d => rfl
      | none =>
        simp only
        cases hiso : reIso.exec (trim (collapseSpaces (c :: cs))) with
        | some m => rfl
        | none =>
          simp only [isoStart_none _ hiso]
          split_ifs <;> rfl

theorem dropWhile_keeps (p : Char → Bool) (pre w q : Str) (hw : w ≠ [])
    (hns : ∀ c ∈ w, p c = false) : ∃ p1, (pre ++ (w ++ q)).dropWhile p = p1 ++ (w ++ q) := by
  obtain ⟨a, w1, rfl⟩ := List.exists_cons_of_ne_nil hw
  exact dropWhile_append_stop p pre a (w1 ++ q) (hns a (List.mem_cons_self _ _))

theorem rdropWhile_keeps (p : Char → Bool) (pre w q : Str) (hw : w ≠ [])
    (hns : ∀ c ∈ w, p c = false) : ∃ q1, (pre ++ (w ++ q)).rdropWhile p = pre ++ (w ++ q1) := by
  obtain ⟨q1, h⟩ := dropWhile_keeps p q.reverse w.reverse pre.reverse (by simpa using hw)
    (fun c hc => hns c (List.mem_reverse.mp hc))
  refine ⟨q1.reverse, ?_⟩
  unfold List.rdropWhile
  have e : (pre ++ (w ++ q)).reverse = q.reverse ++ (w.reverse ++ pre.reverse) := by simp
  rw [e, h]
  simp

theorem trim_keeps (pre w q : Str) (hw : w ≠ []) (hns : ∀ c ∈ w, isSpace c = false) :
    ∃ p1 q1, trim (pre ++ (w ++ q)) = p1 ++ (w ++ q1) := by
  obtain ⟨p1, h1⟩ := dropWhile_keeps isSpace pre w q hw hns
  obtain ⟨q1, h2⟩ := rdropWhile_keeps isSpace p1 w q hw hns
  exact ⟨p1, q1, by rw [trim_eq, h1, h2]⟩

theorem collapse_keeps (w q : Str) (hw : w ≠ []) (hns : ∀ c ∈ w, isSpace c = false) :
    ∀ (pre : Str) (b : Bool), ∃ p1 q1, collapseAux b (pre ++ (w ++ q)) = p1 ++ (w ++ q1) := by
  intro pre
  induction pre with
  | nil =>
    intro b
    exact ⟨[], collapseAux false q, by rw [List.nil_append, collapse_nonspace w q b hns hw]; rfl⟩
  | cons c cs ih =>
    intro b
    by_cases hc : isSpace c = true
    · obtain ⟨p1, q1, h⟩ := ih true
      cases b with
      | true => exact ⟨p1, q1, by simp only [List.cons_append, collapseAux, hc, if_true]; exact h⟩
      | false =>
        refine ⟨' ' :: p1, q1, ?_⟩
        simp only [List.cons_append, collapseAux, hc, if_true, Bool.false_eq_true, if_false]
        rw [List.append_eq, h]
    · obtain ⟨p1, q1, h⟩ := ih false
      refine ⟨c :: p1, q1, ?_⟩
      have hcf : isSpace c = false := by simpa using hc
      simp only [List.cons_append, collapseAux, hcf, Bool.false_eq_true, if_false]
      rw [List.append_eq, h]

theorem isoDate_nonspace (y mo d w : Str) (h : IsIsoDate y mo d w) :
    w ≠ [] ∧ ∀ c ∈ w, isSpace c = false := by
  obtain ⟨e, hy, _, _, hyd, hmd, hdd⟩ := h
  constructor
  · intro e2
    rw [e2] at e
    have := congrArg List.length e
    simp at this
    omega
  · intro c hc
    rw [e] at hc
    simp only [List.mem_append, List.mem_singleton] at hc
    rcases hc with (((hc | hc) | hc) | hc) | hc
    · exact isSpace_of_isDigit c (hyd c hc)
    · rw [hc]; decide
    · exact isSpace_of_isDigit c (hmd c hc)
    · rw [hc]; decide
    · exact isSpace_of_isDigit c (hdd c hc)

theorem isoDate_ne_unknown (y mo d w : Str) (h : IsIsoDate y mo d w) : w ≠ unknown := by
  intro e
  have := isoDate_length _ _ _ _ h
  rw [e] at this
  exact absurd this (by decide)

theorem formatDate_iso_line (line : Str) (h : (reIso.exec line).isSome = true) :
    ∃ r, formatDate (some line) = some r ∧ r ≠ unknown := by
  obtain ⟨pre, w, rest, e, hl⟩ := (Re.exec_isSome_iff reIso line).mp h
  simp only [reIso, Re.Lang] at hl
  obtain ⟨y, mo, d, hiso⟩ := isoBody_lang 0 w rest (by simpa only [reIsoBody, Re.Lang] using hl)
  obtain ⟨hw, hns⟩ := isoDate_nonspace y mo d w hiso
  obtain ⟨p1, q1, hc⟩ := collapse_keeps w rest hw hns pre false
  obtain ⟨p2, q2, ht⟩ := trim_keeps p1 w q1 hw hns
  have hclean : (reIso.exec (trim (collapseSpaces line))).isSome = true := by
    rw [Re.exec_isSome_iff]
    refine ⟨p2, w, q2, ?_, ?_⟩
    · unfold collapseSpaces
      rw [e, hc, ht]
    · simp only [reIso, Re.Lang]
      simpa only [reIsoBody, Re.Lang] using hl
  obtain ⟨c, cs, hline⟩ : ∃ c cs, line = c :: cs := by
    cases line with
    | nil =>
      exfalso
      have := congrArg List.length e
      obtain ⟨a, w1, rfl⟩ := List.exists_cons_of_ne_nil hw
      simp at this
      omega
    | cons c cs => exact ⟨c, cs, rfl⟩
  subst hline
  unfold formatDate
  simp only
  obtain ⟨s, hs⟩ := swedishStep_total (trim (collapseSpaces (c :: cs)))
  rw [hs]
  cases s with
  | some dd =>
    obtain ⟨y2, mo2, d2, h2⟩ := swedishStep_shape _ _ hs
    exact ⟨dd, rfl, isoDate_ne_unknown _ _ _ _ h2⟩
  | none =>
    simp only
    obtain ⟨m, hm⟩ := Option.isSome_iff_exists.mp hclean
    rw [hm]
    simp only
    obtain ⟨v, hv⟩ := Re.exec_group reIso 1 rfl _ m hm
    have hgl := Re.exec_group_lang reIso 1 (by decide) _ m hm v hv
    simp only [reIso, Re.groupLang, true_and] at hgl
    rcases hgl with ⟨i, rest2, hgl⟩ | hgl
    · obtain ⟨y2, mo2, d2, h2⟩ := isoBody_lang i v rest2 hgl
      exact ⟨v, hv, isoDate_ne_unknown _ _ _ _ h2⟩
    · simp [reIsoBody, Re.groupLang] at hgl

set_option maxRecDepth 1000000 in
/-- C27 (the code at a failing input, and the part that holds): the line
`Tel 08 123 4567 besök 17 mar 2025` contains a day, a Swedish month abbreviation and a
four-digit year, and `extractEntryContent` takes it as the date of the entry; but
`formatDate` of that line is `Unknown`, because the leftmost match of its own pattern is
`08 123 4567`, whose middle part is no month, and neither the ISO step nor the retry for
long strings looks further.  A line that contains an ISO date is always parsed. -/
theorem C27_detected_date_not_parsed :
    (reSwedishMonthDate.exec (jstr "Tel 08 123 4567 besök 17 mar 2025")).isSome = true ∧
    (extractEntryContent
        { textContent := some (jstr "Tel 08 123 4567 besök 17 mar 2025") }).map
      (fun e => e.date) = some (some (jstr "Tel 08 123 4567 besök 17 mar 2025")) ∧
    formatDate (some (jstr "Tel 08 123 4567 besök 17 mar 2025")) = some (jstr "Unknown") ∧
    ∀ line : Str, (reIso.exec line).isSome = true →
      ∃ r, formatDate (some line) = some r ∧ r ≠ jstr "Unknown" := by
  refine ⟨by decide, by decide, by decide, formatDate_iso_line⟩

set_option maxRecDepth 1000000 in
/-- Witness for C27: a line with an ISO date after a text that the Swedish pattern of the
normalizer matches without finding a month. -/
theorem C27_detected_date_not_parsed_witness :
    ∃ r, formatDate (some (jstr "Tel 08 123 4567 besök 2025-03-17")) = some r ∧
      r ≠ jstr "Unknown" :=
  C27_detected_date_not_parsed.2.2.2 (jstr "Tel 08 123 4567 besök 2025-03-17") (by decide)

/-! ## The responsible person -/

theorem trimmed_trim (g : Str) : Trimmed (trim g) := ⟨trim_head g, trim_last g⟩

theorem trimmed_unknown : Trimmed unknown := by
  constructor
  · intro c h
    simp only [unknown] at h
    injection h with h
    rw [← h]
    decide
  · intro c h
    have : unknown.getLast? = some 'n' := by decide
    rw [this] at h
    injection h with h
    rw [← h]
    decide

theorem extractResponsiblePerson_trimmed (t : Option Str) (r : Str)
    (h : extractResponsiblePerson t = some r) : Trimmed r := by
  unfold extractResponsiblePerson at h
  split at h
  · injection h with h; rw [← h]; exact trimmed_unknown
  · injection h with h; rw [← h]; exact trimmed_unknown
  · split at h
    · next m hm =>
      obtain ⟨v, hv⟩ := Re.exec_group rePerson 1 rfl _ m hm
      rw [hv] at h
      injection h with h
      rw [← h]
      exact trimmed_trim v
    · split at h
      · next m hm =>
        obtain ⟨v, hv⟩ := Re.exec_group reOtherPerson 1 rfl _ m hm
        rw [hv] at h
        injection h with h
        rw [← h]
        exact trimmed_trim v
      · injection h with h; rw [← h]; exact trimmed_unknown

theorem extractRole_trimmed (t : Option Str) (r : Str)
    (h : extractRole t = some r) : Trimmed r := by
  unfold extractRole at h
  split at h
  · injection h with h; rw [← h]; exact trimmed_unknown
  · injection h with h; rw [← h]; exact trimmed_unknown
  · split at h
    · next m hm =>
      obtain ⟨v, hv⟩ := Re.exec_group reRole 1 rfl _ m hm
      rw [hv] at h
      injection h with h
      rw [← h]
      exact trimmed_trim v
    · injection h with h; rw [← h]; exact trimmed_unknown

theorem normalizeEntry_person (e : RawEntry) (i : Nat) (r : NormalizedEntry)
    (h : normalizeEntry e i = some r) :
    extractResponsiblePerson e.text = some r.responsible_person.name ∧
      extractRole e.text = some r.responsible_person.role := by
  obtain ⟨d, hd⟩ := formatDate_total e.date
  obtain ⟨t, ht⟩ := extractTime_total e.text
  obtain ⟨g, hg⟩ := extractRegion_total e.source
  obtain ⟨p, hp⟩ := extractResponsiblePerson_total e.text
  obtain ⟨ro, hro⟩ := extractRole_total e.text
  simp only [normalizeEntry, hd, ht, hg, hp, hro, Option.bind_eq_bind, Option.some_bind,
    Option.pure_def, Option.some.injEq] at h
  subst h
  exact ⟨hp, hro⟩

set_option maxRecDepth 1000000 in
/-- C30 (the code at a failing input, and the part that holds): for the raw entry with the
text `Antecknad av  (Läkare)`, where the name is missing between the two blanks, the name
of the responsible person in the normalized record is the empty string; for the text
`Provsvar ( ) utan anmärkning` the role is the empty string.  In general the name and the
role of a normalized record have no white space at the start or at the end. -/
theorem C30_empty_name_and_role :
    (normalizeEntry { text := some (jstr "Antecknad av  (Läkare)") } 0).map
      (fun r => r.responsible_person.name) = some [] ∧
    (normalizeEntry { text := some (jstr "Provsvar ( ) utan anmärkning") } 0).map
      (fun r => r.responsible_person.role) = some [] ∧
    ∀ (rawEntry : RawEntry) (index : Nat) (r : NormalizedEntry),
      normalizeEntry rawEntry index = some r →
        Trimmed r.responsible_person.name ∧ Trimmed r.responsible_person.role := by
  refine ⟨by decide, by decide, ?_⟩
  intro rawEntry index r h
  obtain ⟨h1, h2⟩ := normalizeEntry_person rawEntry index r h
  exact ⟨extractResponsiblePerson_trimmed _ _ h1, extractRole_trimmed _ _ h2⟩

set_option maxRecDepth 1000000 in
/-- Witness for C30: the example of the source, `Antecknad av Therese Karlberg
(Distriktssköterska)`, gives a name and a role without white space around them. -/
theorem C30_empty_name_and_role_witness :
    Trimmed (jstr "Therese Karlberg") ∧ Trimmed (jstr "Distriktssköterska") :=
  have hev : (normalizeEntry
      { text := some (jstr "Antecknad av Therese Karlberg (Distriktssköterska)") } 0).map
      (fun r => (r.responsible_person.name, r.responsible_person.role)) =
      some (jstr "Therese Karlberg", jstr "Distriktssköterska") := by decide
  match hn : normalizeEntry
      { text := some (jstr "Antecknad av Therese Karlberg (Distriktssköterska)") } 0, hev with
  | some r, hev =>
    have hp : (r.responsible_person.name, r.responsible_person.role) =
        (jstr "Therese Karlberg", jstr "Distriktssköterska") := Option.some.inj hev
    have h := C30_empty_name_and_role.2.2 _ 0 r hn
    have h1 : r.responsible_person.name = jstr "Therese Karlberg" := congrArg Prod.fst hp
    have h2 : r.responsible_person.role = jstr "Distriktssköterska" := congrArg Prod.snd hp
    ⟨h1 ▸ h.1, h2 ▸ h.2⟩
  | none, hev => absurd hev (by simp)

end Eir
